import Mathlib

/-!
Verification development for the CI-CD-Fixer-Agent backend.

The Python source is shallowly embedded: pure functions become Lean
functions over `String`/`List Char`/`ℚ`, the mutable database and the
in-memory learned-pattern list become explicit state passed through the
endpoint functions, and the external GitHub collaborator becomes an
oracle parameter describing its outcome.  Python floats are modelled by
rationals; machine hashing (hashlib.md5) is implemented bit-faithfully
over `Nat` with explicit reduction modulo 2^32.
-/

set_option maxRecDepth 100000

namespace CICDFixer

/-! ## Byte-level helpers (UTF-8 encoding of a string, as Python's str.encode) -/

/-- UTF-8 encoding of a single Unicode code point, as a list of byte values. -/
def utf8Bytes (n : Nat) : List Nat :=
  if n < 128 then [n]
  else if n < 2048 then [192 + n / 64, 128 + n % 64]
  else if n < 65536 then [224 + n / 4096, 128 + (n / 64) % 64, 128 + n % 64]
  else [240 + n / 262144, 128 + (n / 4096) % 64, 128 + (n / 64) % 64, 128 + n % 64]

/-- The UTF-8 bytes of a string (`text.encode()` in the source). -/
def strBytes (s : String) : List Nat :=
  s.data.flatMap (fun c => utf8Bytes c.toNat)

/-! ## MD5 (hashlib.md5), modelled over `Nat` with arithmetic mod 2^32 -/

namespace MD5

def mask32 : Nat := 4294967295

/-- Left rotation of a 32-bit word. -/
def rotl32 (x s : Nat) : Nat :=
  (((x <<< s) ||| (x >>> (32 - s)))) &&& mask32

/-- The 64 round constants, floor(2^32 * abs(sin(i+1))). -/
def kTable : List Nat :=
  [3614090360, 3905402710, 606105819, 3250441966, 4118548399, 1200080426,
   2821735955, 4249261313, 1770035416, 2336552879, 4294925233, 2304563134,
   1804603682, 4254626195, 2792965006, 1236535329, 4129170786, 3225465664,
   643717713, 3921069994, 3593408605, 38016083, 3634488961, 3889429448,
   568446438, 3275163606, 4107603335, 1163531501, 2850285829, 4243563512,
   1735328473, 2368359562, 4294588738, 2272392833, 1839030562, 4259657740,
   2763975236, 1272893353, 4139469664, 3200236656, 681279174, 3936430074,
   3572445317, 76029189, 3654602809, 3873151461, 530742520, 3299628645,
   4096336452, 1126891415, 2878612391, 4237533241, 1700485571, 2399980690,
   4293915773, 2240044497, 1873313359, 4264355552, 2734768916, 1309151649,
   4149444226, 3174756917, 718787259, 3951481745]

/-- The per-round left-rotation amounts. -/
def sTable : List Nat :=
  [7, 12, 17, 22, 7, 12, 17, 22, 7, 12, 17, 22, 7, 12, 17, 22,
   5, 9, 14, 20, 5, 9, 14, 20, 5, 9, 14, 20, 5, 9, 14, 20,
   4, 11, 16, 23, 4, 11, 16, 23, 4, 11, 16, 23, 4, 11, 16, 23,
   6, 10, 15, 21, 6, 10, 15, 21, 6, 10, 15, 21, 6, 10, 15, 21]

/-- One of the 64 MD5 rounds on the state (a, b, c, d), taking the 16
message words of the current block. -/
def md5Round (m : List Nat) (st : Nat × Nat × Nat × Nat) (i : Nat) :
    Nat × Nat × Nat × Nat :=
  let a := st.1
  let b := st.2.1
  let c := st.2.2.1
  let d := st.2.2.2
  let f :=
    if i < 16 then (b &&& c) ||| ((b ^^^ mask32) &&& d)
    else if i < 32 then (d &&& b) ||| ((d ^^^ mask32) &&& c)
    else if i < 48 then b ^^^ c ^^^ d
    else c ^^^ (b ||| (d ^^^ mask32))
  let g :=
    if i < 16 then i
    else if i < 32 then (5 * i + 1) % 16
    else if i < 48 then (3 * i + 5) % 16
    else (7 * i) % 16
  let fv := (f + a + kTable.getD i 0 + m.getD g 0) &&& mask32
  (d, (b + rotl32 fv (sTable.getD i 0)) &&& mask32, b, c)

/-- Process one 16-word block, updating the running state. -/
def md5Block (st : Nat × Nat × Nat × Nat) (m : List Nat) :
    Nat × Nat × Nat × Nat :=
  let r := (List.range 64).foldl (md5Round m) st
  ((st.1 + r.1) &&& mask32, (st.2.1 + r.2.1) &&& mask32,
   (st.2.2.1 + r.2.2.1) &&& mask32, (st.2.2.2 + r.2.2.2) &&& mask32)

/-- Little-endian split of a value into `k` bytes. -/
def leBytes : Nat → Nat → List Nat
  | 0, _ => []
  | k + 1, n => n % 256 :: leBytes k (n / 256)

/-- Group a byte list into little-endian 32-bit words. -/
def toWords : List Nat → List Nat
  | b0 :: b1 :: b2 :: b3 :: rest =>
      (b0 + 256 * b1 + 65536 * b2 + 16777216 * b3) :: toWords rest
  | _ => []

/-- MD5 padding: append 0x80, zero bytes to 56 mod 64, then the 64-bit
little-endian bit length. -/
def pad (msg : List Nat) : List Nat :=
  let r := msg.length % 64
  msg ++ 128 :: List.replicate ((119 - r) % 64) 0
      ++ leBytes 8 ((msg.length * 8) % 18446744073709551616)

/-- Split a list into chunks of 64 elements (structural recursion on a
fuel bounded by the list length, so that it reduces in the kernel). -/
def chunks64Aux : Nat → List Nat → List (List Nat)
  | 0, _ => []
  | _ + 1, [] => []
  | fuel + 1, x :: xs =>
      (x :: xs).take 64 :: chunks64Aux fuel ((x :: xs).drop 64)

/-- Split a list into chunks of 64 elements. -/
def chunks64 (l : List Nat) : List (List Nat) :=
  chunks64Aux l.length l

/-- The four initial state words. -/
def initState : Nat × Nat × Nat × Nat :=
  (1732584193, 4023233417, 2562383102, 271733878)

def hexDigit (n : Nat) : Char :=
  if n < 10 then Char.ofNat (48 + n) else Char.ofNat (87 + n)

/-- Lowercase hex rendering of a byte. -/
def hexByte (n : Nat) : List Char :=
  [hexDigit (n / 16), hexDigit (n % 16)]

/-- The full 32-character hex digest of a byte message. -/
def md5hexBytes (msg : List Nat) : String :=
  let st := (chunks64 (pad msg)).foldl (fun s c => md5Block s (toWords c)) initState
  let digestBytes := leBytes 4 st.1 ++ leBytes 4 st.2.1 ++ leBytes 4 st.2.2.1
      ++ leBytes 4 st.2.2.2
  ⟨digestBytes.flatMap hexByte⟩

/-- `hashlib.md5(s.encode()).hexdigest()`. -/
def md5hex (s : String) : String :=
  md5hexBytes (strBytes s)

end MD5

/-! ## Character classes (Python `re` semantics, ASCII fragment) -/

/-- Python's `\s` class (and `str.strip` whitespace), ASCII fragment. -/
def pyIsSpace (c : Char) : Bool :=
  c = ' ' || c = '\t' || c = '\n' || c = '\r' || c = '\x0b' || c = '\x0c'

/-- Python's `\w` class, ASCII fragment: alphanumerics and underscore. -/
def isWordChar (c : Char) : Bool :=
  c.isAlphanum || c = '_'

/-- `str.strip()`: drop leading and trailing whitespace. -/
def pyStrip (l : List Char) : List Char :=
  ((l.dropWhile pyIsSpace).reverse.dropWhile pyIsSpace).reverse

/-- `str.lower()` (ASCII fragment). -/
def pyLower (s : String) : String := ⟨s.data.map Char.toLower⟩

/-- `s[:n]` on characters. -/
def strTake (s : String) (n : Nat) : String := ⟨s.data.take n⟩

/-- `str.split(sep)` for a one-character separator: split at every
occurrence, keeping empty pieces. -/
def splitOnChar (sep : Char) (l : List Char) : List (List Char) :=
  l.foldr
    (fun c acc =>
      match acc with
      | [] => [[c]]
      | a :: as => if c = sep then [] :: a :: as else (c :: a) :: as)
    [[]]

/-! ## The extraction regexes of `MLPatternRecognizer.extract_error_signature`,
hand-compiled to scanners with Python `re.findall`/`re.sub` semantics
(leftmost, non-overlapping, backtracking as the patterns demand). -/

/-- The `(.+?)(?:\n|$)` tail: capture the (nonempty) run of non-newline
characters from here, consuming a following newline if present. -/
def tryCap (t : List Char) : Option (List Char × List Char) :=
  let cap := t.takeWhile (fun c => c ≠ '\n')
  if cap.isEmpty then none
  else some (cap,
    match t.drop cap.length with
    | '\n' :: r => r
    | r => r)

/-- The `\s*(.+?)(?:\n|$)` tail of patterns 1–3: greedy `\s*` tried
longest-first (so the recursion descends through whitespace before
falling back to capturing at the current position). -/
def matchBody : List Char → Option (List Char × List Char)
  | [] => none
  | c :: ts =>
      if pyIsSpace c then
        match matchBody ts with
        | some r => some r
        | none => tryCap (c :: ts)
      else tryCap (c :: ts)

/-- The `:?\s*(.+?)(?:\n|$)` tail: greedy optional colon, with the
colonless branch as backtracking fallback. -/
def matchAfterKw (t : List Char) : Option (List Char × List Char) :=
  match t with
  | ':' :: ts =>
      match matchBody ts with
      | some r => some r
      | none => matchBody (':' :: ts)
  | _ => matchBody t

/-- `re.findall` driver for the keyword patterns `kw:?\s*(.+?)(?:\n|$)`
(patterns 1–3): scan left to right, emit each capture, resume after the
whole match.  Structural recursion on a fuel bounded by the length. -/
def findallKwAux (kw : List Char) : Nat → List Char → List (List Char)
  | 0, _ => []
  | _ + 1, [] => []
  | fuel + 1, c :: ts =>
      if kw.isPrefixOf (c :: ts) then
        match matchAfterKw ((c :: ts).drop kw.length) with
        | some (cap, rest) => cap :: findallKwAux kw fuel rest
        | none => findallKwAux kw fuel ts
      else findallKwAux kw fuel ts

def findallKw (kw : List Char) (s : List Char) : List (List Char) :=
  findallKwAux kw s.length s

/-- Maximal runs of `\w` characters (used both by the `\w+error\w*`
patterns and by the `\w+` tokenizer of `calculate_similarity`). -/
def wordRunsAux : Nat → List Char → List (List Char)
  | 0, _ => []
  | _ + 1, [] => []
  | fuel + 1, c :: ts =>
      if isWordChar c then
        let run := (c :: ts).takeWhile isWordChar
        run :: wordRunsAux fuel ((c :: ts).drop run.length)
      else wordRunsAux fuel ts

def wordRuns (s : List Char) : List (List Char) :=
  wordRunsAux s.length s

/-- Does `kw` occur in `run` at some offset ≥ 1?  A maximal word run
matches `\w+kw\w*` (with the whole run as the capture) exactly when this
holds. -/
def hasInnerOcc (kw run : List Char) : Bool :=
  (List.range run.length).any (fun j => 1 ≤ j && kw.isPrefixOf (run.drop j))

/-- `re.findall` for the patterns `(\w+error\w*)` / `(\w+exception\w*)`
(patterns 4–5): each qualifying maximal word run is one match, captured
whole. -/
def findallWordPat (kw : List Char) (s : List Char) : List (List Char) :=
  (wordRuns s).filter (hasInnerOcc kw)

/-! ### The four cleaning substitutions -/

/-- The character class `[\w/.-]` of the file-path regex. -/
def inPathClass (c : Char) : Bool :=
  isWordChar c || c = '/' || c = '.' || c = '-'

/-- For the run `r1` following a `/`, the largest index `i ≥ 1` with
`r1[i] = '.'` and a word character at `i+1` — the backtracking split of
`/[\w/.-]+\.\w+` (greedy `[\w/.-]+` gives back just enough for `\.\w+`). -/
def findLastSplit (r1 : List Char) : Option Nat :=
  (List.range r1.length).foldl
    (fun acc i =>
      if 1 ≤ i && r1.getD i ' ' = '.' && i + 1 < r1.length
          && isWordChar (r1.getD (i + 1) ' ') then some i else acc)
    none

/-- At a `/`, try to match the rest of `/[\w/.-]+\.\w+`; on success
return the remainder after the whole match. -/
def tryPathTail (ts : List Char) : Option (List Char) :=
  let r1 := ts.takeWhile inPathClass
  match findLastSplit r1 with
  | some i =>
      let w := (r1.drop (i + 1)).takeWhile isWordChar
      some (ts.drop (i + 1 + w.length))
  | none => none

/-- `re.sub(r'/[\w/.-]+\.\w+', '<file>', part)`. -/
def sub1Aux : Nat → List Char → List Char
  | 0, s => s
  | _ + 1, [] => []
  | fuel + 1, c :: ts =>
      if c = '/' then
        match tryPathTail ts with
        | some rest => '<' :: 'f' :: 'i' :: 'l' :: 'e' :: '>' :: sub1Aux fuel rest
        | none => c :: sub1Aux fuel ts
      else c :: sub1Aux fuel ts

def subFile (l : List Char) : List Char := sub1Aux l.length l

/-- At a position, try to match `line\s+\d+`; on success return the
remainder after the digits. -/
def tryLineTail (s : List Char) : Option (List Char) :=
  if ('l' :: 'i' :: 'n' :: 'e' :: []).isPrefixOf s then
    let t := s.drop 4
    let ws := t.takeWhile pyIsSpace
    if ws.isEmpty then none
    else
      let u := (t.drop ws.length)
      let ds := u.takeWhile Char.isDigit
      if ds.isEmpty then none else some (u.drop ds.length)
  else none

/-- `re.sub(r'line\s+\d+', 'line <num>', part)`. -/
def sub2Aux : Nat → List Char → List Char
  | 0, s => s
  | _ + 1, [] => []
  | fuel + 1, c :: ts =>
      match tryLineTail (c :: ts) with
      | some rest =>
          'l' :: 'i' :: 'n' :: 'e' :: ' ' :: '<' :: 'n' :: 'u' :: 'm' :: '>' ::
            sub2Aux fuel rest
      | none => c :: sub2Aux fuel ts

def subLine (l : List Char) : List Char := sub2Aux l.length l

/-- Exactly `n` digits at the head; return the rest on success. -/
def takeDigits : Nat → List Char → Option (List Char)
  | 0, s => some s
  | n + 1, c :: ts => if c.isDigit then takeDigits n ts else none
  | _ + 1, [] => none

/-- Expect the literal character `c` at the head. -/
def expectChar (c : Char) : List Char → Option (List Char)
  | x :: ts => if x = c then some ts else none
  | [] => none

/-- At a position, try `\d{4}-\d{2}-\d{2}` then `\d{2}:\d{2}:\d{2}`
(alternation in source order); return the remainder after the match. -/
def tryTimeTail (s : List Char) : Option (List Char) :=
  match ((((takeDigits 4 s).bind (expectChar '-')).bind
      (takeDigits 2)).bind (expectChar '-')).bind (takeDigits 2) with
  | some r => some r
  | none =>
      ((((takeDigits 2 s).bind (expectChar ':')).bind
        (takeDigits 2)).bind (expectChar ':')).bind (takeDigits 2)

/-- `re.sub(r'\d{4}-\d{2}-\d{2}|\d{2}:\d{2}:\d{2}', '<time>', part)`. -/
def sub3Aux : Nat → List Char → List Char
  | 0, s => s
  | _ + 1, [] => []
  | fuel + 1, c :: ts =>
      match tryTimeTail (c :: ts) with
      | some rest =>
          '<' :: 't' :: 'i' :: 'm' :: 'e' :: '>' :: sub3Aux fuel rest
      | none => c :: sub3Aux fuel ts

def subTime (l : List Char) : List Char := sub3Aux l.length l

/-- The `\b` condition before a digit run: start of string or a
non-word predecessor. -/
def numStartOk (prev : Option Char) (c : Char) : Bool :=
  c.isDigit && (match prev with | none => true | some p => !isWordChar p)

/-- The `\b(?![a-z])` condition after the digit run. -/
def numEndOk (rest : List Char) : Bool :=
  match rest with
  | [] => true
  | n :: _ => !isWordChar n && !('a' ≤ n && n ≤ 'z')

/-- `re.sub(r'\b\d+\b(?![a-z])', '<num>', part)`: a maximal digit run
whose neighbours are non-word (and whose follower is not a lowercase
letter, the redundant lookahead of the source) becomes `<num>`.  `prev`
is the character preceding the scan position in the original string. -/
def sub4Aux : Nat → Option Char → List Char → List Char
  | 0, _, s => s
  | _ + 1, _, [] => []
  | fuel + 1, prev, c :: ts =>
      if numStartOk prev c then
        let run := (c :: ts).takeWhile Char.isDigit
        let rest := (c :: ts).drop run.length
        if numEndOk rest then
          '<' :: 'n' :: 'u' :: 'm' :: '>' :: sub4Aux fuel (some (run.getLastD c)) rest
        else c :: sub4Aux fuel (some c) ts
      else c :: sub4Aux fuel (some c) ts

def subNum (l : List Char) : List Char := sub4Aux l.length none l

/-- The part-cleaning pipeline of the source, in source order. -/
def cleanPart (l : List Char) : List Char :=
  subNum (subTime (subLine (subFile l)))

/-! ### `extract_error_signature` assembled -/

/-- The concatenated per-pattern match lists, each capped at 3. -/
def extractedParts (normalized : List Char) : List (List Char) :=
  (findallKw "error".data normalized).take 3
    ++ (findallKw "failed".data normalized).take 3
    ++ (findallKw "exception".data normalized).take 3
    ++ (findallWordPat "error".data normalized).take 3
    ++ (findallWordPat "exception".data normalized).take 3

/-- `MLPatternRecognizer.extract_error_signature`. -/
def extract_error_signature (error_log : String) : String :=
  if error_log = "" then ""
  else
    let normalized := (pyLower error_log).data
    let cleaned := (extractedParts normalized).filterMap (fun part =>
      let q := pyStrip (cleanPart part)
      if 10 < q.length then some q else none)
    let signature_text : List Char := List.intercalate (' ' :: '|' :: [' ']) (cleaned.take 5)
    strTake (MD5.md5hex ⟨signature_text⟩) 16

/-! ## `MLPatternRecognizer.calculate_similarity` -/

/-- The `set(re.findall(r'\w+', log.lower()))` word vocabulary. -/
def wordSet (log : String) : Finset String :=
  ((wordRuns (pyLower log).data).map (fun l => (⟨l⟩ : String))).toFinset

/-- `MLPatternRecognizer.calculate_similarity`. -/
def calculate_similarity (sig1 sig2 : String) (log1 log2 : String) : ℚ :=
  if sig1 = sig2 then 1
  else
    let words1 := wordSet log1
    let words2 := wordSet log2
    if words1 = ∅ && words2 = ∅ then 0
    else
      let inter := (words1 ∩ words2).card
      let union := (words1 ∪ words2).card
      if 0 < union then (inter : ℚ) / (union : ℚ) else 0

/-! ## Stable sorting (Python's `list.sort` is stable; with a total
preorder the stable sort is unique, so insertion sort models it). -/

/-- Insert `x` into a sorted list, before the first element `y` with
`le x y` — the stable position for an element that originally preceded
everything in the list. -/
def insertLe {α : Type} (le : α → α → Bool) (x : α) : List α → List α
  | [] => [x]
  | y :: ys => if le x y then x :: y :: ys else y :: insertLe le x ys

/-- Stable sort with respect to the total preorder `le`. -/
def stableSort {α : Type} (le : α → α → Bool) : List α → List α
  | [] => []
  | x :: xs => insertLe le x (stableSort le xs)

/-! ## `MLPatternRecognizer` learned patterns and `learn_from_feedback` -/

/-- The `FixPattern` dataclass.  `last_updated` is an abstract clock
value standing for `datetime.utcnow()`. -/
structure FixPattern where
  error_signature : String
  fix_template : String
  success_rate : ℚ
  usage_count : ℕ
  repo_contexts : Finset String
  last_updated : ℕ
deriving DecidableEq

/-- First learned pattern with the given signature (the lookup loop). -/
def findPattern (sig : String) (patterns : List FixPattern) : Option FixPattern :=
  patterns.find? (fun p => p.error_signature = sig)

/-- The in-place update of an existing pattern on one feedback event:
increment the usage count, add the repo context, refresh the clock, and
move the success rate by the online mean with outcome 1 for approved and
0 otherwise. -/
def updatePattern (fix_status repo_context : String) (now : ℕ) (p : FixPattern) :
    FixPattern :=
  let n := p.usage_count + 1
  let outcome : ℚ := if fix_status = "approved" then 1 else 0
  { p with
    usage_count := n
    repo_contexts := insert repo_context p.repo_contexts
    last_updated := now
    success_rate := (p.success_rate * ((n : ℚ) - 1) + outcome) / (n : ℚ) }

/-- Replace the first pattern carrying `sig` by `f` of it. -/
def replaceFirst (sig : String) (f : FixPattern → FixPattern) :
    List FixPattern → List FixPattern
  | [] => []
  | p :: ps =>
      if p.error_signature = sig then f p :: ps else p :: replaceFirst sig f ps

/-- `MLPatternRecognizer.learn_from_feedback` acting on the learned
pattern list. -/
def learn_from_feedback (patterns : List FixPattern)
    (error_log suggested_fix fix_status repo_context : String) (now : ℕ) :
    List FixPattern :=
  if fix_status = "approved" || fix_status = "rejected" then
    let sig := extract_error_signature error_log
    match findPattern sig patterns with
    | some _ => replaceFirst sig (updatePattern fix_status repo_context now) patterns
    | none =>
        if fix_status = "approved" then
          patterns ++ [{ error_signature := sig
                         fix_template := suggested_fix
                         success_rate := 1
                         usage_count := 1
                         repo_contexts := {repo_context}
                         last_updated := now }]
        else patterns
  else patterns

/-! ## `MLPatternRecognizer.find_similar_fixes` -/

/-- One row of the historical-fixes query (`workflow_runs` restricted to
approved fixes with non-null logs). -/
structure HistRow where
  error_log : String
  suggested_fix : String
  fix_status : String
  repo_name : String
  owner : String
  created_at : Option ℕ
deriving DecidableEq

/-- One entry of the returned ranking. -/
structure SimilarFix where
  similarity_score : ℚ
  historical_fix : String
  repository : String
  date : Option String
  error_pattern : String
deriving DecidableEq

/-- A `workflow_runs` row, with nullable columns as options.
`created_at` is an abstract clock value. -/
structure WorkflowRun where
  owner : String
  repo_name : String
  workflow_name : String
  error_log : Option String
  suggested_fix : Option String
  fix_status : Option String
  created_at : Option ℕ
deriving DecidableEq

/-- `ORDER BY created_at DESC` (descending, SQL null first). -/
def createdDescLe (a b : HistRow) : Bool :=
  match a.created_at, b.created_at with
  | none, _ => true
  | some _, none => false
  | some x, some y => y ≤ x

/-- The SELECT DISTINCT ... WHERE suggested_fix IS NOT NULL AND
fix_status = 'approved' AND error_log IS NOT NULL ORDER BY created_at
DESC LIMIT 500 query of `find_similar_fixes`. -/
def fetchHistoricalFixes (runs : List WorkflowRun) : List HistRow :=
  let rows := runs.filterMap (fun w =>
    match w.error_log, w.suggested_fix, w.fix_status with
    | some e, some f, some st =>
        if st = "approved" then
          some { error_log := e, suggested_fix := f, fix_status := st
                 repo_name := w.repo_name, owner := w.owner
                 created_at := w.created_at }
        else none
    | _, _, _ => none)
  ((stableSort createdDescLe rows).dedup).take 500

/-- `created.isoformat()` stand-in on the abstract clock. -/
def isoformat (n : ℕ) : String := toString n

/-- The truncated error preview `hist_error[:200] + "..."`. -/
def errorPreview (e : String) : String :=
  if 200 < e.data.length then strTake e 200 ++ "..." else e

/-- The ranking entry built from one historical row that passed the
similarity threshold. -/
def mkSimilarFix (repo_context : String) (similarity : ℚ) (row : HistRow) :
    SimilarFix :=
  let repo_match_bonus : ℚ :=
    if row.owner ++ "/" ++ row.repo_name = repo_context then 2/10 else 0
  { similarity_score := min 1 (similarity + repo_match_bonus)
    historical_fix := row.suggested_fix
    repository := row.owner ++ "/" ++ row.repo_name
    date := row.created_at.map isoformat
    error_pattern := errorPreview row.error_log }

/-- The candidate loop of `find_similar_fixes`: one entry per historical
row whose raw similarity meets the threshold. -/
def similarEntries (historical : List HistRow) (error_log repo_context : String)
    (min_similarity : ℚ) : List SimilarFix :=
  let error_signature := extract_error_signature error_log
  historical.filterMap (fun row =>
    let hist_signature := extract_error_signature row.error_log
    let similarity :=
      calculate_similarity error_signature hist_signature error_log row.error_log
    if min_similarity ≤ similarity then
      some (mkSimilarFix repo_context similarity row)
    else none)

/-- Descending by `similarity_score`, ties by original order
(`list.sort(key=..., reverse=True)` is stable). -/
def scoreDescLe (a b : SimilarFix) : Bool :=
  b.similarity_score ≤ a.similarity_score

/-- `MLPatternRecognizer.find_similar_fixes`. -/
def find_similar_fixes (runs : List WorkflowRun)
    (error_log repo_context : String) (min_similarity : ℚ) : List SimilarFix :=
  let historical := fetchHistoricalFixes runs
  (stableSort scoreDescLe
      (similarEntries historical error_log repo_context min_similarity)).take 10

/-! ## `CICDPatternAnalyzer._classify_error_types`

All classification regexes are literal segments joined by `.*`; since
`.` does not match a newline, such a pattern matches iff the segments
occur in order within a single line. -/

/-- Drop past the first occurrence of `pat`; `none` if it never occurs. -/
def dropPastAux (pat : List Char) : Nat → List Char → Option (List Char)
  | 0, _ => none
  | _ + 1, [] => if pat.isEmpty then some [] else none
  | fuel + 1, c :: ts =>
      if pat.isPrefixOf (c :: ts) then some ((c :: ts).drop pat.length)
      else dropPastAux pat fuel ts

def dropPast (pat : List Char) (s : List Char) : Option (List Char) :=
  dropPastAux pat (s.length + 1) s

/-- Do the segments occur in order within `s`? -/
def segsInOrder : List (List Char) → List Char → Bool
  | [], _ => true
  | seg :: rest, s =>
      match dropPast seg s with
      | some s₁ => segsInOrder rest s₁
      | none => false

/-- `re.search` of a `a.*b.*c`-shaped pattern: the segments occur in
order on some single line of the text. -/
def searchSeq (segs : List String) (t : String) : Bool :=
  (splitOnChar '\n' t.data).any (fun line => segsInOrder (segs.map String.data) line)

/-- The `error_patterns` table of `_classify_error_types`, in source
(dict-insertion) order, each regex as its `.*`-separated segments. -/
def errorPatternsTable : List (String × List (List String)) :=
  [("dependency_error",
    [["npm", "install", "failed"], ["pip", "install", "error"],
     ["package", "not", "found"], ["dependency", "conflict"],
     ["peer", "dependency"], ["ModuleNotFoundError"], ["ImportError"]]),
   ("build_failure",
    [["compilation", "failed"], ["build", "failed"], ["webpack", "error"],
     ["typescript", "error"], ["syntax", "error"], ["compilation error"]]),
   ("test_failure",
    [["test", "failed"], ["assertion", "failed"], ["jest", "failed"],
     ["pytest", "failed"], ["unit", "test", "error"],
     ["integration", "test", "failed"]]),
   ("execution_timeout",
    [["timeout"], ["exceeded", "time"], ["job", "cancelled"],
     ["process", "killed"], ["time", "limit", "exceeded"]]),
   ("docker_error",
    [["docker", "build", "failed"], ["dockerfile", "error"],
     ["container", "failed"], ["image", "not", "found"],
     ["docker", "push", "failed"]]),
   ("linting_error",
    [["eslint", "error"], ["pylint", "error"], ["flake8", "error"],
     ["prettier", "error"], ["code", "style", "violation"]]),
   ("deployment_error",
    [["deployment", "failed"], ["publish", "failed"], ["release", "error"],
     ["upload", "failed"], ["deploy", "timeout"]])]

/-- `CICDPatternAnalyzer._classify_error_types`: each error type is
reported at most once, in table order. -/
def classify_error_types (error_log : String) : List String :=
  if error_log = "" then []
  else
    let error_text := pyLower error_log
    errorPatternsTable.filterMap (fun tp =>
      if tp.2.any (fun segs => searchSeq segs error_text) then some tp.1 else none)

/-! ## `SuccessPredictor` -/

/-- Count of non-overlapping occurrences of `pat` (`str.count`). -/
def countOccAux (pat : List Char) : Nat → List Char → Nat
  | 0, _ => 0
  | _ + 1, [] => 0
  | fuel + 1, c :: ts =>
      if pat.isPrefixOf (c :: ts) then
        countOccAux pat fuel ((c :: ts).drop pat.length) + 1
      else countOccAux pat fuel ts

def countOcc (pat : String) (s : String) : Nat :=
  countOccAux pat.data s.data.length s.data

/-- `len(re.findall(r'\.(json|yaml|yml|xml|config)', s))`: at each dot
try the alternatives in source order, advancing past a match. -/
def countDotExtAux : Nat → List Char → Nat
  | 0, _ => 0
  | _ + 1, [] => 0
  | fuel + 1, c :: ts =>
      if c = '.' then
        let exts := ["json", "yaml", "yml", "xml", "config"]
        match exts.find? (fun e => e.data.isPrefixOf ts) with
        | some e => countDotExtAux fuel (ts.drop e.length) + 1
        | none => countDotExtAux fuel ts
      else countDotExtAux fuel ts

def countDotExt (s : String) : Nat := countDotExtAux s.data.length s.data

/-- End position (as a remainder list) after the last occurrence of
`pat` in `s`; `none` if it never occurs.  Greedy `.*` backtracks to the
last occurrence. -/
def lastOccRestAux (pat : List Char) : Nat → List Char → Option (List Char)
  | 0, _ => none
  | _ + 1, [] => if pat.isEmpty then some [] else none
  | fuel + 1, c :: ts =>
      let deeper := lastOccRestAux pat fuel ts
      match deeper with
      | some r => some r
      | none =>
          if pat.isPrefixOf (c :: ts) then some ((c :: ts).drop pat.length)
          else none

def lastOccRest (pat : List Char) (s : List Char) : Option (List Char) :=
  lastOccRestAux pat (s.length + 1) s

/-- `len(re.findall(r'(install|upgrade|add.*dependency)', s))`: try the
alternatives in order at each position; `add.*dependency` matches up to
the last `dependency` on the same line. -/
def countDepsAux : Nat → List Char → Nat
  | 0, _ => 0
  | _ + 1, [] => 0
  | fuel + 1, c :: ts =>
      if "install".data.isPrefixOf (c :: ts) then
        countDepsAux fuel ((c :: ts).drop 7) + 1
      else if "upgrade".data.isPrefixOf (c :: ts) then
        countDepsAux fuel ((c :: ts).drop 7) + 1
      else if "add".data.isPrefixOf (c :: ts) then
        let line := ((c :: ts).drop 3).takeWhile (fun ch => ch ≠ '\n')
        let afterLine := ((c :: ts).drop 3).drop line.length
        match lastOccRest "dependency".data line with
        | some rem => countDepsAux fuel (rem ++ afterLine) + 1
        | none => countDepsAux fuel ts
      else countDepsAux fuel ts

def countDeps (s : String) : Nat := countDepsAux s.data.length s.data

/-- `SuccessPredictor._assess_fix_complexity`. -/
def assess_fix_complexity (fix_text : String) : ℚ :=
  if fix_text = "" then 1
  else
    let lowerText := pyLower fix_text
    let multiline_changes : ℚ := ((splitOnChar '\n' fix_text.data).length : ℚ) / 50
    let multiple_files : ℚ := (countOcc "file:" fix_text : ℚ) / 10
    let code_deletion : ℚ := (countOcc "delete" lowerText : ℚ) / 5
    let configuration_changes : ℚ := (countDotExt lowerText : ℚ) / 5
    let dependency_changes : ℚ := (countDeps lowerText : ℚ) / 3
    let complexity :=
      min 1 multiline_changes * (3/10) + min 1 multiple_files * (2/10)
        + min 1 code_deletion * (15/100) + min 1 configuration_changes * (2/10)
        + min 1 dependency_changes * (15/100)
    min 1 complexity

/-- The reliability lookup of `_get_error_type_reliability`. -/
def typeReliability (t : String) : ℚ :=
  if t = "dependency_error" then 8/10
  else if t = "linting_error" then 9/10
  else if t = "test_failure" then 7/10
  else if t = "build_failure" then 6/10
  else if t = "docker_error" then 5/10
  else if t = "execution_timeout" then 4/10
  else if t = "deployment_error" then 5/10
  else 1/2

/-- `SuccessPredictor._get_error_type_reliability`. -/
def get_error_type_reliability (error_log : String) : ℚ :=
  match classify_error_types error_log with
  | [] => 1/2
  | primary :: _ => typeReliability primary

/-- The settled-fix rows of a repository (`fix_status` approved or
rejected, with a suggested fix present). -/
def settledRuns (runs : List WorkflowRun) (o r : String) : List WorkflowRun :=
  runs.filter (fun w =>
    w.owner = o && w.repo_name = r && w.suggested_fix.isSome
      && (w.fix_status = some "approved" || w.fix_status = some "rejected"))

/-- The approved/total counting branch of `_get_repo_success_rate`. -/
def repoRateFor (runs : List WorkflowRun) (o r : String) : ℚ :=
  let settled := settledRuns runs o r
  let total := settled.length
  let approved := (settled.filter (fun w => w.fix_status = some "approved")).length
  if 0 < total then (approved : ℚ) / (total : ℚ) else 1/2

/-- `SuccessPredictor._get_repo_success_rate`: `owner, repo =
repo_context.split("/")` (a context with other than exactly two parts
raises and falls back to 0.5), else `("", repo_context)`. -/
def get_repo_success_rate (runs : List WorkflowRun) (repo_context : String) : ℚ :=
  if repo_context.data.contains '/' then
    match splitOnChar '/' repo_context.data with
    | [o, r] => repoRateFor runs ⟨o⟩ ⟨r⟩
    | _ => 1/2
  else repoRateFor runs "" repo_context

/-- The dictionary returned by `predict_fix_success` (factors inlined as
fields). -/
structure Prediction where
  predicted_success_rate : ℚ
  confidence : ℚ
  similarity_match : ℚ
  repo_history : ℚ
  fix_complexity : ℚ
  error_type_reliability : ℚ
  time_context : ℚ
  recommendations : List String
  similar_fixes_found : ℕ
deriving DecidableEq

/-- `SuccessPredictor._generate_prediction_recommendations`. -/
def generate_prediction_recommendations (similarity_match fix_complexity
    repo_history predicted_success : ℚ) : List String :=
  (if predicted_success < 3/10 then
    ["Low success probability - consider manual review before applying"]
   else if 8/10 < predicted_success then
    ["High success probability - safe to apply automatically"]
   else [])
  ++ (if similarity_match < 2/10 then
        ["No similar historical fixes found - proceed with caution"] else [])
  ++ (if fix_complexity < 1/2 then
        ["Complex fix detected - consider breaking into smaller changes"] else [])
  ++ (if repo_history < 3/10 then
        ["Repository has low historical fix success rate"] else [])

/-- Factor 1 of `predict_fix_success`: the mean score of the top 5
similar fixes, 0 when none were found. -/
def similarity_match_factor (runs : List WorkflowRun)
    (error_log repo_context : String) : ℚ :=
  let similar_fixes := find_similar_fixes runs error_log repo_context (2/10)
  if similar_fixes.isEmpty then 0
  else ((similar_fixes.take 5).map (·.similarity_score)).sum
      / (min 5 similar_fixes.length : ℚ)

/-- The confidence of `predict_fix_success` (data availability proxy). -/
def prediction_confidence (runs : List WorkflowRun)
    (error_log repo_context : String) : ℚ :=
  min 1 ((((find_similar_fixes runs error_log repo_context (2/10)).length : ℚ) / 10) * (4/10)
    + (if 0 < get_repo_success_rate runs repo_context then (1 : ℚ) else 0) * (3/10)
    + 3/10)

/-- `SuccessPredictor.predict_fix_success`. -/
def predict_fix_success (runs : List WorkflowRun)
    (error_log suggested_fix repo_context : String) : Prediction :=
  let similar_fixes := find_similar_fixes runs error_log repo_context (2/10)
  let similarity_match : ℚ := similarity_match_factor runs error_log repo_context
  let repo_success_rate := get_repo_success_rate runs repo_context
  let fix_complexity := 1 - assess_fix_complexity suggested_fix
  let error_type_reliability := get_error_type_reliability error_log
  let time_context : ℚ := 8/10
  let predicted_success :=
    similarity_match * (3/10) + repo_success_rate * (25/100)
      + fix_complexity * (2/10) + error_type_reliability * (15/100)
      + time_context * (1/10)
  let confidence := prediction_confidence runs error_log repo_context
  { predicted_success_rate := predicted_success
    confidence := confidence
    similarity_match := similarity_match
    repo_history := repo_success_rate
    fix_complexity := fix_complexity
    error_type_reliability := error_type_reliability
    time_context := time_context
    recommendations := generate_prediction_recommendations similarity_match
      fix_complexity repo_success_rate predicted_success
    similar_fixes_found := similar_fixes.length }

/-! ## Fix lifecycle (main.py endpoints)

The database row for a fix, the operations the endpoints perform on it,
and the external GitHub collaborator as an outcome oracle.  HTTP
responses are modelled by `ApiResult`: `ok` for a 200 body,
`httpError status detail` for a raised `HTTPException`. -/

/-- The fix-relevant part of a `workflow_runs` row.  `pr_url`,
`fix_branch` and `fix_error` are the application-result fields (read by
the status endpoint via `fix.get(...)`). -/
structure FixRecord where
  owner : String
  repo_name : String
  workflow_name : String
  error_log : Option String
  suggested_fix : String
  fix_status : String
  pr_url : Option String
  fix_branch : Option String
  fix_error : Option String
deriving DecidableEq

/-- The fix table keyed by id. -/
def FixDB : Type := List (String × FixRecord)

instance : DecidableEq FixDB := by
  unfold FixDB
  infer_instance

/-- `db.get_fix`. -/
def db_get_fix (db : FixDB) (fix_id : String) : Option FixRecord :=
  (db.find? (fun kv => kv.1 = fix_id)).map (fun kv => kv.2)

/-- `db.update_fix_status`. -/
def db_update_fix_status (db : FixDB) (fix_id status : String) : FixDB :=
  db.map (fun kv =>
    if kv.1 = fix_id then (kv.1, { kv.2 with fix_status := status }) else kv)

/-- Modelled from the spec: `db.update_fix_application_result` is called
throughout main.py but missing from postgres_database.py.  Per §4.5 it
settles an application attempt, recording the status together with the
pull-request/branch reference or the error message. -/
def db_update_fix_application_result (db : FixDB) (fix_id status : String)
    (pr_url branch_name error_message : Option String) : FixDB :=
  db.map (fun kv =>
    if kv.1 = fix_id then
      (kv.1, { kv.2 with
                fix_status := status
                pr_url := pr_url
                fix_branch := branch_name
                fix_error := error_message })
    else kv)

/-- One invocation outcome of the repository-mutation collaborator
`github_service.apply_fix_to_repository`: it raises, returns `None`, or
returns a result carrying the PR url and branch name. -/
inductive GitHubOutcome where
  | raiseErr (msg : String)
  | noResult
  | success (pr_url branch_name : Option String)
deriving DecidableEq

/-- `ApiResult α`: a 200 body or a raised `HTTPException`. -/
inductive ApiResult (α : Type) where
  | ok (val : α)
  | httpError (status : Nat) (detail : String)
deriving DecidableEq

/-- `apply_fix_to_repository` (main.py): mark `applying`, call the
collaborator, settle the result; an exception is recorded as
`application_failed` and re-raised (`Except.error`). -/
def apply_fix_to_repository (gh : GitHubOutcome) (fix_id : String)
    (db : FixDB) : FixDB × Except String Unit :=
  let db₁ := db_update_fix_status db fix_id "applying"
  match gh with
  | .raiseErr m =>
      (db_update_fix_application_result db₁ fix_id "application_failed"
        none none (some m), .error m)
  | .noResult =>
      (db_update_fix_application_result db₁ fix_id "application_failed"
        none none (some "Failed to create PR or apply changes"), .ok ())
  | .success pr br =>
      (db_update_fix_application_result db₁ fix_id "applied" pr br none,
        .ok ())

/-- `POST /fixes/{fix_id}/approve`. -/
def approve_fix (gh : GitHubOutcome) (fix_id : String) (db : FixDB) :
    FixDB × ApiResult String :=
  match db_get_fix db fix_id with
  | none => (db, .httpError 404 "Fix not found")
  | some fix =>
      if fix.fix_status ≠ "pending" then
        (db, .httpError 400 "Fix is not in pending state")
      else
        let db₁ := db_update_fix_status db fix_id "approved"
        match apply_fix_to_repository gh fix_id db₁ with
        | (db₂, .ok ()) => (db₂, .ok "Fix approved and application started")
        | (db₂, .error e) =>
            (db_update_fix_application_result db₂ fix_id
              "approved_application_failed" none none (some e),
             .ok "Fix approved but application failed")

/-- `POST /fixes/{fix_id}/reject`. -/
def reject_fix (fix_id : String) (db : FixDB) : FixDB × ApiResult String :=
  match db_get_fix db fix_id with
  | none => (db, .httpError 404 "Fix not found")
  | some fix =>
      if fix.fix_status ≠ "pending" then
        (db, .httpError 400 "Fix is not in pending state")
      else
        (db_update_fix_status db fix_id "rejected", .ok "Fix rejected successfully")

/-- `POST /fixes/{fix_id}/apply`: a collaborator exception escapes
`apply_fix_to_repository` and surfaces as a 500 response. -/
def manually_apply_fix (gh : GitHubOutcome) (fix_id : String) (db : FixDB) :
    FixDB × ApiResult String :=
  match db_get_fix db fix_id with
  | none => (db, .httpError 404 "Fix not found")
  | some fix =>
      if fix.fix_status ≠ "approved" && fix.fix_status ≠ "application_failed" then
        (db, .httpError 400 "Fix must be approved before application")
      else
        match apply_fix_to_repository gh fix_id db with
        | (db₂, .ok ()) => (db₂, .ok "Fix application triggered")
        | (db₂, .error e) => (db₂, .httpError 500 e)

/-- Whole-application state: the fix table plus the persisted learned
patterns of the `MLPatternRecognizer`. -/
structure AppState where
  db : FixDB
  patterns : List FixPattern
deriving DecidableEq

/-- `approve_fix` at application level: the handler touches only the fix
table, never the pattern recognizer. -/
def approveEndpoint (gh : GitHubOutcome) (fix_id : String) (st : AppState) :
    AppState × ApiResult String :=
  let r := approve_fix gh fix_id st.db
  ({ st with db := r.1 }, r.2)

/-- `reject_fix` at application level. -/
def rejectEndpoint (fix_id : String) (st : AppState) :
    AppState × ApiResult String :=
  let r := reject_fix fix_id st.db
  ({ st with db := r.1 }, r.2)

/-- `POST /analytics/ml/learn-from-feedback`: the only route into
`MLPatternRecognizer.learn_from_feedback`. -/
def learnFromFeedbackEndpoint (st : AppState)
    (error_log suggested_fix fix_status repo_context : String) (now : ℕ) :
    AppState × ApiResult String :=
  if error_log = "" || suggested_fix = "" || fix_status = "" then
    (st, .httpError 400 "error_log, suggested_fix, and fix_status are required")
  else if fix_status ≠ "approved" && fix_status ≠ "rejected"
      && fix_status ≠ "pending" then
    (st, .httpError 400 "fix_status must be 'approved', 'rejected', or 'pending'")
  else
    ({ st with patterns := (learn_from_feedback st.patterns error_log
        suggested_fix fix_status repo_context now) },
     .ok "Feedback learned successfully")

/-- The documented status set of the lifecycle (§4.5 of the spec). -/
def documentedStatuses : List String :=
  ["pending", "approved", "rejected", "applying", "applied", "application_failed"]

/-! ## Lifecycle helper lemmas -/

theorem approve_fix_not_pending (gh : GitHubOutcome) (db : FixDB)
    (fix_id : String) (rec : FixRecord)
    (hget : db_get_fix db fix_id = some rec) (h : rec.fix_status ≠ "pending") :
    approve_fix gh fix_id db = (db, .httpError 400 "Fix is not in pending state") := by
  unfold approve_fix
  rw [hget]
  simp [h]

theorem reject_fix_not_pending (db : FixDB) (fix_id : String) (rec : FixRecord)
    (hget : db_get_fix db fix_id = some rec) (h : rec.fix_status ≠ "pending") :
    reject_fix fix_id db = (db, .httpError 400 "Fix is not in pending state") := by
  unfold reject_fix
  rw [hget]
  simp [h]

theorem manually_apply_fix_not_applicable (gh : GitHubOutcome) (db : FixDB)
    (fix_id : String) (rec : FixRecord)
    (hget : db_get_fix db fix_id = some rec)
    (h₁ : rec.fix_status ≠ "approved") (h₂ : rec.fix_status ≠ "application_failed") :
    manually_apply_fix gh fix_id db
      = (db, .httpError 400 "Fix must be approved before application") := by
  unfold manually_apply_fix
  rw [hget]
  simp [h₁, h₂]

/-- A record after `db_update_fix_application_result` touched it. -/
def settleRecord (rec : FixRecord) (status : String)
    (pr br err : Option String) : FixRecord :=
  { rec with fix_status := status, pr_url := pr, fix_branch := br, fix_error := err }

theorem db_get_fix_update_status (db : FixDB) (fix_id status : String) :
    db_get_fix (db_update_fix_status db fix_id status) fix_id
      = (db_get_fix db fix_id).map (fun r => { r with fix_status := status }) := by
  induction db with
  | nil => rfl
  | cons kv rest ih =>
      by_cases h : kv.1 = fix_id
      · simp [db_get_fix, db_update_fix_status, List.find?_cons, h]
      · simp only [db_update_fix_status, List.map_cons, if_neg h] at *
        simpa [db_get_fix, List.find?_cons, h] using ih

theorem db_get_fix_update_appresult (db : FixDB) (fix_id status : String)
    (pr br err : Option String) :
    db_get_fix (db_update_fix_application_result db fix_id status pr br err) fix_id
      = (db_get_fix db fix_id).map (fun r =>
          { r with fix_status := status, pr_url := pr, fix_branch := br,
                   fix_error := err }) := by
  induction db with
  | nil => rfl
  | cons kv rest ih =>
      by_cases h : kv.1 = fix_id
      · simp [db_get_fix, db_update_fix_application_result, List.find?_cons, h]
      · simp only [db_update_fix_application_result, List.map_cons, if_neg h] at *
        simpa [db_get_fix, List.find?_cons, h] using ih

/-- A sample fix row used by concrete witnesses. -/
def exRec (status : String) : FixRecord :=
  { owner := "acme", repo_name := "widgets", workflow_name := "CI"
    error_log := some "npm ERR! peer dep missing: react@^18.0.0"
    suggested_fix := "npm install react@18", fix_status := status
    pr_url := none, fix_branch := none, fix_error := none }

/-- A one-row fix table keyed by id "42". -/
def exDB (status : String) : FixDB := [("42", exRec status)]

end CICDFixer

open CICDFixer

/-- C1: once a suggestion is in `applied` or `rejected` it is never
exited: `approve` and `reject` fail with the invalid-state error and
leave the table unchanged whenever the status is not `pending`, and
`apply` fails with the invalid-state error whenever the status is
neither `approved` nor `application_failed`; in particular each of the
three operations refuses an `applied` or `rejected` suggestion. -/
theorem C1_terminal_states_never_exited (gh : GitHubOutcome) (db : FixDB)
    (fix_id : String) (rec : FixRecord)
    (hget : db_get_fix db fix_id = some rec) :
    (rec.fix_status ≠ "pending" →
      approve_fix gh fix_id db = (db, .httpError 400 "Fix is not in pending state")
        ∧ reject_fix fix_id db = (db, .httpError 400 "Fix is not in pending state"))
    ∧ (rec.fix_status ≠ "approved" → rec.fix_status ≠ "application_failed" →
      manually_apply_fix gh fix_id db
        = (db, .httpError 400 "Fix must be approved before application"))
    ∧ (rec.fix_status = "applied" ∨ rec.fix_status = "rejected" →
      approve_fix gh fix_id db = (db, .httpError 400 "Fix is not in pending state")
        ∧ reject_fix fix_id db = (db, .httpError 400 "Fix is not in pending state")
        ∧ manually_apply_fix gh fix_id db
          = (db, .httpError 400 "Fix must be approved before application")) := by
  refine ⟨fun h => ⟨approve_fix_not_pending gh db fix_id rec hget h,
      reject_fix_not_pending db fix_id rec hget h⟩,
    fun h₁ h₂ => manually_apply_fix_not_applicable gh db fix_id rec hget h₁ h₂,
    fun h => ?_⟩
  have hp : rec.fix_status ≠ "pending" := by
    rcases h with h | h <;> rw [h] <;> decide
  have ha : rec.fix_status ≠ "approved" := by
    rcases h with h | h <;> rw [h] <;> decide
  have haf : rec.fix_status ≠ "application_failed" := by
    rcases h with h | h <;> rw [h] <;> decide
  exact ⟨approve_fix_not_pending gh db fix_id rec hget hp,
    reject_fix_not_pending db fix_id rec hget hp,
    manually_apply_fix_not_applicable gh db fix_id rec hget ha haf⟩

/-- C1 witness: the transition functions evaluated on a concrete
one-row table holding a rejected suggestion. -/
theorem C1_witness :
    db_get_fix (exDB "rejected") "42" = some (exRec "rejected")
    ∧ (approve_fix .noResult "42" (exDB "rejected")
        = (exDB "rejected", .httpError 400 "Fix is not in pending state")
      ∧ reject_fix "42" (exDB "rejected")
        = (exDB "rejected", .httpError 400 "Fix is not in pending state")
      ∧ manually_apply_fix .noResult "42" (exDB "rejected")
        = (exDB "rejected", .httpError 400 "Fix must be approved before application")) :=
  ⟨by decide,
   (C1_terminal_states_never_exited GitHubOutcome.noResult (exDB "rejected") "42"
      (exRec "rejected") (by decide)).2.2 (Or.inr (by decide))⟩

/-- C5: when the application attempt triggered by a successful approve
raises, the suggestion lands in `approved_application_failed`, a status
outside the documented state set, from which approve, reject and manual
apply all fail their precondition checks — the suggestion can never be
retried and never reaches a documented terminal state. -/
theorem C5_approve_failure_dead_state (db : FixDB) (fix_id : String)
    (rec : FixRecord) (m : String)
    (hget : db_get_fix db fix_id = some rec) (hp : rec.fix_status = "pending") :
    (approve_fix (.raiseErr m) fix_id db).2 = .ok "Fix approved but application failed"
    ∧ db_get_fix (approve_fix (.raiseErr m) fix_id db).1 fix_id
        = some (settleRecord rec "approved_application_failed" none none (some m))
    ∧ "approved_application_failed" ∉ documentedStatuses
    ∧ (∀ gh' : GitHubOutcome,
        approve_fix gh' fix_id (approve_fix (.raiseErr m) fix_id db).1
          = ((approve_fix (.raiseErr m) fix_id db).1,
             .httpError 400 "Fix is not in pending state")
        ∧ reject_fix fix_id (approve_fix (.raiseErr m) fix_id db).1
          = ((approve_fix (.raiseErr m) fix_id db).1,
             .httpError 400 "Fix is not in pending state")
        ∧ manually_apply_fix gh' fix_id (approve_fix (.raiseErr m) fix_id db).1
          = ((approve_fix (.raiseErr m) fix_id db).1,
             .httpError 400 "Fix must be approved before application")) := by
  have hres : approve_fix (.raiseErr m) fix_id db
      = (db_update_fix_application_result
          (db_update_fix_application_result
            (db_update_fix_status (db_update_fix_status db fix_id "approved")
              fix_id "applying")
            fix_id "application_failed" none none (some m))
          fix_id "approved_application_failed" none none (some m),
        .ok "Fix approved but application failed") := by
    unfold approve_fix
    rw [hget]
    simp [hp, apply_fix_to_repository]
  have hlook : db_get_fix (approve_fix (.raiseErr m) fix_id db).1 fix_id
      = some (settleRecord rec "approved_application_failed" none none (some m)) := by
    rw [hres]
    simp [db_get_fix_update_appresult, db_get_fix_update_status, hget, settleRecord]
  refine ⟨by rw [hres], hlook, by decide, fun gh' => ?_⟩
  exact ⟨approve_fix_not_pending gh' _ fix_id _ hlook (by simp [settleRecord]),
    reject_fix_not_pending _ fix_id _ hlook (by simp [settleRecord]),
    manually_apply_fix_not_applicable gh' _ fix_id _ hlook (by simp [settleRecord])
      (by simp [settleRecord])⟩

/-- C5 witness: the dead-end state reached from a concrete pending
suggestion whose approve-triggered application raises. -/
theorem C5_witness :
    db_get_fix (exDB "pending") "42" = some (exRec "pending")
    ∧ (exRec "pending").fix_status = "pending"
    ∧ (approve_fix (.raiseErr "boom") "42" (exDB "pending")).2
        = .ok "Fix approved but application failed"
    ∧ db_get_fix (approve_fix (.raiseErr "boom") "42" (exDB "pending")).1 "42"
        = some (settleRecord (exRec "pending") "approved_application_failed" none none (some "boom"))
    ∧ manually_apply_fix .noResult "42"
        (approve_fix (.raiseErr "boom") "42" (exDB "pending")).1
      = ((approve_fix (.raiseErr "boom") "42" (exDB "pending")).1,
         .httpError 400 "Fix must be approved before application") := by
  have h := C5_approve_failure_dead_state (exDB "pending") "42" (exRec "pending")
    "boom" (by decide) (by decide)
  exact ⟨by decide, by decide, h.1, h.2.1, (h.2.2.2 .noResult).2.2⟩

/-- C4 counterexample: on a concrete approved suggestion whose
collaborator raises, the manual apply endpoint propagates the error to
the caller as a 500 response — the claim's "does not propagate to the
caller" is false (the recorded state itself is `application_failed`, as
the rest of the claim says). -/
theorem C4_counterexample :
    (manually_apply_fix (.raiseErr "boom") "42" (exDB "approved")).2
      = .httpError 500 "boom"
    ∧ (db_get_fix (manually_apply_fix (.raiseErr "boom") "42"
          (exDB "approved")).1 "42").map FixRecord.fix_status
        = some "application_failed" := by
  decide

/-- C4 amended: when the collaborator raises with message `m` during a
manual application attempt on an applicable suggestion, the status
becomes `application_failed` with `m` recorded (non-empty when `m` is),
and the error propagates to the caller as a 500 response. -/
theorem C4_apply_failure_recorded_and_propagated (db : FixDB) (fix_id : String)
    (rec : FixRecord) (m : String) (hget : db_get_fix db fix_id = some rec)
    (happ : rec.fix_status = "approved" ∨ rec.fix_status = "application_failed")
    (hm : m ≠ "") :
    (manually_apply_fix (.raiseErr m) fix_id db).2 = .httpError 500 m
    ∧ db_get_fix (manually_apply_fix (.raiseErr m) fix_id db).1 fix_id
        = some (settleRecord rec "application_failed" none none (some m))
    ∧ (db_get_fix (manually_apply_fix (.raiseErr m) fix_id db).1 fix_id).map
        FixRecord.fix_error = some (some m)
    ∧ m ≠ "" := by
  have hcond : ¬(rec.fix_status ≠ "approved" ∧ rec.fix_status ≠ "application_failed") := by
    rcases happ with h | h <;> simp [h]
  have hres : manually_apply_fix (.raiseErr m) fix_id db
      = (db_update_fix_application_result
          (db_update_fix_status db fix_id "applying")
          fix_id "application_failed" none none (some m),
        .httpError 500 m) := by
    unfold manually_apply_fix
    rw [hget]
    rcases happ with h | h <;> simp [h, apply_fix_to_repository]
  have hlook : db_get_fix (manually_apply_fix (.raiseErr m) fix_id db).1 fix_id
      = some (settleRecord rec "application_failed" none none (some m)) := by
    rw [hres]
    simp [db_get_fix_update_appresult, db_get_fix_update_status, hget, settleRecord]
  exact ⟨by rw [hres], hlook, by rw [hlook]; simp [settleRecord], hm⟩

/-- C3 counterexample: a concrete pending suggestion is approved
successfully (a settled `approved` decision), yet the learned-pattern
store is left empty — whereas forwarding that decision as a feedback
event would have created a pattern for the suggestion's signature.  The
decision is not forwarded to the pattern store. -/
theorem C3_counterexample :
    (approveEndpoint (.success (some "url") (some "branch")) "42"
        ⟨exDB "pending", []⟩).2 = .ok "Fix approved and application started"
    ∧ (approveEndpoint (.success (some "url") (some "branch")) "42"
        ⟨exDB "pending", []⟩).1.patterns = []
    ∧ learn_from_feedback [] "npm ERR! peer dep missing: react@^18.0.0"
        "npm install react@18" "approved" "acme/widgets" 0 ≠ [] := by
  decide

/-- C3 amended: settled decisions reach the pattern store only through
the separate learn-from-feedback endpoint.  The approve and reject
handlers leave the learned patterns untouched, while the
learn-from-feedback endpoint with a settled (`approved`/`rejected`)
status and non-empty payload applies the recognizer's learning update. -/
theorem C3_feedback_only_via_endpoint (gh : GitHubOutcome) (fix_id : String)
    (st : AppState) :
    (approveEndpoint gh fix_id st).1.patterns = st.patterns
    ∧ (rejectEndpoint fix_id st).1.patterns = st.patterns
    ∧ (∀ e f s c : String, ∀ now : ℕ, e ≠ "" → f ≠ "" →
        s = "approved" ∨ s = "rejected" →
        (learnFromFeedbackEndpoint st e f s c now).1.patterns
            = learn_from_feedback st.patterns e f s c now
          ∧ (learnFromFeedbackEndpoint st e f s c now).2
            = .ok "Feedback learned successfully") := by
  refine ⟨rfl, rfl, fun e f s c now he hf hs => ?_⟩
  have hs' : s ≠ "" := by rcases hs with h | h <;> simp [h]
  rcases hs with h | h <;>
    simp [learnFromFeedbackEndpoint, he, hf, h]

/-- C3 witness: the amended behaviour at a concrete state and payload. -/
theorem C3_witness :
    ("npm ERR! peer dep missing: react@^18.0.0" : String) ≠ ""
    ∧ ("npm install react@18" : String) ≠ ""
    ∧ (approveEndpoint .noResult "42" ⟨exDB "pending", []⟩).1.patterns = []
    ∧ (learnFromFeedbackEndpoint ⟨exDB "pending", []⟩
          "npm ERR! peer dep missing: react@^18.0.0" "npm install react@18"
          "approved" "acme/widgets" 0).1.patterns
        = learn_from_feedback [] "npm ERR! peer dep missing: react@^18.0.0"
            "npm install react@18" "approved" "acme/widgets" 0 := by
  have h := C3_feedback_only_via_endpoint GitHubOutcome.noResult "42"
    ⟨exDB "pending", []⟩
  exact ⟨by decide, by decide, h.1,
    (h.2.2 "npm ERR! peer dep missing: react@^18.0.0" "npm install react@18"
      "approved" "acme/widgets" 0 (by decide) (by decide) (Or.inl rfl)).1⟩

/-- C4 witness: the amended behaviour evaluated on the concrete scenario
of the spec (suggestion id "42" in state `approved`, collaborator
raising "boom"). -/
theorem C4_witness :
    db_get_fix (exDB "approved") "42" = some (exRec "approved")
    ∧ (exRec "approved").fix_status = "approved"
    ∧ ("boom" : String) ≠ ""
    ∧ (manually_apply_fix (.raiseErr "boom") "42" (exDB "approved")).2
        = .httpError 500 "boom"
    ∧ db_get_fix (manually_apply_fix (.raiseErr "boom") "42" (exDB "approved")).1 "42"
        = some (settleRecord (exRec "approved") "application_failed" none none (some "boom")) := by
  have h := C4_apply_failure_recorded_and_propagated (exDB "approved") "42"
    (exRec "approved") "boom" (by decide) (Or.inl (by decide)) (by decide)
  exact ⟨by decide, by decide, by decide, h.1, h.2.1⟩

/-- Sanity check of the MD5 model against the standard empty-message digest. -/
theorem CICDFixer.MD5.md5hex_empty :
    CICDFixer.MD5.md5hex "" = "d41d8cd98f00b204e9800998ecf8427e" := by decide

/-- Sanity check of the MD5 model against the standard digest of "abc". -/
theorem CICDFixer.MD5.md5hex_abc :
    CICDFixer.MD5.md5hex "abc" = "900150983cd24fb0d6963f7d28e17f72" := by decide

/-! ## Pattern-learning lemmas (C2) -/

namespace CICDFixer

/-- The learned pattern as it stands after a run of feedback events. -/
def onlinePattern (sig fix ctx : String) (now : ℕ) (k : ℕ) (rate : ℚ) :
    FixPattern :=
  { error_signature := sig, fix_template := fix, success_rate := rate
    usage_count := k, repo_contexts := {ctx}, last_updated := now }

theorem learn_fresh_approved (ps : List FixPattern)
    (log fix ctx : String) (now : ℕ)
    (h : findPattern (extract_error_signature log) ps = none) :
    learn_from_feedback ps log fix "approved" ctx now
      = ps ++ [onlinePattern (extract_error_signature log) fix ctx now 1 1] := by
  simp [learn_from_feedback, h, onlinePattern]

theorem learn_existing (ps : List FixPattern) (log fix s ctx : String)
    (now : ℕ) (hs : s = "approved" ∨ s = "rejected") (p : FixPattern)
    (h : findPattern (extract_error_signature log) ps = some p) :
    learn_from_feedback ps log fix s ctx now
      = replaceFirst (extract_error_signature log)
          (updatePattern s ctx now) ps := by
  rcases hs with h' | h' <;> simp [learn_from_feedback, h', h]

theorem replaceFirst_append (sig : String) (f : FixPattern → FixPattern)
    (l r : List FixPattern) (h : ∀ q ∈ l, q.error_signature ≠ sig) :
    replaceFirst sig f (l ++ r) = l ++ replaceFirst sig f r := by
  induction l with
  | nil => rfl
  | cons q qs ih =>
      have hq := h q (List.mem_cons_self q qs)
      simp only [List.cons_append, replaceFirst, if_neg hq, List.append_eq]
      rw [ih (fun x hx => h x (List.mem_cons_of_mem q hx))]

theorem findPattern_append_singleton (sig : String) (l : List FixPattern)
    (p : FixPattern) (h : ∀ q ∈ l, q.error_signature ≠ sig)
    (hp : p.error_signature = sig) :
    findPattern sig (l ++ [p]) = some p := by
  induction l with
  | nil => simp [findPattern, List.find?, hp]
  | cons q qs ih =>
      have hq := h q (List.mem_cons_self q qs)
      simp only [findPattern, List.cons_append, List.find?_cons] at *
      rw [decide_eq_false hq]
      exact ih (fun x hx => h x (List.mem_cons_of_mem q hx))

theorem findPattern_none_forall (sig : String) (ps : List FixPattern)
    (h : findPattern sig ps = none) :
    ∀ q ∈ ps, q.error_signature ≠ sig := by
  intro q hq
  have := List.find?_eq_none.mp h q hq
  simpa using this

theorem findPattern_replaceFirst (sig : String) (f : FixPattern → FixPattern)
    (hf : ∀ x, (f x).error_signature = x.error_signature)
    (qs : List FixPattern) (p : FixPattern)
    (h : findPattern sig qs = some p) :
    findPattern sig (replaceFirst sig f qs) = some (f p) := by
  induction qs with
  | nil => simp [findPattern] at h
  | cons q rest ih =>
      by_cases hq : q.error_signature = sig
      · have hp : p = q := by
          simp [findPattern, List.find?_cons, decide_eq_true hq] at h
          exact h.symm
        subst hp
        have hfp : (f p).error_signature = sig := by rw [hf p]; exact hq
        simp [replaceFirst, if_pos hq, findPattern, List.find?_cons, hfp]
      · have h' : findPattern sig rest = some p := by
          simpa [findPattern, List.find?_cons, decide_eq_false hq] using h
        simpa [replaceFirst, if_neg hq, findPattern, List.find?_cons,
          decide_eq_false hq] using ih h'

/-- One approved feedback step on the fresh-signature evolution. -/
theorem learn_iterate_fresh (ps : List FixPattern) (log fix ctx : String)
    (now : ℕ) (k : ℕ) (hk : 1 ≤ k)
    (h : findPattern (extract_error_signature log) ps = none) :
    (fun l => learn_from_feedback l log fix "approved" ctx now)^[k] ps
      = ps ++ [onlinePattern (extract_error_signature log) fix ctx now k 1] := by
  set sig := extract_error_signature log with hsig
  have hall := findPattern_none_forall sig ps h
  induction k, hk using Nat.le_induction with
  | base =>
      simpa using learn_fresh_approved ps log fix ctx now h
  | succ n hn ih =>
      rw [Function.iterate_succ_apply', ih]
      have hfind : findPattern sig
          (ps ++ [onlinePattern sig fix ctx now n 1]) = some (onlinePattern sig fix ctx now n 1) :=
        findPattern_append_singleton sig ps _ hall rfl
      rw [learn_existing _ log fix "approved" ctx now (Or.inl rfl) _ hfind]
      rw [replaceFirst_append sig _ ps _ hall]
      have hrep : replaceFirst sig (updatePattern "approved" ctx now)
          [onlinePattern sig fix ctx now n 1]
          = [updatePattern "approved" ctx now (onlinePattern sig fix ctx now n 1)] := by
        simp [replaceFirst, onlinePattern]
      rw [hrep]
      have hupd : updatePattern "approved" ctx now (onlinePattern sig fix ctx now n 1)
          = onlinePattern sig fix ctx now (n + 1) 1 := by
        have hne : ((n : ℚ) + 1) ≠ 0 := by positivity
        simp only [updatePattern, onlinePattern]
        refine FixPattern.mk.injEq _ _ _ _ _ _ _ _ _ _ _ _ |>.mpr ?_
        refine ⟨rfl, rfl, ?_, rfl, by simp, rfl⟩
        push_cast
        field_simp
      rw [hupd]

end CICDFixer

/-- C2: starting from a signature with no learned pattern, `k ≥ 1`
consecutive approved feedback events leave exactly one pattern with that
signature, carrying usage count `k` and success rate 1; one approval
followed by one rejection leaves usage count 2 and success rate 1/2; and
on every feedback event for an existing pattern the success rate follows
the online mean `(old_rate * (n-1) + outcome) / n` with outcome 1 for
approved and 0 for rejected, where `n` is the post-increment usage
count. -/
theorem C2_online_mean_learning (ps : List FixPattern) (log fix ctx : String)
    (now : ℕ) (k : ℕ) (hk : 1 ≤ k)
    (hfresh : findPattern (extract_error_signature log) ps = none) :
    (((fun l => learn_from_feedback l log fix "approved" ctx now)^[k] ps).filter
        (fun p => p.error_signature = extract_error_signature log)
      = [onlinePattern (extract_error_signature log) fix ctx now k 1])
    ∧ ((learn_from_feedback (learn_from_feedback ps log fix "approved" ctx now)
          log fix "rejected" ctx now).filter
        (fun p => p.error_signature = extract_error_signature log)
      = [onlinePattern (extract_error_signature log) fix ctx now 2 (1/2)])
    ∧ (∀ qs : List FixPattern, ∀ log' fix' s ctx' : String, ∀ now' : ℕ,
        ∀ p : FixPattern, s = "approved" ∨ s = "rejected" →
        findPattern (extract_error_signature log') qs = some p →
        ∃ q : FixPattern,
          findPattern (extract_error_signature log')
              (learn_from_feedback qs log' fix' s ctx' now') = some q
          ∧ q.usage_count = p.usage_count + 1
          ∧ q.success_rate
            = (p.success_rate * ((q.usage_count : ℚ) - 1)
                + (if s = "approved" then 1 else 0)) / (q.usage_count : ℚ)) := by
  set sig := extract_error_signature log with hsig
  have hall := CICDFixer.findPattern_none_forall sig ps hfresh
  have hfilter : ps.filter (fun p => p.error_signature = sig) = [] := by
    rw [List.filter_eq_nil_iff]
    intro a ha
    simpa using hall a ha
  refine ⟨?_, ?_, ?_⟩
  · rw [CICDFixer.learn_iterate_fresh ps log fix ctx now k hk hfresh]
    simp [List.filter_append, hfilter, CICDFixer.onlinePattern]
  · rw [CICDFixer.learn_fresh_approved ps log fix ctx now hfresh]
    have hfind : findPattern sig (ps ++ [CICDFixer.onlinePattern sig fix ctx now 1 1])
        = some (CICDFixer.onlinePattern sig fix ctx now 1 1) :=
      CICDFixer.findPattern_append_singleton sig ps _ hall rfl
    rw [CICDFixer.learn_existing _ log fix "rejected" ctx now (Or.inr rfl) _ hfind]
    rw [CICDFixer.replaceFirst_append sig _ ps _ hall]
    have hrep : replaceFirst sig (updatePattern "rejected" ctx now)
        [CICDFixer.onlinePattern sig fix ctx now 1 1]
        = [updatePattern "rejected" ctx now (CICDFixer.onlinePattern sig fix ctx now 1 1)] := by
      simp [replaceFirst, CICDFixer.onlinePattern]
    rw [hrep]
    have hupd : updatePattern "rejected" ctx now (CICDFixer.onlinePattern sig fix ctx now 1 1)
        = CICDFixer.onlinePattern sig fix ctx now 2 (1/2) := by
      simp [updatePattern, CICDFixer.onlinePattern]
      norm_num
    rw [hupd]
    simp [List.filter_append, hfilter, CICDFixer.onlinePattern]
  · intro qs log' fix' s ctx' now' p hs hfind
    refine ⟨updatePattern s ctx' now' p, ?_, rfl, ?_⟩
    · rw [CICDFixer.learn_existing qs log' fix' s ctx' now' hs p hfind]
      exact CICDFixer.findPattern_replaceFirst _ (updatePattern s ctx' now')
        (fun x => rfl) qs p hfind
    · simp [updatePattern]

/-- C2 witness: three approvals of a fresh signature on an empty store,
evaluated concretely. -/
theorem C2_witness :
    (1 ≤ 3)
    ∧ findPattern (extract_error_signature "") [] = none
    ∧ (((fun l => learn_from_feedback l "" "fix it" "approved" "acme/widgets" 0)^[3] []).filter
        (fun p => p.error_signature = extract_error_signature "")
      = [CICDFixer.onlinePattern (extract_error_signature "") "fix it" "acme/widgets" 0 3 1]) := by
  refine ⟨by decide, by decide, ?_⟩
  exact (C2_online_mean_learning [] "" "fix it" "acme/widgets" 0 3 (by decide)
    (by decide)).1

/-- C9 counterexample: "xyz" and "abc" have disjoint vocabularies, yet
both extract to the sentinel signature of a log with no recognized error
pattern, so the signature short-circuit returns similarity 1 rather
than the claimed 0. -/
theorem C9_counterexample :
    wordSet "xyz" ∩ wordSet "abc" = ∅
    ∧ calculate_similarity (extract_error_signature "xyz")
        (extract_error_signature "abc") "xyz" "abc" = 1
    ∧ ((1 : ℚ) ≠ 0) :=
  ⟨by rfl, by decide, by decide⟩

/-- C9 amended: for error texts with disjoint lower-cased vocabularies
whose extracted signatures differ (so the identical-signature
short-circuit does not fire), the matcher's similarity is 0. -/
theorem C9_disjoint_vocab_similarity_zero (A B : String)
    (hdisj : wordSet A ∩ wordSet B = ∅)
    (hsig : extract_error_signature A ≠ extract_error_signature B) :
    calculate_similarity (extract_error_signature A)
      (extract_error_signature B) A B = 0 := by
  have hcard : (wordSet A ∩ wordSet B).card = 0 := by rw [hdisj]; rfl
  simp only [calculate_similarity, if_neg hsig, hcard]
  split_ifs <;> simp

/-- C9 witness: the amended similarity evaluated on concrete texts with
disjoint vocabularies and distinct signatures. -/
theorem C9_witness :
    wordSet "error: aaaaaaaaaaaaa" ∩ wordSet "zzz" = ∅
    ∧ extract_error_signature "error: aaaaaaaaaaaaa" ≠ extract_error_signature "zzz"
    ∧ calculate_similarity (extract_error_signature "error: aaaaaaaaaaaaa")
        (extract_error_signature "zzz") "error: aaaaaaaaaaaaa" "zzz" = 0 :=
  ⟨by rfl, by decide,
   C9_disjoint_vocab_similarity_zero "error: aaaaaaaaaaaaa" "zzz"
     (by rfl) (by decide)⟩

/-! ## Sorting lemmas (C7) -/

namespace CICDFixer

theorem insertLe_perm {α : Type} (le : α → α → Bool) (x : α) (l : List α) :
    (insertLe le x l).Perm (x :: l) := by
  induction l with
  | nil => exact List.Perm.refl _
  | cons y ys ih =>
      by_cases h : le x y
      · simp [insertLe, h]
      · simp only [insertLe, if_neg h]
        exact (ih.cons y).trans (List.Perm.swap x y ys)

theorem stableSort_perm {α : Type} (le : α → α → Bool) (l : List α) :
    (stableSort le l).Perm l := by
  induction l with
  | nil => exact List.Perm.refl _
  | cons x xs ih =>
      exact (insertLe_perm le x (stableSort le xs)).trans (ih.cons x)

theorem insertLe_sorted_score (x : SimilarFix) (l : List SimilarFix)
    (hl : l.Sorted (fun a b => b.similarity_score ≤ a.similarity_score)) :
    (insertLe scoreDescLe x l).Sorted
      (fun a b => b.similarity_score ≤ a.similarity_score) := by
  induction l with
  | nil => simp [insertLe]
  | cons y ys ih =>
      rw [List.sorted_cons] at hl
      by_cases h : scoreDescLe x y
      · have hxy : y.similarity_score ≤ x.similarity_score := by
          simpa [scoreDescLe] using h
        simp only [insertLe, if_pos h]
        rw [List.sorted_cons]
        refine ⟨fun b hb => ?_, ?_⟩
        · rcases List.mem_cons.mp hb with hb | hb
          · rw [hb]; exact hxy
          · exact le_trans (hl.1 b hb) hxy
        · rw [List.sorted_cons]
          exact hl
      · have hyx : x.similarity_score ≤ y.similarity_score := by
          exact le_of_not_le (by simpa [scoreDescLe] using h)
        simp only [insertLe, if_neg h]
        rw [List.sorted_cons]
        refine ⟨fun b hb => ?_, ih hl.2⟩
        have hmem : b ∈ x :: ys := (insertLe_perm scoreDescLe x ys).mem_iff.mp hb
        rcases List.mem_cons.mp hmem with hb' | hb'
        · rw [hb']; exact hyx
        · exact hl.1 b hb'

theorem stableSort_sorted_score (l : List SimilarFix) :
    (stableSort scoreDescLe l).Sorted
      (fun a b => b.similarity_score ≤ a.similarity_score) := by
  induction l with
  | nil => simp [stableSort]
  | cons x xs ih => exact insertLe_sorted_score x _ ih

/-- The concrete corpus used by the C7 scenario: one approved
historical fix for acme/widgets. -/
def exRuns : List WorkflowRun :=
  [{ owner := "acme", repo_name := "widgets", workflow_name := "CI"
     error_log := some "error: alpha qq rr ss tt uu"
     suggested_fix := some "use widget-fix"
     fix_status := some "approved", created_at := some 5 }]

end CICDFixer

unseal Rat.add Rat.mul Rat.inv Rat.sub in
/-- C7 counterexample: a candidate whose bonus-adjusted score (raw
Jaccard 1/6 plus the 0.2 same-repository bonus = 11/30) meets the
threshold 3/10, yet `find_similar_fixes` returns the empty ranking —
the threshold is applied to the raw similarity before the bonus, not to
the bonus-adjusted score as the claim states. -/
theorem C7_counterexample :
    find_similar_fixes CICDFixer.exRuns
        "error: alpha beta gamma delta epsilon zeta" "acme/widgets" (3/10) = []
    ∧ (3/10 : ℚ) ≤ min 1
        (calculate_similarity
          (extract_error_signature "error: alpha beta gamma delta epsilon zeta")
          (extract_error_signature "error: alpha qq rr ss tt uu")
          "error: alpha beta gamma delta epsilon zeta"
          "error: alpha qq rr ss tt uu" + 2/10) := by
  exact ⟨by decide, by decide⟩

/-- C7 amended: for every historical approved fix the similarity is
computed (1 on identical signatures, else the Jaccard index), then the
flat 0.2 same-repository bonus is added, capped at 1 — but the
caller-supplied `minSimilarity` threshold is applied to the raw
pre-bonus similarity: exactly the candidates whose raw similarity meets
the threshold contribute entries, and the returned ranking is the
descending stable sort of those entries capped at 10. -/
theorem C7_retention_prebonus_threshold (runs : List WorkflowRun)
    (log ctx : String) (m : ℚ) :
    (∀ row ∈ fetchHistoricalFixes runs,
      m ≤ calculate_similarity (extract_error_signature log)
            (extract_error_signature row.error_log) log row.error_log →
      mkSimilarFix ctx
          (calculate_similarity (extract_error_signature log)
            (extract_error_signature row.error_log) log row.error_log) row
        ∈ similarEntries (fetchHistoricalFixes runs) log ctx m)
    ∧ (∀ e ∈ similarEntries (fetchHistoricalFixes runs) log ctx m,
        ∃ row ∈ fetchHistoricalFixes runs,
          m ≤ calculate_similarity (extract_error_signature log)
                (extract_error_signature row.error_log) log row.error_log
          ∧ e = mkSimilarFix ctx
              (calculate_similarity (extract_error_signature log)
                (extract_error_signature row.error_log) log row.error_log) row)
    ∧ (∀ s : ℚ, ∀ row : HistRow, (mkSimilarFix ctx s row).similarity_score
        = min 1 (s + (if row.owner ++ "/" ++ row.repo_name = ctx
            then 2/10 else 0)))
    ∧ find_similar_fixes runs log ctx m
        = (stableSort scoreDescLe
            (similarEntries (fetchHistoricalFixes runs) log ctx m)).take 10
    ∧ (stableSort scoreDescLe
        (similarEntries (fetchHistoricalFixes runs) log ctx m)).Perm
          (similarEntries (fetchHistoricalFixes runs) log ctx m)
    ∧ (stableSort scoreDescLe
        (similarEntries (fetchHistoricalFixes runs) log ctx m)).Sorted
          (fun a b => b.similarity_score ≤ a.similarity_score) := by
  refine ⟨?_, ?_, fun s row => rfl, rfl,
    CICDFixer.stableSort_perm scoreDescLe _,
    CICDFixer.stableSort_sorted_score _⟩
  · intro row hrow hle
    unfold similarEntries
    rw [List.mem_filterMap]
    exact ⟨row, hrow, by rw [if_pos hle]⟩
  · intro e he
    unfold similarEntries at he
    rw [List.mem_filterMap] at he
    obtain ⟨row, hrow, hf⟩ := he
    by_cases hle : m ≤ calculate_similarity (extract_error_signature log)
        (extract_error_signature row.error_log) log row.error_log
    · rw [if_pos hle] at hf
      exact ⟨row, hrow, hle, (Option.some_injective _ hf).symm⟩
    · rw [if_neg hle] at hf
      exact absurd hf (Option.noConfusion)

unseal Rat.add Rat.mul Rat.inv Rat.sub in
/-- C7 witness: with a permissive threshold 1/10 the concrete candidate
is retained with its bonus-adjusted score. -/
theorem C7_witness :
    CICDFixer.exRuns.head? = some
      { owner := "acme", repo_name := "widgets", workflow_name := "CI"
        error_log := some "error: alpha qq rr ss tt uu"
        suggested_fix := some "use widget-fix"
        fix_status := some "approved", created_at := some 5 }
    ∧ (∀ row ∈ fetchHistoricalFixes CICDFixer.exRuns,
        (1/10 : ℚ) ≤ calculate_similarity
            (extract_error_signature "error: alpha beta gamma delta epsilon zeta")
            (extract_error_signature row.error_log)
            "error: alpha beta gamma delta epsilon zeta" row.error_log →
        mkSimilarFix "acme/widgets"
            (calculate_similarity
              (extract_error_signature "error: alpha beta gamma delta epsilon zeta")
              (extract_error_signature row.error_log)
              "error: alpha beta gamma delta epsilon zeta" row.error_log) row
          ∈ similarEntries (fetchHistoricalFixes CICDFixer.exRuns)
              "error: alpha beta gamma delta epsilon zeta" "acme/widgets" (1/10))
    ∧ find_similar_fixes CICDFixer.exRuns
        "error: alpha beta gamma delta epsilon zeta" "acme/widgets" (1/10)
      = (stableSort scoreDescLe
          (similarEntries (fetchHistoricalFixes CICDFixer.exRuns)
            "error: alpha beta gamma delta epsilon zeta" "acme/widgets" (1/10))).take 10
    ∧ (similarEntries (fetchHistoricalFixes CICDFixer.exRuns)
        "error: alpha beta gamma delta epsilon zeta" "acme/widgets" (1/10)).length = 1 := by
  have h := C7_retention_prebonus_threshold CICDFixer.exRuns
    "error: alpha beta gamma delta epsilon zeta" "acme/widgets" (1/10)
  exact ⟨by decide, h.1, h.2.2.2.1, by decide⟩

/-! ## C10: the confidence formula -/

namespace CICDFixer

/-- Claim-side definition, following the claim's words: the repository
context has at least one settled (approved or rejected) fix in its
history. -/
def repoHasSettledHistory (runs : List WorkflowRun) (repo_context : String) : Bool :=
  runs.any (fun w => w.owner ++ "/" ++ w.repo_name = repo_context
    && w.suggested_fix.isSome
    && (w.fix_status = some "approved" || w.fix_status = some "rejected"))

/-- Claim-side definition of the confidence as the claim states it,
with `repoHasHistory` read as settled history. -/
def claimConfidence (runs : List WorkflowRun) (error_log repo_context : String) : ℚ :=
  min 1 ((4/10) * (((find_similar_fixes runs error_log repo_context (2/10)).length : ℚ) / 10)
    + (3/10) * (if repoHasSettledHistory runs repo_context then 1 else 0) + 3/10)

/-- A repository whose only settled fix was rejected. -/
def exRunsRejected : List WorkflowRun :=
  [{ owner := "a", repo_name := "b", workflow_name := "CI"
     error_log := some "log", suggested_fix := some "fixit"
     fix_status := some "rejected", created_at := some 1 }]

end CICDFixer

unseal Rat.add Rat.mul Rat.inv Rat.sub in
/-- C10 counterexample: for a repository whose only settled fix was
rejected, the code's confidence is 3/10 (its history indicator is
`rate > 0`, which fails because the rate is 0/1), while the claim's
formula — indicator 1 because a settled fix exists — gives 3/5. -/
theorem C10_counterexample :
    (predict_fix_success CICDFixer.exRunsRejected "x" "y" "a/b").confidence = 3/10
    ∧ CICDFixer.claimConfidence CICDFixer.exRunsRejected "x" "a/b" = 3/5
    ∧ ((3/10 : ℚ) ≠ 3/5) := by
  exact ⟨by decide, by decide, by decide⟩

/-- C10 amended: the returned confidence is
`min 1 (0.4*(matchCount/10) + 0.3*indicator + 0.3)` where `matchCount`
is the length of the similar-fix ranking (at most 10) and the indicator
is 1 iff the computed repository success rate is positive — which holds
iff the repository has no settled history at all (default 0.5) or has at
least one approved fix, not iff it has settled history as the claim
said. -/
theorem C10_confidence_formula (runs : List WorkflowRun) (log fix ctx : String) :
    (predict_fix_success runs log fix ctx).confidence
      = min 1 ((((find_similar_fixes runs log ctx (2/10)).length : ℚ) / 10) * (4/10)
          + (if 0 < get_repo_success_rate runs ctx then (1 : ℚ) else 0) * (3/10)
          + 3/10)
    ∧ (find_similar_fixes runs log ctx (2/10)).length ≤ 10
    ∧ (∀ o r : List Char, ctx.data.contains '/' = true →
        splitOnChar '/' ctx.data = [o, r] →
        (0 < get_repo_success_rate runs ctx ↔
          (settledRuns runs ⟨o⟩ ⟨r⟩ = []
            ∨ 0 < ((settledRuns runs ⟨o⟩ ⟨r⟩).filter
                (fun w => w.fix_status = some "approved")).length))) := by
  refine ⟨rfl, ?_, ?_⟩
  · unfold find_similar_fixes
    exact List.length_take_le 10 _
  · intro o r hcont hsplit
    unfold get_repo_success_rate
    rw [hcont]
    simp only [if_true, hsplit]
    unfold repoRateFor
    by_cases htot : 0 < (settledRuns runs ⟨o⟩ ⟨r⟩).length
    · rw [if_pos htot]
      have hne : settledRuns runs ⟨o⟩ ⟨r⟩ ≠ [] := by
        intro h
        rw [h] at htot
        simp at htot
      constructor
      · intro hpos
        refine Or.inr ?_
        by_contra hz
        push_neg at hz
        have h0 : ((settledRuns runs ⟨o⟩ ⟨r⟩).filter
            (fun w => w.fix_status = some "approved")).length = 0 :=
          Nat.le_zero.mp hz
        rw [h0] at hpos
        norm_num at hpos
      · intro hap
        rcases hap with h | h
        · exact absurd h hne
        · exact div_pos (by exact_mod_cast h) (by exact_mod_cast htot)
    · rw [if_neg htot]
      constructor
      · intro _
        left
        rcases List.eq_nil_or_concat (settledRuns runs ⟨o⟩ ⟨r⟩) with h | ⟨l, a, h⟩
        · exact h
        · exfalso
          apply htot
          rw [h]
          simp
      · intro _
        norm_num

unseal Rat.add Rat.mul Rat.inv Rat.sub in
/-- C10 witness: the amended formula and the history characterization
evaluated on the rejected-only repository. -/
theorem C10_witness :
    (predict_fix_success CICDFixer.exRunsRejected "x" "y" "a/b").confidence
      = min 1 ((((find_similar_fixes CICDFixer.exRunsRejected "x" "a/b" (2/10)).length : ℚ) / 10) * (4/10)
          + (if 0 < get_repo_success_rate CICDFixer.exRunsRejected "a/b" then (1 : ℚ) else 0) * (3/10)
          + 3/10)
    ∧ ("a/b" : String).data.contains '/' = true
    ∧ splitOnChar '/' ("a/b" : String).data = ["a".data, "b".data]
    ∧ (0 < get_repo_success_rate CICDFixer.exRunsRejected "a/b" ↔
        (settledRuns CICDFixer.exRunsRejected "a" "b" = []
          ∨ 0 < ((settledRuns CICDFixer.exRunsRejected "a" "b").filter
              (fun w => w.fix_status = some "approved")).length)) := by
  have h := C10_confidence_formula CICDFixer.exRunsRejected "x" "y" "a/b"
  exact ⟨h.1, by decide, by decide, h.2.2 "a".data "b".data (by decide) (by decide)⟩

/-! ## Bound lemmas for C6 -/

namespace CICDFixer

theorem calculate_similarity_nonneg (s₁ s₂ l₁ l₂ : String) :
    0 ≤ calculate_similarity s₁ s₂ l₁ l₂ := by
  unfold calculate_similarity
  by_cases h : s₁ = s₂
  · rw [if_pos h]
    norm_num
  · rw [if_neg h]
    dsimp only
    split_ifs with h₂ h₃
    · norm_num
    · positivity
    · norm_num

theorem calculate_similarity_le_one (s₁ s₂ l₁ l₂ : String) :
    calculate_similarity s₁ s₂ l₁ l₂ ≤ 1 := by
  unfold calculate_similarity
  by_cases h : s₁ = s₂
  · rw [if_pos h]
  · rw [if_neg h]
    dsimp only
    split_ifs with h₂ h₃
    · norm_num
    · rw [div_le_one (by exact_mod_cast h₃)]
      exact_mod_cast Finset.card_le_card
        (Finset.inter_subset_union (s := wordSet l₁) (t := wordSet l₂))
    · norm_num

theorem mkSimilarFix_score_nonneg (ctx : String) (s : ℚ) (row : HistRow)
    (hs : 0 ≤ s) : 0 ≤ (mkSimilarFix ctx s row).similarity_score := by
  unfold mkSimilarFix
  dsimp only
  refine le_min (by norm_num) ?_
  have hb : (0 : ℚ) ≤ (if row.owner ++ "/" ++ row.repo_name = ctx then 2/10 else 0) := by
    split_ifs <;> norm_num
  linarith

theorem mkSimilarFix_score_le_one (ctx : String) (s : ℚ) (row : HistRow) :
    (mkSimilarFix ctx s row).similarity_score ≤ 1 :=
  min_le_left _ _

theorem similarEntries_score_bounds (hist : List HistRow)
    (log ctx : String) (m : ℚ) (e : SimilarFix)
    (he : e ∈ similarEntries hist log ctx m) :
    0 ≤ e.similarity_score ∧ e.similarity_score ≤ 1 := by
  unfold similarEntries at he
  rw [List.mem_filterMap] at he
  obtain ⟨row, _, hf⟩ := he
  dsimp only at hf
  split_ifs at hf with h
  cases hf
  exact ⟨mkSimilarFix_score_nonneg ctx _ row (calculate_similarity_nonneg _ _ _ _),
    mkSimilarFix_score_le_one ctx _ row⟩

theorem find_similar_fixes_score_bounds (runs : List WorkflowRun)
    (log ctx : String) (m : ℚ) (e : SimilarFix)
    (he : e ∈ find_similar_fixes runs log ctx m) :
    0 ≤ e.similarity_score ∧ e.similarity_score ≤ 1 := by
  unfold find_similar_fixes at he
  have h₁ : e ∈ stableSort scoreDescLe
      (similarEntries (fetchHistoricalFixes runs) log ctx m) :=
    List.mem_of_mem_take he
  have h₂ : e ∈ similarEntries (fetchHistoricalFixes runs) log ctx m :=
    (stableSort_perm scoreDescLe _).mem_iff.mp h₁
  exact similarEntries_score_bounds _ log ctx m e h₂

theorem similarity_match_factor_bounds (runs : List WorkflowRun)
    (log ctx : String) :
    0 ≤ similarity_match_factor runs log ctx
      ∧ similarity_match_factor runs log ctx ≤ 1 := by
  unfold similarity_match_factor
  dsimp only
  by_cases h : (find_similar_fixes runs log ctx (2/10)).isEmpty
  · rw [if_pos h]
    norm_num
  · rw [if_neg h]
    have hne : find_similar_fixes runs log ctx (2/10) ≠ [] := by
      intro hnil
      rw [hnil] at h
      exact h rfl
    have hlen : 0 < (find_similar_fixes runs log ctx (2/10)).length :=
      List.length_pos.mpr hne
    have hminq : (0 : ℚ) < min (5:ℚ) ((find_similar_fixes runs log ctx (2/10)).length : ℚ) :=
      lt_min (by norm_num) (by exact_mod_cast hlen)
    have hall0 : ∀ x ∈ (((find_similar_fixes runs log ctx (2/10)).take 5).map
        (·.similarity_score)), 0 ≤ x := by
      intro x hx
      rw [List.mem_map] at hx
      obtain ⟨e, he, hex⟩ := hx
      rw [← hex]
      exact (find_similar_fixes_score_bounds runs log ctx (2/10) e
        (List.mem_of_mem_take he)).1
    have hall1 : ∀ x ∈ (((find_similar_fixes runs log ctx (2/10)).take 5).map
        (·.similarity_score)), x ≤ 1 := by
      intro x hx
      rw [List.mem_map] at hx
      obtain ⟨e, he, hex⟩ := hx
      rw [← hex]
      exact (find_similar_fixes_score_bounds runs log ctx (2/10) e
        (List.mem_of_mem_take he)).2
    constructor
    · exact div_nonneg (List.sum_nonneg hall0) hminq.le
    · rw [div_le_one hminq]
      have hsum := List.sum_le_card_nsmul
        (((find_similar_fixes runs log ctx (2/10)).take 5).map (·.similarity_score))
        (1 : ℚ) hall1
      have hlen5 : (((find_similar_fixes runs log ctx (2/10)).take 5).map
          (·.similarity_score)).length
          = min 5 (find_similar_fixes runs log ctx (2/10)).length := by
        rw [List.length_map, List.length_take]
      rw [hlen5, nsmul_eq_mul, mul_one] at hsum
      have hcast : ((min 5 (find_similar_fixes runs log ctx (2/10)).length : ℕ) : ℚ)
          = min (5:ℚ) ((find_similar_fixes runs log ctx (2/10)).length : ℚ) := by
        push_cast
        rfl
      rw [hcast] at hsum
      exact hsum

theorem repoRateFor_bounds (runs : List WorkflowRun) (o r : String) :
    0 ≤ repoRateFor runs o r ∧ repoRateFor runs o r ≤ 1 := by
  unfold repoRateFor
  dsimp only
  split_ifs with h
  · constructor
    · positivity
    · rw [div_le_one (by exact_mod_cast h)]
      exact_mod_cast List.length_filter_le _ _
  · norm_num

theorem get_repo_success_rate_bounds (runs : List WorkflowRun) (ctx : String) :
    0 ≤ get_repo_success_rate runs ctx ∧ get_repo_success_rate runs ctx ≤ 1 := by
  unfold get_repo_success_rate
  split_ifs with h
  · cases hs : splitOnChar '/' ctx.data with
    | nil => norm_num
    | cons a t =>
        cases t with
        | nil => norm_num
        | cons b t₂ =>
            cases t₂ with
            | nil => exact repoRateFor_bounds runs ⟨a⟩ ⟨b⟩
            | cons c t₃ => norm_num
  · exact repoRateFor_bounds runs "" ctx

theorem assess_fix_complexity_bounds (fix_text : String) :
    0 ≤ assess_fix_complexity fix_text ∧ assess_fix_complexity fix_text ≤ 1 := by
  unfold assess_fix_complexity
  split_ifs with h
  · norm_num
  · dsimp only
    refine ⟨le_min (by norm_num) ?_, min_le_left _ _⟩
    have t₁ : (0:ℚ) ≤ min 1 (((splitOnChar '\n' fix_text.data).length : ℚ) / 50) :=
      le_min (by norm_num) (by positivity)
    have t₂ : (0:ℚ) ≤ min 1 ((countOcc "file:" fix_text : ℚ) / 10) :=
      le_min (by norm_num) (by positivity)
    have t₃ : (0:ℚ) ≤ min 1 ((countOcc "delete" (pyLower fix_text) : ℚ) / 5) :=
      le_min (by norm_num) (by positivity)
    have t₄ : (0:ℚ) ≤ min 1 ((countDotExt (pyLower fix_text) : ℚ) / 5) :=
      le_min (by norm_num) (by positivity)
    have t₅ : (0:ℚ) ≤ min 1 ((countDeps (pyLower fix_text) : ℚ) / 3) :=
      le_min (by norm_num) (by positivity)
    have m₁ := mul_nonneg t₁ (by norm_num : (0:ℚ) ≤ 3/10)
    have m₂ := mul_nonneg t₂ (by norm_num : (0:ℚ) ≤ 2/10)
    have m₃ := mul_nonneg t₃ (by norm_num : (0:ℚ) ≤ 15/100)
    have m₄ := mul_nonneg t₄ (by norm_num : (0:ℚ) ≤ 2/10)
    have m₅ := mul_nonneg t₅ (by norm_num : (0:ℚ) ≤ 15/100)
    linarith

theorem typeReliability_bounds (t : String) :
    0 ≤ typeReliability t ∧ typeReliability t ≤ 1 := by
  unfold typeReliability
  split_ifs <;> norm_num

theorem get_error_type_reliability_bounds (log : String) :
    0 ≤ get_error_type_reliability log ∧ get_error_type_reliability log ≤ 1 := by
  unfold get_error_type_reliability
  cases classify_error_types log with
  | nil => norm_num
  | cons t ts => exact typeReliability_bounds t

theorem prediction_confidence_bounds (runs : List WorkflowRun)
    (log ctx : String) :
    0 ≤ prediction_confidence runs log ctx
      ∧ prediction_confidence runs log ctx ≤ 1 := by
  unfold prediction_confidence
  refine ⟨le_min (by norm_num) ?_, min_le_left _ _⟩
  have h₁ : (0:ℚ) ≤ (((find_similar_fixes runs log ctx (2/10)).length : ℚ) / 10) * (4/10) := by
    positivity
  have h₂ : (0:ℚ) ≤ (if 0 < get_repo_success_rate runs ctx then (1:ℚ) else 0) * (3/10) := by
    split_ifs <;> norm_num
  linarith

end CICDFixer

/-- C6: for every input triple — error text, suggested fix text and
repository context, empty strings included — the prediction's success
probability lies in [0,1] and its confidence lies in [0,1]. -/
theorem C6_prediction_in_unit_interval (runs : List WorkflowRun)
    (error_log suggested_fix repo_context : String) :
    0 ≤ (predict_fix_success runs error_log suggested_fix repo_context).predicted_success_rate
    ∧ (predict_fix_success runs error_log suggested_fix repo_context).predicted_success_rate ≤ 1
    ∧ 0 ≤ (predict_fix_success runs error_log suggested_fix repo_context).confidence
    ∧ (predict_fix_success runs error_log suggested_fix repo_context).confidence ≤ 1 := by
  obtain ⟨hs₀, hs₁⟩ := CICDFixer.similarity_match_factor_bounds runs error_log repo_context
  obtain ⟨hr₀, hr₁⟩ := CICDFixer.get_repo_success_rate_bounds runs repo_context
  obtain ⟨hc₀, hc₁⟩ := CICDFixer.assess_fix_complexity_bounds suggested_fix
  obtain ⟨he₀, he₁⟩ := CICDFixer.get_error_type_reliability_bounds error_log
  obtain ⟨hk₀, hk₁⟩ := CICDFixer.prediction_confidence_bounds runs error_log repo_context
  have hshow : (predict_fix_success runs error_log suggested_fix repo_context).predicted_success_rate
      = similarity_match_factor runs error_log repo_context * (3/10)
        + get_repo_success_rate runs repo_context * (25/100)
        + (1 - assess_fix_complexity suggested_fix) * (2/10)
        + get_error_type_reliability error_log * (15/100)
        + (8/10 : ℚ) * (1/10) := rfl
  have hconf : (predict_fix_success runs error_log suggested_fix repo_context).confidence
      = prediction_confidence runs error_log repo_context := rfl
  refine ⟨?_, ?_, hconf ▸ hk₀, hconf ▸ hk₁⟩ <;> rw [hshow] <;> nlinarith

/-! ## C8: noise templates

"A and B differ only in file paths, line numbers, or timestamps" is
formalized by a common template of shared literal pieces and noise
pieces, each noise piece carrying its A-side and B-side token. -/

namespace CICDFixer

/-- A template piece: a shared literal, or a noise slot holding the two
tokens the sides disagree on. -/
inductive DiffPiece where
  | lit (s : List Char)
  | path (a b : List Char)
  | lineNum (a b : List Char)
  | time (a b : List Char)
  | num (a b : List Char)
deriving DecidableEq

/-- The A-side rendering of a template. -/
def renderA : List DiffPiece → List Char
  | [] => []
  | .lit s :: r => s ++ renderA r
  | .path a _ :: r => a ++ renderA r
  | .lineNum a _ :: r => a ++ renderA r
  | .time a _ :: r => a ++ renderA r
  | .num a _ :: r => a ++ renderA r

/-- The B-side rendering of a template. -/
def renderB : List DiffPiece → List Char
  | [] => []
  | .lit s :: r => s ++ renderB r
  | .path _ b :: r => b ++ renderB r
  | .lineNum _ b :: r => b ++ renderB r
  | .time _ b :: r => b ++ renderB r
  | .num _ b :: r => b ++ renderB r

/-- Does `pat` occur as a substring? -/
def hasSubstr (pat : List Char) : List Char → Bool
  | [] => pat.isEmpty
  | c :: ts => pat.isPrefixOf (c :: ts) || hasSubstr pat (c :: ts).tail

/-- A file-path token in the sense of the cleaning regex
`/[\w/.-]+\.\w+`: a slash, then path-class characters containing a final
`.ext` split, such that the regex consumes the whole token. -/
def isPathShape (tok : List Char) : Bool :=
  match tok with
  | c :: rest =>
      c = '/' && !rest.isEmpty && rest.all inPathClass &&
      (match findLastSplit rest with
       | some i => i + 1 + ((rest.drop (i + 1)).takeWhile isWordChar).length
           = rest.length
       | none => false)
  | [] => false

/-- A line-number token `line␣+digits` as matched by `line\s+\d+`
(whitespace restricted to plain spaces). -/
def isLineTok (tok : List Char) : Bool :=
  ('l' :: 'i' :: 'n' :: 'e' :: []).isPrefixOf tok &&
  (let rest := tok.drop 4
   let ws := rest.takeWhile (fun c => c = ' ')
   let ds := rest.drop ws.length
   !ws.isEmpty && !ds.isEmpty && ds.all Char.isDigit)

/-- A timestamp token: exactly `\d{4}-\d{2}-\d{2}` or
`\d{2}:\d{2}:\d{2}`. -/
def isTimeTok (tok : List Char) : Bool :=
  !tok.isEmpty && tryTimeTail tok = some []

/-- A bare-integer token. -/
def isNumTok (tok : List Char) : Bool :=
  !tok.isEmpty && tok.all Char.isDigit

/-- The concrete counterexample template: the two texts differ only in
the file path being compiled. -/
def exTemplate : List DiffPiece :=
  [.lit "failed: cannot compile ".data,
   .path "/tmp/error12345678.py".data "/tmp/main.py".data,
   .lit " extra words here".data]

end CICDFixer

/-- C8 counterexample: two error texts that differ only in a file path
— both fills are file-path tokens in the sense of the cleaning regex —
yet their extracted signatures differ: the path on the A side contains
the word "error", which triggers an extra extraction-pattern match
before any cleaning happens. -/
theorem C8_counterexample :
    CICDFixer.isPathShape "/tmp/error12345678.py".data = true
    ∧ CICDFixer.isPathShape "/tmp/main.py".data = true
    ∧ CICDFixer.renderA CICDFixer.exTemplate
        = "failed: cannot compile /tmp/error12345678.py extra words here".data
    ∧ CICDFixer.renderB CICDFixer.exTemplate
        = "failed: cannot compile /tmp/main.py extra words here".data
    ∧ extract_error_signature
        "failed: cannot compile /tmp/error12345678.py extra words here"
      ≠ extract_error_signature
        "failed: cannot compile /tmp/main.py extra words here" := by
  refine ⟨by decide, by decide, by decide, by decide, by decide⟩


/-! ### Step equations for the cleaning scanners -/

namespace CICDFixer

theorem takeWhile_len_le (p : Char → Bool) : ∀ l : List Char,
    (l.takeWhile p).length ≤ l.length := by
  intro l
  induction l with
  | nil => simp
  | cons c ts ih =>
      by_cases hc : p c
      · simp only [List.takeWhile_cons, if_pos hc, List.length_cons]
        omega
      · simp only [List.takeWhile_cons, if_neg hc]
        simp

theorem tryPathTail_length (ts rest : List Char)
    (h : tryPathTail ts = some rest) : rest.length ≤ ts.length := by
  unfold tryPathTail at h
  dsimp only at h
  cases hfs : findLastSplit (ts.takeWhile inPathClass) with
  | none => rw [hfs] at h; exact absurd h (by simp)
  | some i =>
      rw [hfs] at h
      simp only [Option.some.injEq] at h
      rw [← h, List.length_drop]
      omega

theorem sub1Aux_eq (n : ℕ) : ∀ (f₁ f₂ : ℕ) (l : List Char),
    l.length ≤ n → l.length ≤ f₁ → l.length ≤ f₂ →
    sub1Aux f₁ l = sub1Aux f₂ l := by
  induction n with
  | zero =>
      intro f₁ f₂ l hn h₁ h₂
      have : l = [] := List.length_eq_zero.mp (Nat.le_zero.mp hn)
      subst this
      cases f₁ <;> cases f₂ <;> rfl
  | succ n ih =>
      intro f₁ f₂ l hn h₁ h₂
      cases l with
      | nil => cases f₁ <;> cases f₂ <;> rfl
      | cons c ts =>
          match f₁, f₂ with
          | g₁ + 1, g₂ + 1 =>
            simp only [List.length_cons] at hn h₁ h₂
            show sub1Aux (g₁ + 1) (c :: ts) = sub1Aux (g₂ + 1) (c :: ts)
            unfold sub1Aux
            by_cases hc : c = '/'
            · rw [if_pos hc, if_pos hc]
              cases hp : tryPathTail ts with
              | none =>
                  dsimp only
                  rw [ih g₁ g₂ ts (by omega) (by omega) (by omega)]
              | some rest =>
                  have hr := tryPathTail_length ts rest hp
                  dsimp only
                  rw [ih g₁ g₂ rest (by omega) (by omega) (by omega)]
            · rw [if_neg hc, if_neg hc,
                ih g₁ g₂ ts (by omega) (by omega) (by omega)]

theorem subFile_nil : subFile [] = [] := rfl

theorem subFile_cons_slash (ts rest : List Char)
    (h : tryPathTail ts = some rest) :
    subFile ('/' :: ts) = '<' :: 'f' :: 'i' :: 'l' :: 'e' :: '>' :: subFile rest := by
  have hr := tryPathTail_length ts rest h
  show sub1Aux (ts.length + 1) ('/' :: ts) = _
  unfold sub1Aux
  rw [if_pos rfl, h]
  dsimp only
  unfold subFile
  rw [sub1Aux_eq ts.length ts.length rest.length rest hr hr (le_refl _)]

theorem subFile_cons (c : Char) (ts : List Char)
    (h : c = '/' → tryPathTail ts = none) :
    subFile (c :: ts) = c :: subFile ts := by
  show sub1Aux (ts.length + 1) (c :: ts) = _
  unfold sub1Aux
  by_cases hc : c = '/'
  · rw [if_pos hc, h hc]
    rfl
  · rw [if_neg hc]
    rfl

theorem tryLineTail_length (s rest : List Char)
    (h : tryLineTail s = some rest) : rest.length + 6 ≤ s.length := by
  unfold tryLineTail at h
  by_cases h₁ : ('l' :: 'i' :: 'n' :: 'e' :: []).isPrefixOf s
  case neg => rw [if_neg h₁] at h; exact absurd h (by simp)
  rw [if_pos h₁] at h
  dsimp only at h
  by_cases h₂ : ((s.drop 4).takeWhile pyIsSpace).isEmpty = true
  case pos => rw [if_pos h₂] at h; exact absurd h (by simp)
  rw [if_neg h₂] at h
  by_cases h₃ : (((s.drop 4).drop
      ((s.drop 4).takeWhile pyIsSpace).length).takeWhile Char.isDigit).isEmpty = true
  case pos => rw [if_pos h₃] at h; exact absurd h (by simp)
  rw [if_neg h₃] at h
  simp only [Option.some.injEq] at h
  have hws : 1 ≤ ((s.drop 4).takeWhile pyIsSpace).length := by
    have hne : (s.drop 4).takeWhile pyIsSpace ≠ [] := by simpa using h₂
    have := List.length_pos.mpr hne
    omega
  have hds : 1 ≤ (((s.drop 4).drop
      ((s.drop 4).takeWhile pyIsSpace).length).takeWhile Char.isDigit).length := by
    have hne : ((s.drop 4).drop
        ((s.drop 4).takeWhile pyIsSpace).length).takeWhile Char.isDigit ≠ [] := by
      simpa using h₃
    have := List.length_pos.mpr hne
    omega
  have hpre : 4 ≤ s.length := by
    have hp : ('l' :: 'i' :: 'n' :: 'e' :: []) <+: s :=
      List.isPrefixOf_iff_prefix.mp h₁
    simpa using hp.length_le
  have hwsle : ((s.drop 4).takeWhile pyIsSpace).length ≤ (s.drop 4).length :=
    takeWhile_len_le _ _
  have hdsle : (((s.drop 4).drop
      ((s.drop 4).takeWhile pyIsSpace).length).takeWhile Char.isDigit).length
      ≤ ((s.drop 4).drop ((s.drop 4).takeWhile pyIsSpace).length).length :=
    takeWhile_len_le _ _
  rw [← h]
  simp only [List.length_drop] at *
  omega

theorem sub2Aux_eq (n : ℕ) : ∀ (f₁ f₂ : ℕ) (l : List Char),
    l.length ≤ n → l.length ≤ f₁ → l.length ≤ f₂ →
    sub2Aux f₁ l = sub2Aux f₂ l := by
  induction n with
  | zero =>
      intro f₁ f₂ l hn h₁ h₂
      have : l = [] := List.length_eq_zero.mp (Nat.le_zero.mp hn)
      subst this
      cases f₁ <;> cases f₂ <;> rfl
  | succ n ih =>
      intro f₁ f₂ l hn h₁ h₂
      cases l with
      | nil => cases f₁ <;> cases f₂ <;> rfl
      | cons c ts =>
          match f₁, f₂ with
          | g₁ + 1, g₂ + 1 =>
            simp only [List.length_cons] at hn h₁ h₂
            show sub2Aux (g₁ + 1) (c :: ts) = sub2Aux (g₂ + 1) (c :: ts)
            unfold sub2Aux
            cases hp : tryLineTail (c :: ts) with
            | none =>
                dsimp only
                rw [ih g₁ g₂ ts (by omega) (by omega) (by omega)]
            | some rest =>
                have hr := tryLineTail_length (c :: ts) rest hp
                simp only [List.length_cons] at hr
                dsimp only
                rw [ih g₁ g₂ rest (by omega) (by omega) (by omega)]

theorem subLine_nil : subLine [] = [] := rfl

theorem subLine_cons_match (c : Char) (ts rest : List Char)
    (h : tryLineTail (c :: ts) = some rest) :
    subLine (c :: ts)
      = 'l' :: 'i' :: 'n' :: 'e' :: ' ' :: '<' :: 'n' :: 'u' :: 'm' :: '>' ::
        subLine rest := by
  have hr := tryLineTail_length (c :: ts) rest h
  simp only [List.length_cons] at hr
  show sub2Aux (ts.length + 1) (c :: ts) = _
  unfold sub2Aux
  rw [h]
  dsimp only
  unfold subLine
  rw [sub2Aux_eq ts.length ts.length rest.length rest (by omega) (by omega) (le_refl _)]

theorem subLine_cons (c : Char) (ts : List Char)
    (h : tryLineTail (c :: ts) = none) :
    subLine (c :: ts) = c :: subLine ts := by
  show sub2Aux (ts.length + 1) (c :: ts) = _
  unfold sub2Aux
  rw [h]
  rfl

theorem takeDigits_length (n : ℕ) : ∀ (s rest : List Char),
    takeDigits n s = some rest → rest.length + n = s.length := by
  induction n with
  | zero =>
      intro s rest h
      simp only [takeDigits, Option.some.injEq] at h
      rw [h]
      omega
  | succ n ih =>
      intro s rest h
      cases s with
      | nil => exact absurd h (by simp [takeDigits])
      | cons c ts =>
          unfold takeDigits at h
          split_ifs at h with hd
          have := ih ts rest h
          simp only [List.length_cons]
          omega

theorem expectChar_length (c : Char) (s rest : List Char)
    (h : expectChar c s = some rest) : rest.length + 1 = s.length := by
  cases s with
  | nil => exact absurd h (by simp [expectChar])
  | cons x ts =>
      simp only [expectChar] at h
      split_ifs at h with hx
      simp only [Option.some.injEq] at h
      rw [← h]
      simp

theorem tryTimeTail_length (s rest : List Char)
    (h : tryTimeTail s = some rest) : rest.length + 8 ≤ s.length := by
  unfold tryTimeTail at h
  cases halt : ((((takeDigits 4 s).bind (expectChar '-')).bind
      (takeDigits 2)).bind (expectChar '-')).bind (takeDigits 2) with
  | some r =>
      rw [halt] at h
      simp only [Option.some.injEq] at h
      rw [← h]
      rw [Option.bind_eq_some] at halt
      obtain ⟨t₄, h₄, hlast⟩ := halt
      rw [Option.bind_eq_some] at h₄
      obtain ⟨t₃, h₃, hexp₂⟩ := h₄
      rw [Option.bind_eq_some] at h₃
      obtain ⟨t₂, h₂, hmid⟩ := h₃
      rw [Option.bind_eq_some] at h₂
      obtain ⟨t₁, h₁, hexp₁⟩ := h₂
      have l₁ := takeDigits_length 4 s t₁ h₁
      have l₂ := expectChar_length '-' t₁ t₂ hexp₁
      have l₃ := takeDigits_length 2 t₂ t₃ hmid
      have l₄ := expectChar_length '-' t₃ t₄ hexp₂
      have l₅ := takeDigits_length 2 t₄ r hlast
      omega
  | none =>
      rw [halt] at h
      rw [Option.bind_eq_some] at h
      obtain ⟨t₄, h₄, hlast⟩ := h
      rw [Option.bind_eq_some] at h₄
      obtain ⟨t₃, h₃, hexp₂⟩ := h₄
      rw [Option.bind_eq_some] at h₃
      obtain ⟨t₂, h₂, hmid⟩ := h₃
      rw [Option.bind_eq_some] at h₂
      obtain ⟨t₁, h₁, hexp₁⟩ := h₂
      have l₁ := takeDigits_length 2 s t₁ h₁
      have l₂ := expectChar_length ':' t₁ t₂ hexp₁
      have l₃ := takeDigits_length 2 t₂ t₃ hmid
      have l₄ := expectChar_length ':' t₃ t₄ hexp₂
      have l₅ := takeDigits_length 2 t₄ rest hlast
      omega

theorem sub3Aux_eq (n : ℕ) : ∀ (f₁ f₂ : ℕ) (l : List Char),
    l.length ≤ n → l.length ≤ f₁ → l.length ≤ f₂ →
    sub3Aux f₁ l = sub3Aux f₂ l := by
  induction n with
  | zero =>
      intro f₁ f₂ l hn h₁ h₂
      have : l = [] := List.length_eq_zero.mp (Nat.le_zero.mp hn)
      subst this
      cases f₁ <;> cases f₂ <;> rfl
  | succ n ih =>
      intro f₁ f₂ l hn h₁ h₂
      cases l with
      | nil => cases f₁ <;> cases f₂ <;> rfl
      | cons c ts =>
          match f₁, f₂ with
          | g₁ + 1, g₂ + 1 =>
            simp only [List.length_cons] at hn h₁ h₂
            show sub3Aux (g₁ + 1) (c :: ts) = sub3Aux (g₂ + 1) (c :: ts)
            unfold sub3Aux
            cases hp : tryTimeTail (c :: ts) with
            | none =>
                dsimp only
                rw [ih g₁ g₂ ts (by omega) (by omega) (by omega)]
            | some rest =>
                have hr := tryTimeTail_length (c :: ts) rest hp
                simp only [List.length_cons] at hr
                dsimp only
                rw [ih g₁ g₂ rest (by omega) (by omega) (by omega)]

theorem subTime_nil : subTime [] = [] := rfl

theorem subTime_cons_match (c : Char) (ts rest : List Char)
    (h : tryTimeTail (c :: ts) = some rest) :
    subTime (c :: ts)
      = '<' :: 't' :: 'i' :: 'm' :: 'e' :: '>' :: subTime rest := by
  have hr := tryTimeTail_length (c :: ts) rest h
  simp only [List.length_cons] at hr
  show sub3Aux (ts.length + 1) (c :: ts) = _
  unfold sub3Aux
  rw [h]
  dsimp only
  unfold subTime
  rw [sub3Aux_eq ts.length ts.length rest.length rest (by omega) (by omega) (le_refl _)]

theorem subTime_cons (c : Char) (ts : List Char)
    (h : tryTimeTail (c :: ts) = none) :
    subTime (c :: ts) = c :: subTime ts := by
  show sub3Aux (ts.length + 1) (c :: ts) = _
  unfold sub3Aux
  rw [h]
  rfl

end CICDFixer

namespace CICDFixer

/-- `subNum` scanning with an explicit previous-character context. -/
def subNumFrom (p : Option Char) (l : List Char) : List Char :=
  sub4Aux l.length p l

theorem subNum_eq_from : ∀ l : List Char, subNum l = subNumFrom none l :=
  fun _ => rfl

theorem sub4Aux_eq (n : ℕ) : ∀ (f₁ f₂ : ℕ) (p : Option Char) (l : List Char),
    l.length ≤ n → l.length ≤ f₁ → l.length ≤ f₂ →
    sub4Aux f₁ p l = sub4Aux f₂ p l := by
  induction n with
  | zero =>
      intro f₁ f₂ p l hn h₁ h₂
      have : l = [] := List.length_eq_zero.mp (Nat.le_zero.mp hn)
      subst this
      cases f₁ <;> cases f₂ <;> rfl
  | succ n ih =>
      intro f₁ f₂ p l hn h₁ h₂
      cases l with
      | nil => cases f₁ <;> cases f₂ <;> rfl
      | cons c ts =>
          match f₁, f₂ with
          | g₁ + 1, g₂ + 1 =>
            simp only [List.length_cons] at hn h₁ h₂
            show sub4Aux (g₁ + 1) p (c :: ts) = sub4Aux (g₂ + 1) p (c :: ts)
            unfold sub4Aux
            by_cases hs : numStartOk p c
            · rw [if_pos hs, if_pos hs]
              dsimp only
              by_cases he : numEndOk ((c :: ts).drop
                  ((c :: ts).takeWhile Char.isDigit).length)
              · rw [if_pos he, if_pos he]
                have hrun : 1 ≤ ((c :: ts).takeWhile Char.isDigit).length := by
                  have hc : c.isDigit := by
                    have := hs
                    unfold numStartOk at this
                    exact And.left (by simpa using this)
                  simp [List.takeWhile_cons, hc]
                have hlen : ((c :: ts).drop
                    ((c :: ts).takeWhile Char.isDigit).length).length
                    = ts.length + 1 - ((c :: ts).takeWhile Char.isDigit).length := by
                  simp [List.length_drop]
                rw [ih g₁ g₂ _ _ (by omega) (by omega) (by omega)]
              · rw [if_neg he, if_neg he,
                  ih g₁ g₂ (some c) ts (by omega) (by omega) (by omega)]
            · rw [if_neg hs, if_neg hs,
                ih g₁ g₂ (some c) ts (by omega) (by omega) (by omega)]

theorem subNumFrom_nil (p : Option Char) : subNumFrom p [] = [] := rfl

theorem subNumFrom_cons_nostart (p : Option Char) (c : Char) (ts : List Char)
    (h : numStartOk p c = false) :
    subNumFrom p (c :: ts) = c :: subNumFrom (some c) ts := by
  show sub4Aux (ts.length + 1) p (c :: ts) = _
  unfold sub4Aux
  rw [h]
  rfl

theorem subNumFrom_cons_noend (p : Option Char) (c : Char) (ts : List Char)
    (h : numStartOk p c = true)
    (he : numEndOk ((c :: ts).drop ((c :: ts).takeWhile Char.isDigit).length) = false) :
    subNumFrom p (c :: ts) = c :: subNumFrom (some c) ts := by
  show sub4Aux (ts.length + 1) p (c :: ts) = _
  unfold sub4Aux
  rw [h]
  dsimp only
  rw [he]
  rfl

theorem subNumFrom_cons_match (p : Option Char) (c : Char) (ts : List Char)
    (h : numStartOk p c = true)
    (he : numEndOk ((c :: ts).drop ((c :: ts).takeWhile Char.isDigit).length) = true) :
    subNumFrom p (c :: ts)
      = '<' :: 'n' :: 'u' :: 'm' :: '>' ::
        subNumFrom (some (((c :: ts).takeWhile Char.isDigit).getLastD c))
          ((c :: ts).drop ((c :: ts).takeWhile Char.isDigit).length) := by
  have hc : c.isDigit := by
    unfold numStartOk at h
    exact And.left (by simpa using h)
  have hrun : 1 ≤ ((c :: ts).takeWhile Char.isDigit).length := by
    simp [List.takeWhile_cons, hc]
  have hrle : ((c :: ts).takeWhile Char.isDigit).length ≤ ts.length + 1 := by
    have := takeWhile_len_le Char.isDigit (c :: ts)
    simpa using this
  show sub4Aux (ts.length + 1) p (c :: ts) = _
  unfold sub4Aux
  rw [if_pos h]
  dsimp only
  rw [if_pos he]
  unfold subNumFrom
  have hrest : ((c :: ts).drop ((c :: ts).takeWhile Char.isDigit).length).length
      ≤ ts.length := by
    simp only [List.length_drop, List.length_cons]
    omega
  rw [sub4Aux_eq ts.length ts.length
    (((c :: ts).drop ((c :: ts).takeWhile Char.isDigit).length).length)
    _ _ hrest hrest (le_refl _)]

theorem subNumFrom_prev_irrel (p q : Option Char) (c : Char) (ts : List Char)
    (hc : c.isDigit = false) :
    subNumFrom p (c :: ts) = subNumFrom q (c :: ts) := by
  have h₁ : numStartOk p c = false := by unfold numStartOk; simp [hc]
  have h₂ : numStartOk q c = false := by unfold numStartOk; simp [hc]
  rw [subNumFrom_cons_nostart p c ts h₁, subNumFrom_cons_nostart q c ts h₂]

end CICDFixer

/-! ### Generic scanning helpers -/

namespace CICDFixer

theorem takeWhile_append_all (p : Char → Bool) (xs ys : List Char)
    (h : ∀ x ∈ xs, p x = true) :
    (xs ++ ys).takeWhile p = xs ++ ys.takeWhile p := by
  induction xs with
  | nil => rfl
  | cons c ts ih =>
      have hc := h c (List.mem_cons_self c ts)
      simp only [List.cons_append, List.takeWhile_cons, hc, if_true]
      rw [ih (fun x hx => h x (List.mem_cons_of_mem c hx))]

theorem takeWhile_append_stop (p : Char → Bool) (xs ys : List Char)
    (hhead : ys = [] ∨ ∃ z zs, ys = z :: zs ∧ p z = false) :
    (xs ++ ys).takeWhile p = xs.takeWhile p := by
  induction xs with
  | nil =>
      rcases hhead with h | ⟨z, zs, hz, hpz⟩
      · simp [h]
      · simp [hz, List.takeWhile_cons, hpz]
  | cons c ts ih =>
      by_cases hc : p c
      · simp only [List.cons_append, List.takeWhile_cons, hc, if_true]
        rw [ih]
      · simp [List.cons_append, List.takeWhile_cons, hc]

theorem drop_append_le (k : ℕ) (xs ys : List Char) (h : k ≤ xs.length) :
    (xs ++ ys).drop k = xs.drop k ++ ys :=
  List.drop_append_of_le_length h

theorem findLastSplit_lt (r : List Char) (i : ℕ)
    (h : findLastSplit r = some i) : 1 ≤ i ∧ i + 1 < r.length := by
  unfold findLastSplit at h
  suffices H : ∀ (init : Option ℕ) (ns : List ℕ),
      (∀ j, init = some j → 1 ≤ j ∧ j + 1 < r.length) →
      (∀ j ∈ ns, j < r.length) →
      ∀ j, ns.foldl (fun acc i =>
        if 1 ≤ i && r.getD i ' ' = '.' && i + 1 < r.length
            && isWordChar (r.getD (i + 1) ' ') then some i else acc) init = some j →
        1 ≤ j ∧ j + 1 < r.length by
    exact H none (List.range r.length)
      (by intro j hj; exact absurd hj (by simp))
      (by intro j hj; exact List.mem_range.mp hj) i h
  intro init ns
  induction ns generalizing init with
  | nil => intro hinit _ j hj; exact hinit j hj
  | cons m ms ih =>
      intro hinit hmem j hj
      simp only [List.foldl_cons] at hj
      refine ih _ ?_ (fun x hx => hmem x (List.mem_cons_of_mem m hx)) j hj
      intro j' hj'
      by_cases hcond : (1 ≤ m && r.getD m ' ' = '.' && m + 1 < r.length
          && isWordChar (r.getD (m + 1) ' ')) = true
      · rw [if_pos hcond] at hj'
        simp only [Option.some.injEq] at hj'
        subst hj'
        simp only [Bool.and_eq_true, decide_eq_true_eq] at hcond
        exact ⟨hcond.1.1.1, hcond.1.2⟩
      · rw [if_neg hcond] at hj'
        exact hinit j' hj'

theorem tryPathTail_boundary (v y : List Char)
    (hy : y = [] ∨ ∃ z zs, y = z :: zs ∧ inPathClass z = false) :
    tryPathTail (v ++ y) = (tryPathTail v).map (· ++ y) := by
  unfold tryPathTail
  rw [takeWhile_append_stop inPathClass v y hy]
  dsimp only
  cases hfs : findLastSplit (v.takeWhile inPathClass) with
  | none => rfl
  | some i =>
      obtain ⟨hi1, hi2⟩ := findLastSplit_lt _ i hfs
      have hw : (((v.takeWhile inPathClass).drop (i + 1)).takeWhile isWordChar).length
          ≤ (v.takeWhile inPathClass).length - (i + 1) := by
        have := takeWhile_len_le isWordChar ((v.takeWhile inPathClass).drop (i + 1))
        simpa [List.length_drop] using this
      have hk : i + 1 + (((v.takeWhile inPathClass).drop (i + 1)).takeWhile
          isWordChar).length ≤ v.length := by
        have hr := takeWhile_len_le inPathClass v
        omega
      dsimp only
      rw [drop_append_le _ v y hk]
      rfl

theorem subFile_split (x y : List Char) :
    subFile (x ++ ' ' :: y) = subFile x ++ ' ' :: subFile y := by
  suffices H : ∀ (n : ℕ) (x : List Char), x.length ≤ n →
      subFile (x ++ ' ' :: y) = subFile x ++ ' ' :: subFile y by
    exact H x.length x (le_refl _)
  intro n
  induction n with
  | zero =>
      intro x hx
      have : x = [] := List.length_eq_zero.mp (Nat.le_zero.mp hx)
      subst this
      simp only [List.nil_append, subFile_nil]
      rw [subFile_cons ' ' y (by intro h; exact absurd h (by decide))]
  | succ n ih =>
      intro x hx
      cases x with
      | nil =>
          simp only [List.nil_append, subFile_nil]
          rw [subFile_cons ' ' y (by intro h; exact absurd h (by decide))]
      | cons c ts =>
          simp only [List.length_cons] at hx
          by_cases hc : c = '/'
          · subst hc
            have hb := tryPathTail_boundary ts (' ' :: y)
              (Or.inr ⟨' ', y, rfl, by decide⟩)
            cases hp : tryPathTail ts with
            | none =>
                rw [hp] at hb
                simp only [Option.map_none'] at hb
                rw [List.cons_append, subFile_cons '/' (ts ++ ' ' :: y)
                  (fun _ => hb), subFile_cons '/' ts (fun _ => hp), ih ts (by omega)]
                rfl
            | some rest =>
                rw [hp] at hb
                simp only [Option.map_some'] at hb
                have hr := tryPathTail_length ts rest hp
                rw [List.cons_append, subFile_cons_slash (ts ++ ' ' :: y) (rest ++ ' ' :: y) hb,
                  subFile_cons_slash ts rest hp, ih rest (by omega)]
                rfl
          · rw [List.cons_append, subFile_cons c (ts ++ ' ' :: y) (fun h => absurd h hc),
              subFile_cons c ts (fun h => absurd h hc), ih ts (by omega)]
            rfl


theorem takeWhile_all (p : Char → Bool) (l : List Char)
    (h : ∀ x ∈ l, p x = true) : l.takeWhile p = l := by
  simpa using takeWhile_append_all p l [] h

/-- A boundary head after which no `line\s+\d+` match begun on the left can
continue: end of input or a character that is neither whitespace nor a digit. -/
def safeBoundHead (y : List Char) : Bool :=
  match y with
  | [] => true
  | c :: _ => !pyIsSpace c && !c.isDigit

/-- The list starts with `line` followed by whitespace only: a `line\s+\d+`
match begun here would swallow a following boundary space. -/
def lineDangleAt (v : List Char) : Bool :=
  ('l' :: 'i' :: 'n' :: 'e' :: []).isPrefixOf v && (v.drop 4).all pyIsSpace

/-- Some suffix dangles: the text ends in `line` plus whitespace. -/
def lineDangle : List Char → Bool
  | [] => false
  | c :: ts => lineDangleAt (c :: ts) || lineDangle ts

theorem linePrefix_boundary (v y : List Char) :
    (('l' :: 'i' :: 'n' :: 'e' :: []).isPrefixOf (v ++ ' ' :: y))
      = (('l' :: 'i' :: 'n' :: 'e' :: []).isPrefixOf v) := by
  match v with
  | [] => rfl
  | [_] => rfl
  | [_, _] => rfl
  | [_, _, _] => rfl
  | a :: b :: c :: d :: ts =>
      simp only [List.cons_append, List.isPrefixOf, Bool.and_true]

theorem tryLineTail_none_of_dangle (v : List Char)
    (hpre : ('l' :: 'i' :: 'n' :: 'e' :: []).isPrefixOf v = true)
    (hall : ∀ x ∈ v.drop 4, pyIsSpace x = true) :
    tryLineTail v = none := by
  unfold tryLineTail
  rw [if_pos hpre]
  dsimp only
  rw [takeWhile_all pyIsSpace (v.drop 4) hall]
  by_cases ht0 : (v.drop 4).isEmpty = true
  · rw [if_pos ht0]
  · rw [if_neg ht0, List.drop_length]
    rfl

theorem takeWhile_append_of_stop (p : Char → Bool) (xs ys : List Char)
    (h : ∃ x ∈ xs, p x = false) :
    (xs ++ ys).takeWhile p = xs.takeWhile p := by
  induction xs with
  | nil => simp at h
  | cons c ts ih =>
      by_cases hc : p c = true
      · have h' : ∃ x ∈ ts, p x = false := by
          obtain ⟨x, hx, hpx⟩ := h
          rcases List.mem_cons.mp hx with rfl | hmem
          · rw [hc] at hpx; exact absurd hpx (by simp)
          · exact ⟨x, hmem, hpx⟩
        rw [List.cons_append, List.takeWhile_cons_of_pos hc,
          List.takeWhile_cons_of_pos hc, ih h']
      · rw [List.cons_append, List.takeWhile_cons_of_neg hc,
          List.takeWhile_cons_of_neg hc]

theorem tryLineTail_boundary (v y : List Char)
    (h : safeBoundHead y = true ∨ lineDangleAt v = false) :
    tryLineTail (v ++ ' ' :: y) = (tryLineTail v).map (· ++ ' ' :: y) := by
  by_cases hpre : ('l' :: 'i' :: 'n' :: 'e' :: []).isPrefixOf v = true
  case neg =>
      have hpre' : ('l' :: 'i' :: 'n' :: 'e' :: []).isPrefixOf v = false :=
        Bool.eq_false_iff.mpr hpre
      unfold tryLineTail
      rw [linePrefix_boundary, hpre']
      rfl
  case pos =>
  have h4 : 4 ≤ v.length := by
    have hp : ('l' :: 'i' :: 'n' :: 'e' :: []) <+: v :=
      List.isPrefixOf_iff_prefix.mp hpre
    simpa using hp.length_le
  by_cases hall : ∀ x ∈ v.drop 4, pyIsSpace x = true
  · -- the left block ends in `line` plus spaces: both scans fail to find digits
    have hv : tryLineTail v = none := tryLineTail_none_of_dangle v hpre hall
    have hsafe : safeBoundHead y = true := by
      rcases h with hs | hd
      · exact hs
      · unfold lineDangleAt at hd
        rw [hpre] at hd
        simp only [Bool.true_and, List.all_eq_true] at hd
        exact absurd hall (by simpa using hd)
    have hf : tryLineTail (v ++ ' ' :: y) = none := by
      unfold tryLineTail
      rw [linePrefix_boundary, if_pos hpre]
      dsimp only
      rw [drop_append_le 4 v (' ' :: y) h4,
        takeWhile_append_all pyIsSpace (v.drop 4) (' ' :: y) hall,
        List.takeWhile_cons_of_pos (by decide : pyIsSpace ' ' = true)]
      rw [if_neg (by simp)]
      cases y with
      | nil => simp
      | cons c ys =>
          unfold safeBoundHead at hsafe
          simp only [Bool.and_eq_true, Bool.not_eq_true'] at hsafe
          rw [List.takeWhile_cons_of_neg (by rw [hsafe.1]; simp)]
          have harr : v.drop 4 ++ ' ' :: c :: ys = (v.drop 4 ++ [' ']) ++ c :: ys := by
            simp
          have hlen : (v.drop 4 ++ ' ' :: ([] : List Char)).length
              = (v.drop 4 ++ [' ']).length := by simp
          rw [harr, hlen, List.drop_left,
            List.takeWhile_cons_of_neg (by rw [hsafe.2]; simp)]
          rfl
    rw [hv, hf]
    rfl
  · -- the whitespace run stops inside the left block: no match crosses over
    push_neg at hall
    have hex : ∃ x ∈ v.drop 4, pyIsSpace x = false := by
      obtain ⟨w0, hw0mem, hw0⟩ := hall
      exact ⟨w0, hw0mem, Bool.eq_false_iff.mpr hw0⟩
    have hstop : (' ' :: y) = [] ∨ ∃ z zs, (' ' :: y) = z :: zs ∧ Char.isDigit z = false :=
      Or.inr ⟨' ', y, rfl, by decide⟩
    unfold tryLineTail
    rw [linePrefix_boundary, if_pos hpre, if_pos hpre]
    dsimp only
    rw [drop_append_le 4 v (' ' :: y) h4,
      takeWhile_append_of_stop pyIsSpace (v.drop 4) (' ' :: y) hex]
    by_cases hwse : ((v.drop 4).takeWhile pyIsSpace).isEmpty = true
    · rw [if_pos hwse, if_pos hwse]
      rfl
    · rw [if_neg hwse, if_neg hwse]
      have hwsle : ((v.drop 4).takeWhile pyIsSpace).length ≤ (v.drop 4).length :=
        takeWhile_len_le _ _
      rw [drop_append_le _ (v.drop 4) (' ' :: y) hwsle,
        takeWhile_append_stop Char.isDigit _ (' ' :: y) hstop]
      by_cases hdse : (((v.drop 4).drop
          ((v.drop 4).takeWhile pyIsSpace).length).takeWhile Char.isDigit).isEmpty = true
      · rw [if_pos hdse, if_pos hdse]
        rfl
      · rw [if_neg hdse, if_neg hdse]
        have hdsle : (((v.drop 4).drop
            ((v.drop 4).takeWhile pyIsSpace).length).takeWhile Char.isDigit).length
            ≤ ((v.drop 4).drop ((v.drop 4).takeWhile pyIsSpace).length).length :=
          takeWhile_len_le _ _
        rw [drop_append_le _ _ (' ' :: y) hdsle]
        rfl

end CICDFixer

theorem lineDangle_suffix : ∀ {s x : List Char}, s <:+ x →
    lineDangle x = false → lineDangle s = false := by
  intro s x
  induction x generalizing s with
  | nil =>
      intro hs _
      rw [List.suffix_nil.mp hs]
      rfl
  | cons c ts ih =>
      intro hs hx
      have hx' : lineDangleAt (c :: ts) = false ∧ lineDangle ts = false := by
        unfold lineDangle at hx
        simpa [Bool.or_eq_false_iff] using hx
      rcases List.suffix_cons_iff.mp hs with rfl | hmem
      · exact hx
      · exact ih hmem hx'.2

theorem tryLineTail_suffix (s rest : List Char)
    (h : tryLineTail s = some rest) : rest <:+ s := by
  unfold tryLineTail at h
  by_cases h₁ : ('l' :: 'i' :: 'n' :: 'e' :: []).isPrefixOf s
  case neg => rw [if_neg h₁] at h; exact absurd h (by simp)
  rw [if_pos h₁] at h
  dsimp only at h
  by_cases h₂ : ((s.drop 4).takeWhile pyIsSpace).isEmpty = true
  case pos => rw [if_pos h₂] at h; exact absurd h (by simp)
  rw [if_neg h₂] at h
  by_cases h₃ : (((s.drop 4).drop
      ((s.drop 4).takeWhile pyIsSpace).length).takeWhile Char.isDigit).isEmpty = true
  case pos => rw [if_pos h₃] at h; exact absurd h (by simp)
  rw [if_neg h₃] at h
  simp only [Option.some.injEq] at h
  exact h ▸ ((List.drop_suffix _ _).trans
    ((List.drop_suffix _ _).trans (List.drop_suffix _ _)))

theorem subLine_split (x y : List Char)
    (h : safeBoundHead y = true ∨ lineDangle x = false) :
    subLine (x ++ ' ' :: y) = subLine x ++ ' ' :: subLine y := by
  suffices H : ∀ (n : ℕ) (x : List Char), x.length ≤ n →
      (safeBoundHead y = true ∨ lineDangle x = false) →
      subLine (x ++ ' ' :: y) = subLine x ++ ' ' :: subLine y from
    H x.length x le_rfl h
  intro n
  induction n with
  | zero =>
      intro x hx _
      have : x = [] := List.length_eq_zero.mp (Nat.le_zero.mp hx)
      subst this
      simp only [List.nil_append, subLine_nil]
      rw [subLine_cons ' ' y rfl]
  | succ n ih =>
      intro x hx hcond
      cases x with
      | nil =>
          simp only [List.nil_append, subLine_nil]
          rw [subLine_cons ' ' y rfl]
      | cons c ts =>
          simp only [List.length_cons] at hx
          have hdp : lineDangle (c :: ts) = false →
              lineDangleAt (c :: ts) = false ∧ lineDangle ts = false := by
            intro hd
            unfold lineDangle at hd
            simpa [Bool.or_eq_false_iff] using hd
          have hcond_at : safeBoundHead y = true ∨ lineDangleAt (c :: ts) = false := by
            rcases hcond with hs | hd
            · exact Or.inl hs
            · exact Or.inr (hdp hd).1
          have hb := tryLineTail_boundary (c :: ts) y hcond_at
          cases hp : tryLineTail (c :: ts) with
          | none =>
              rw [hp] at hb
              simp only [Option.map_none'] at hb
              have hb' : tryLineTail (c :: (ts ++ ' ' :: y)) = none := by
                simpa [List.cons_append] using hb
              have hcond_ts : safeBoundHead y = true ∨ lineDangle ts = false := by
                rcases hcond with hs | hd
                · exact Or.inl hs
                · exact Or.inr (hdp hd).2
              rw [List.cons_append, subLine_cons c (ts ++ ' ' :: y) hb',
                subLine_cons c ts hp, ih ts (by omega) hcond_ts]
              rfl
          | some rest =>
              rw [hp] at hb
              simp only [Option.map_some'] at hb
              have hb' : tryLineTail (c :: (ts ++ ' ' :: y)) = some (rest ++ ' ' :: y) := by
                simpa [List.cons_append] using hb
              have hlen := tryLineTail_length (c :: ts) rest hp
              simp only [List.length_cons] at hlen
              have hcond_rest : safeBoundHead y = true ∨ lineDangle rest = false := by
                rcases hcond with hs | hd
                · exact Or.inl hs
                · exact Or.inr (lineDangle_suffix (tryLineTail_suffix _ _ hp) hd)
              rw [List.cons_append, subLine_cons_match c (ts ++ ' ' :: y) (rest ++ ' ' :: y) hb',
                subLine_cons_match c ts rest hp, ih rest (by omega) hcond_rest]
              rfl

theorem takeDigits_boundary (n : ℕ) : ∀ (v y : List Char),
    takeDigits n (v ++ ' ' :: y) = (takeDigits n v).map (· ++ ' ' :: y) := by
  induction n with
  | zero => intro v y; rfl
  | succ n ih =>
      intro v y
      cases v with
      | nil => rfl
      | cons c ts =>
          show takeDigits (n + 1) (c :: (ts ++ ' ' :: y)) = _
          unfold takeDigits
          by_cases hc : c.isDigit = true
          · rw [if_pos hc, if_pos hc, ih ts y]
          · rw [if_neg hc, if_neg hc]
            rfl

theorem expectChar_boundary (c : Char) (hc : c ≠ ' ') : ∀ (v y : List Char),
    expectChar c (v ++ ' ' :: y) = (expectChar c v).map (· ++ ' ' :: y) := by
  intro v y
  cases v with
  | nil =>
      show expectChar c (' ' :: y) = _
      unfold expectChar
      dsimp only
      rw [if_neg (fun h => hc h.symm)]
      rfl
  | cons x ts =>
      show expectChar c (x :: (ts ++ ' ' :: y)) = _
      unfold expectChar
      dsimp only
      by_cases hx : x = c
      · rw [if_pos hx, if_pos hx]
        rfl
      · rw [if_neg hx, if_neg hx]
        rfl

theorem bind_boundary (g : List Char → Option (List Char)) (y : List Char)
    (hg : ∀ v, g (v ++ ' ' :: y) = (g v).map (· ++ ' ' :: y)) (o : Option (List Char)) :
    (o.map (· ++ ' ' :: y)).bind g = (o.bind g).map (· ++ ' ' :: y) := by
  cases o with
  | none => rfl
  | some v =>
      simp only [Option.map_some']
      exact hg v

theorem tryTimeTail_boundary (v y : List Char) :
    tryTimeTail (v ++ ' ' :: y) = (tryTimeTail v).map (· ++ ' ' :: y) := by
  have hE₁ : ∀ w, expectChar '-' (w ++ ' ' :: y) = (expectChar '-' w).map (· ++ ' ' :: y) :=
    fun w => expectChar_boundary '-' (by decide) w y
  have hE₂ : ∀ w, expectChar ':' (w ++ ' ' :: y) = (expectChar ':' w).map (· ++ ' ' :: y) :=
    fun w => expectChar_boundary ':' (by decide) w y
  have hD : ∀ n w, takeDigits n (w ++ ' ' :: y) = (takeDigits n w).map (· ++ ' ' :: y) :=
    fun n w => takeDigits_boundary n w y
  unfold tryTimeTail
  rw [hD 4 v, bind_boundary _ y hE₁, bind_boundary _ y (hD 2), bind_boundary _ y hE₁,
    bind_boundary _ y (hD 2)]
  cases h1 : ((((takeDigits 4 v).bind (expectChar '-')).bind
      (takeDigits 2)).bind (expectChar '-')).bind (takeDigits 2) with
  | some r =>
      simp only [Option.map_some']
  | none =>
      simp only [Option.map_none']
      rw [hD 2 v, bind_boundary _ y hE₂, bind_boundary _ y (hD 2), bind_boundary _ y hE₂,
        bind_boundary _ y (hD 2)]

theorem subTime_split (x y : List Char) :
    subTime (x ++ ' ' :: y) = subTime x ++ ' ' :: subTime y := by
  suffices H : ∀ (n : ℕ) (x : List Char), x.length ≤ n →
      subTime (x ++ ' ' :: y) = subTime x ++ ' ' :: subTime y from H x.length x le_rfl
  intro n
  induction n with
  | zero =>
      intro x hx
      have : x = [] := List.length_eq_zero.mp (Nat.le_zero.mp hx)
      subst this
      simp only [List.nil_append, subTime_nil]
      rw [subTime_cons ' ' y rfl]
  | succ n ih =>
      intro x hx
      cases x with
      | nil =>
          simp only [List.nil_append, subTime_nil]
          rw [subTime_cons ' ' y rfl]
      | cons c ts =>
          simp only [List.length_cons] at hx
          have hb := tryTimeTail_boundary (c :: ts) y
          cases hp : tryTimeTail (c :: ts) with
          | none =>
              rw [hp] at hb
              simp only [Option.map_none'] at hb
              have hb' : tryTimeTail (c :: (ts ++ ' ' :: y)) = none := by
                simpa [List.cons_append] using hb
              rw [List.cons_append, subTime_cons c (ts ++ ' ' :: y) hb',
                subTime_cons c ts hp, ih ts (by omega)]
              rfl
          | some rest =>
              rw [hp] at hb
              simp only [Option.map_some'] at hb
              have hb' : tryTimeTail (c :: (ts ++ ' ' :: y)) = some (rest ++ ' ' :: y) := by
                simpa [List.cons_append] using hb
              have hlen := tryTimeTail_length (c :: ts) rest hp
              simp only [List.length_cons] at hlen
              rw [List.cons_append, subTime_cons_match c (ts ++ ' ' :: y) (rest ++ ' ' :: y) hb',
                subTime_cons_match c ts rest hp, ih rest (by omega)]
              rfl

theorem subNumFrom_split (x y : List Char) (p : Option Char) :
    subNumFrom p (x ++ ' ' :: y) = subNumFrom p x ++ ' ' :: subNumFrom (some ' ') y := by
  suffices H : ∀ (n : ℕ) (x : List Char), x.length ≤ n → ∀ p,
      subNumFrom p (x ++ ' ' :: y) = subNumFrom p x ++ ' ' :: subNumFrom (some ' ') y from
    H x.length x le_rfl p
  intro n
  induction n with
  | zero =>
      intro x hx q
      have : x = [] := List.length_eq_zero.mp (Nat.le_zero.mp hx)
      subst this
      simp only [List.nil_append, subNumFrom_nil]
      rw [subNumFrom_cons_nostart q ' ' y rfl]
  | succ n ih =>
      intro x hx q
      cases x with
      | nil =>
          simp only [List.nil_append, subNumFrom_nil]
          rw [subNumFrom_cons_nostart q ' ' y rfl]
      | cons c ts =>
          simp only [List.length_cons] at hx
          by_cases hs : numStartOk q c = true
          case neg =>
              have hs' : numStartOk q c = false := Bool.eq_false_iff.mpr hs
              rw [List.cons_append, subNumFrom_cons_nostart q c (ts ++ ' ' :: y) hs',
                subNumFrom_cons_nostart q c ts hs', ih ts (by omega) (some c)]
              rfl
          case pos =>
              have hrun_eq : (c :: (ts ++ ' ' :: y)).takeWhile Char.isDigit
                  = (c :: ts).takeWhile Char.isDigit := by
                rw [← List.cons_append]
                exact takeWhile_append_stop Char.isDigit (c :: ts) (' ' :: y)
                  (Or.inr ⟨' ', y, rfl, by decide⟩)
              have hrle : ((c :: ts).takeWhile Char.isDigit).length ≤ ts.length + 1 := by
                have := takeWhile_len_le Char.isDigit (c :: ts)
                simpa using this
              have hrest_eq : (c :: (ts ++ ' ' :: y)).drop
                    ((c :: (ts ++ ' ' :: y)).takeWhile Char.isDigit).length
                  = ((c :: ts).drop ((c :: ts).takeWhile Char.isDigit).length) ++ ' ' :: y := by
                rw [hrun_eq, ← List.cons_append]
                exact drop_append_le _ (c :: ts) (' ' :: y) (by simpa using hrle)
              have hc : c.isDigit := by
                unfold numStartOk at hs
                exact And.left (by simpa using hs)
              have hrun1 : 1 ≤ ((c :: ts).takeWhile Char.isDigit).length := by
                simp [List.takeWhile_cons, hc]
              by_cases he : numEndOk ((c :: ts).drop
                  ((c :: ts).takeWhile Char.isDigit).length) = true
              case pos =>
                  have hef : numEndOk ((c :: (ts ++ ' ' :: y)).drop
                      ((c :: (ts ++ ' ' :: y)).takeWhile Char.isDigit).length) = true := by
                    rw [hrest_eq]
                    cases hrx : (c :: ts).drop ((c :: ts).takeWhile Char.isDigit).length with
                    | nil => rfl
                    | cons m ms =>
                        rw [hrx] at he
                        simp only [List.cons_append]
                        unfold numEndOk at he ⊢
                        exact he
                  rw [List.cons_append, subNumFrom_cons_match q c (ts ++ ' ' :: y) hs hef,
                    subNumFrom_cons_match q c ts hs he, hrest_eq, hrun_eq]
                  have hlrest : ((c :: ts).drop
                      ((c :: ts).takeWhile Char.isDigit).length).length ≤ n := by
                    simp only [List.length_drop, List.length_cons]
                    omega
                  rw [ih _ hlrest (some (((c :: ts).takeWhile Char.isDigit).getLastD c))]
                  rfl
              case neg =>
                  have he' : numEndOk ((c :: ts).drop
                      ((c :: ts).takeWhile Char.isDigit).length) = false :=
                    Bool.eq_false_iff.mpr he
                  have hef : numEndOk ((c :: (ts ++ ' ' :: y)).drop
                      ((c :: (ts ++ ' ' :: y)).takeWhile Char.isDigit).length) = false := by
                    rw [hrest_eq]
                    cases hrx : (c :: ts).drop ((c :: ts).takeWhile Char.isDigit).length with
                    | nil =>
                        rw [hrx] at he'
                        exact absurd he' (by simp [numEndOk])
                    | cons m ms =>
                        rw [hrx] at he'
                        simp only [List.cons_append]
                        unfold numEndOk at he' ⊢
                        exact he'
                  rw [List.cons_append, subNumFrom_cons_noend q c (ts ++ ' ' :: y) hs hef,
                    subNumFrom_cons_noend q c ts hs he', ih ts (by omega) (some c)]
                  rfl

theorem digit_ne (c x : Char) (h : c.isDigit = true) (hx : x.isDigit = false) :
    c ≠ x := by
  intro he
  rw [he, hx] at h
  cases h

theorem digit_not_pyIsSpace (c : Char) (h : c.isDigit = true) :
    pyIsSpace c = false := by
  unfold pyIsSpace
  have h1 : c ≠ ' ' := digit_ne c ' ' h (by decide)
  have h2 : c ≠ '\t' := digit_ne c '\t' h (by decide)
  have h3 : c ≠ '\n' := digit_ne c '\n' h (by decide)
  have h4 : c ≠ '\r' := digit_ne c '\r' h (by decide)
  have h5 : c ≠ '\x0b' := digit_ne c '\x0b' h (by decide)
  have h6 : c ≠ '\x0c' := digit_ne c '\x0c' h (by decide)
  simp [h1, h2, h3, h4, h5, h6]

theorem subFile_skip (v y : List Char) (hv : ∀ x ∈ v, x ≠ '/') :
    subFile (v ++ y) = v ++ subFile y := by
  induction v with
  | nil => rfl
  | cons c ts ih =>
      rw [List.cons_append, subFile_cons c (ts ++ y)
        (fun h => absurd h (hv c (List.mem_cons_self c ts))),
        ih (fun x hx => hv x (List.mem_cons_of_mem c hx))]
      rfl

theorem tryLineTail_none_of_head (c : Char) (w : List Char) (hc : c ≠ 'l') :
    tryLineTail (c :: w) = none := by
  unfold tryLineTail
  rw [if_neg]
  intro hp
  simp only [List.isPrefixOf, Bool.and_eq_true, beq_iff_eq] at hp
  exact hc hp.1.symm

theorem subLine_skip (v y : List Char) (hv : ∀ x ∈ v, x ≠ 'l') :
    subLine (v ++ y) = v ++ subLine y := by
  induction v with
  | nil => rfl
  | cons c ts ih =>
      rw [List.cons_append, subLine_cons c (ts ++ y)
        (tryLineTail_none_of_head c (ts ++ y) (hv c (List.mem_cons_self c ts))),
        ih (fun x hx => hv x (List.mem_cons_of_mem c hx))]
      rfl

theorem tryLineTail_none_after_file (y : List Char) :
    tryLineTail ('l' :: 'e' :: '>' :: y) = none := by
  unfold tryLineTail
  rw [if_neg]
  intro hp
  simp only [List.isPrefixOf, Bool.and_eq_true, beq_iff_eq] at hp
  exact absurd hp.2.1 (by decide)

theorem subLine_skip_fileph (y : List Char) :
    subLine ('<' :: 'f' :: 'i' :: 'l' :: 'e' :: '>' :: y)
      = '<' :: 'f' :: 'i' :: 'l' :: 'e' :: '>' :: subLine y := by
  rw [subLine_cons '<' _ (tryLineTail_none_of_head _ _ (by decide)),
    subLine_cons 'f' _ (tryLineTail_none_of_head _ _ (by decide)),
    subLine_cons 'i' _ (tryLineTail_none_of_head _ _ (by decide)),
    subLine_cons 'l' _ (tryLineTail_none_after_file _),
    subLine_cons 'e' _ (tryLineTail_none_of_head _ _ (by decide)),
    subLine_cons '>' _ (tryLineTail_none_of_head _ _ (by decide))]

theorem tryTimeTail_none_of_head (c : Char) (w : List Char) (hc : c.isDigit = false) :
    tryTimeTail (c :: w) = none := by
  have h4 : takeDigits 4 (c :: w) = none := by
    show takeDigits (3 + 1) (c :: w) = none
    unfold takeDigits
    rw [if_neg (by simp [hc])]
  have h2 : takeDigits 2 (c :: w) = none := by
    show takeDigits (1 + 1) (c :: w) = none
    unfold takeDigits
    rw [if_neg (by simp [hc])]
  unfold tryTimeTail
  rw [h4, h2]
  rfl

theorem subTime_skip_nodigits (v y : List Char) (hv : ∀ x ∈ v, x.isDigit = false) :
    subTime (v ++ y) = v ++ subTime y := by
  induction v with
  | nil => rfl
  | cons c ts ih =>
      rw [List.cons_append, subTime_cons c (ts ++ y)
        (tryTimeTail_none_of_head c (ts ++ y) (hv c (List.mem_cons_self c ts))),
        ih (fun x hx => hv x (List.mem_cons_of_mem c hx))]
      rfl

theorem takeDigits_all_append (n : ℕ) : ∀ (v y : List Char),
    (∀ x ∈ v, x.isDigit = true) → n ≤ v.length →
    takeDigits n (v ++ y) = some (v.drop n ++ y) := by
  induction n with
  | zero => intro v y _ _; rfl
  | succ n ih =>
      intro v y hv hn
      cases v with
      | nil => simp at hn
      | cons c ts =>
          show takeDigits (n + 1) (c :: (ts ++ y)) = _
          unfold takeDigits
          rw [if_pos (hv c (List.mem_cons_self c ts)),
            ih ts y (fun x hx => hv x (List.mem_cons_of_mem c hx))
              (by simp only [List.length_cons] at hn; omega)]
          rfl

theorem takeDigits_none_append (n : ℕ) : ∀ (v y : List Char),
    (∀ x ∈ v, x.isDigit = true) → v.length < n →
    (y = [] ∨ ∃ zs, y = ' ' :: zs) →
    takeDigits n (v ++ y) = none := by
  induction n with
  | zero => intro v y _ hn _; simp at hn
  | succ n ih =>
      intro v y hv hn hy
      cases v with
      | nil =>
          rcases hy with rfl | ⟨zs, rfl⟩
          · rfl
          · show takeDigits (n + 1) (' ' :: zs) = none
            unfold takeDigits
            rw [if_neg (by decide)]
      | cons c ts =>
          show takeDigits (n + 1) (c :: (ts ++ y)) = none
          unfold takeDigits
          rw [if_pos (hv c (List.mem_cons_self c ts)),
            ih ts y (fun x hx => hv x (List.mem_cons_of_mem c hx))
              (by simpa using hn) hy]

theorem digitsThenExpect_none (k : ℕ) (e : Char) (v y : List Char)
    (he : e.isDigit = false) (hes : e ≠ ' ')
    (hv : ∀ x ∈ v, x.isDigit = true) (hy : y = [] ∨ ∃ zs, y = ' ' :: zs) :
    (takeDigits k (v ++ y)).bind (expectChar e) = none := by
  by_cases hlen : k ≤ v.length
  · rw [takeDigits_all_append k v y hv hlen]
    show expectChar e (v.drop k ++ y) = none
    cases hvd : v.drop k with
    | nil =>
        simp only [List.nil_append]
        rcases hy with rfl | ⟨zs, rfl⟩
        · rfl
        · unfold expectChar
          dsimp only
          rw [if_neg (fun h => hes h.symm)]
    | cons d ds =>
        have hd : d.isDigit = true := by
          have hmem : d ∈ v := List.mem_of_mem_drop (by rw [hvd]; exact List.mem_cons_self d ds)
          exact hv d hmem
        show expectChar e (d :: (ds ++ y)) = none
        unfold expectChar
        dsimp only
        rw [if_neg (digit_ne d e hd he)]
  · rw [takeDigits_none_append k v y hv (by omega) hy]
    rfl

theorem tryTimeTail_none_digits (v y : List Char)
    (hv : ∀ x ∈ v, x.isDigit = true) (hy : y = [] ∨ ∃ zs, y = ' ' :: zs) :
    tryTimeTail (v ++ y) = none := by
  have h4 := digitsThenExpect_none 4 '-' v y (by decide) (by decide) hv hy
  have h2 := digitsThenExpect_none 2 ':' v y (by decide) (by decide) hv hy
  unfold tryTimeTail
  rw [h4, h2]
  rfl

theorem subTime_skip_digits (v y : List Char)
    (hv : ∀ x ∈ v, x.isDigit = true) (hy : y = [] ∨ ∃ zs, y = ' ' :: zs) :
    subTime (v ++ y) = v ++ subTime y := by
  induction v with
  | nil => rfl
  | cons c ts ih =>
      have hnone : tryTimeTail (c :: (ts ++ y)) = none := by
        have := tryTimeTail_none_digits (c :: ts) y hv hy
        simpa [List.cons_append] using this
      rw [List.cons_append, subTime_cons c (ts ++ y) hnone,
        ih (fun x hx => hv x (List.mem_cons_of_mem c hx))]
      rfl

theorem subNumFrom_skip_nodigits (c : Char) (vs y : List Char) (p : Option Char)
    (hv : ∀ x ∈ c :: vs, x.isDigit = false) :
    subNumFrom p ((c :: vs) ++ y) = (c :: vs) ++ subNumFrom (some (vs.getLastD c)) y := by
  induction vs generalizing c p with
  | nil =>
      have hc : numStartOk p c = false := by
        unfold numStartOk
        rw [hv c (List.mem_cons_self c [])]
        rfl
      rw [List.cons_append, List.nil_append, subNumFrom_cons_nostart p c y hc]
      rfl
  | cons d ds ih =>
      have hc : numStartOk p c = false := by
        unfold numStartOk
        rw [hv c (List.mem_cons_self c (d :: ds))]
        rfl
      rw [List.cons_append, subNumFrom_cons_nostart p c ((d :: ds) ++ y) hc,
        ih d (some c) (fun x hx => hv x (List.mem_cons_of_mem c hx))]
      simp only [List.getLastD_cons, List.cons_append]

theorem isPathShape_elim (tok : List Char) (h : isPathShape tok = true) :
    ∃ rest, tok = '/' :: rest ∧ rest ≠ [] ∧ (∀ x ∈ rest, inPathClass x = true) ∧
      ∃ i, findLastSplit rest = some i ∧
        i + 1 + ((rest.drop (i + 1)).takeWhile isWordChar).length = rest.length := by
  cases tok with
  | nil => exact absurd h (by simp [isPathShape])
  | cons c rest =>
      unfold isPathShape at h
      simp only [Bool.and_eq_true, decide_eq_true_eq, Bool.not_eq_true'] at h
      obtain ⟨⟨⟨hc, hne⟩, hall⟩, hmatch⟩ := h
      subst hc
      refine ⟨rest, rfl, by simpa [List.isEmpty_iff] using hne, by simpa using hall, ?_⟩
      cases hfs : findLastSplit rest with
      | none => rw [hfs] at hmatch; exact absurd hmatch (by simp)
      | some i =>
          rw [hfs] at hmatch
          simp only [decide_eq_true_eq] at hmatch
          exact ⟨i, rfl, hmatch⟩

theorem subFile_path_tok (tok y : List Char) (htok : isPathShape tok = true)
    (hy : y = [] ∨ ∃ zs, y = ' ' :: zs) :
    subFile (tok ++ y) = '<' :: 'f' :: 'i' :: 'l' :: 'e' :: '>' :: subFile y := by
  obtain ⟨rest, rfl, hne, hall, i, hfs, hlen⟩ := isPathShape_elim tok htok
  have hy' : y = [] ∨ ∃ z zs, y = z :: zs ∧ inPathClass z = false := by
    rcases hy with rfl | ⟨zs, rfl⟩
    · exact Or.inl rfl
    · exact Or.inr ⟨' ', zs, rfl, by decide⟩
  have htry : tryPathTail (rest ++ y) = some y := by
    unfold tryPathTail
    have hr1 : (rest ++ y).takeWhile inPathClass = rest := by
      rw [takeWhile_append_stop inPathClass rest y hy']
      exact takeWhile_all inPathClass rest hall
    rw [hr1]
    dsimp only
    rw [hfs]
    dsimp only
    rw [drop_append_le _ rest y (by omega), hlen, List.drop_length]
    rfl
  rw [List.cons_append, subFile_cons_slash (rest ++ y) y htry]

theorem isLineTok_elim (tok : List Char) (h : isLineTok tok = true) :
    ∃ ws ds, tok = ('l' :: 'i' :: 'n' :: 'e' :: []) ++ ws ++ ds ∧ ws ≠ [] ∧ ds ≠ [] ∧
      (∀ x ∈ ws, x = ' ') ∧ (∀ x ∈ ds, x.isDigit = true) := by
  unfold isLineTok at h
  dsimp only at h
  simp only [Bool.and_eq_true, Bool.not_eq_true'] at h
  obtain ⟨hpre, ⟨hwse, hdse⟩, hall⟩ := h
  obtain ⟨t, ht⟩ := List.isPrefixOf_iff_prefix.mp hpre
  have hdrop : tok.drop 4 = t := by rw [← ht]; rfl
  rw [hdrop] at hwse hdse hall
  have hsplit : t.takeWhile (fun c => c = ' ')
      ++ t.drop ((t.takeWhile (fun c => c = ' ')).length) = t := by
    conv_rhs => rw [← List.take_append_drop
      ((t.takeWhile (fun c => c = ' ')).length) t]
    rw [← List.prefix_iff_eq_take.mp (List.takeWhile_prefix _)]
  refine ⟨t.takeWhile (fun c => c = ' '),
    t.drop ((t.takeWhile (fun c => c = ' ')).length), ?_, ?_, ?_, ?_, ?_⟩
  · rw [← ht, List.append_assoc]
    exact congrArg (('l' :: 'i' :: 'n' :: 'e' :: []) ++ ·) hsplit.symm
  · simpa [List.isEmpty_iff] using hwse
  · simpa [List.isEmpty_iff] using hdse
  · intro x hx
    have := List.mem_takeWhile_imp hx
    simpa using this
  · intro x hx
    exact (List.all_eq_true.mp hall) x hx

theorem subLine_line_tok (tok y : List Char) (htok : isLineTok tok = true)
    (hy : y = [] ∨ ∃ zs, y = ' ' :: zs) :
    subLine (tok ++ y)
      = 'l' :: 'i' :: 'n' :: 'e' :: ' ' :: '<' :: 'n' :: 'u' :: 'm' :: '>' ::
        subLine y := by
  obtain ⟨ws, ds, rfl, hwsne, hdsne, hws, hds⟩ := isLineTok_elim tok htok
  obtain ⟨d, ds', rfl⟩ : ∃ d ds', ds = d :: ds' := by
    cases ds with
    | nil => exact absurd rfl hdsne
    | cons d ds' => exact ⟨d, ds', rfl⟩
  have hy' : y = [] ∨ ∃ z zs, y = z :: zs ∧ Char.isDigit z = false := by
    rcases hy with rfl | ⟨zs, rfl⟩
    · exact Or.inl rfl
    · exact Or.inr ⟨' ', zs, rfl, by decide⟩
  have hshape : (('l' :: 'i' :: 'n' :: 'e' :: []) ++ ws ++ (d :: ds')) ++ y
      = 'l' :: 'i' :: 'n' :: 'e' :: (ws ++ d :: (ds' ++ y)) := by
    simp
  have htry : tryLineTail ('l' :: 'i' :: 'n' :: 'e' :: (ws ++ d :: (ds' ++ y)))
      = some y := by
    unfold tryLineTail
    rw [if_pos (by simp [List.isPrefixOf])]
    have hd4 : List.drop 4 ('l' :: 'i' :: 'n' :: 'e' :: (ws ++ d :: (ds' ++ y)))
        = ws ++ d :: (ds' ++ y) := rfl
    rw [hd4]
    dsimp only
    have hws_eq : (ws ++ d :: (ds' ++ y)).takeWhile pyIsSpace = ws := by
      rw [takeWhile_append_stop pyIsSpace ws _
        (Or.inr ⟨d, ds' ++ y, rfl, digit_not_pyIsSpace d
          (hds d (List.mem_cons_self d ds'))⟩)]
      exact takeWhile_all pyIsSpace ws (fun x hx => by rw [hws x hx]; rfl)
    rw [hws_eq, if_neg (by simpa [List.isEmpty_iff] using hwsne)]
    rw [List.drop_left]
    have hds_eq : (d :: (ds' ++ y)).takeWhile Char.isDigit = d :: ds' := by
      rw [← List.cons_append,
        takeWhile_append_stop Char.isDigit (d :: ds') y hy']
      exact takeWhile_all Char.isDigit (d :: ds') hds
    rw [hds_eq, if_neg (by simp)]
    rw [← List.cons_append, List.drop_left]
  rw [hshape, subLine_cons_match 'l' ('i' :: 'n' :: 'e' :: (ws ++ d :: (ds' ++ y))) y htry]

theorem takeDigits_mono (n : ℕ) : ∀ (v r y : List Char),
    takeDigits n v = some r → takeDigits n (v ++ y) = some (r ++ y) := by
  induction n with
  | zero =>
      intro v r y h
      simp only [takeDigits, Option.some.injEq] at h
      rw [← h]
      rfl
  | succ n ih =>
      intro v r y h
      cases v with
      | nil => exact absurd h (by simp [takeDigits])
      | cons c ts =>
          simp only [takeDigits] at h
          by_cases hc : c.isDigit = true
          · rw [if_pos hc] at h
            show takeDigits (n + 1) (c :: (ts ++ y)) = _
            simp only [takeDigits]
            rw [if_pos hc]
            exact ih ts r y h
          · rw [if_neg hc] at h
            exact absurd h (by simp)

theorem expectChar_mono (c : Char) (v r y : List Char)
    (h : expectChar c v = some r) : expectChar c (v ++ y) = some (r ++ y) := by
  cases v with
  | nil => exact absurd h (by simp [expectChar])
  | cons x ts =>
      simp only [expectChar] at h
      by_cases hx : x = c
      · rw [if_pos hx] at h
        simp only [Option.some.injEq] at h
        show expectChar c (x :: (ts ++ y)) = _
        simp only [expectChar]
        rw [if_pos hx, ← h]
      · rw [if_neg hx] at h
        exact absurd h (by simp)

theorem takeDigits_two_inv (v r : List Char) (h : takeDigits 2 v = some r) :
    ∃ a b, v = a :: b :: r := by
  match v with
  | [] => exact absurd h (by simp [takeDigits])
  | [a] =>
      refine absurd h ?_
      simp only [takeDigits]
      split_ifs <;> simp
  | a :: b :: ts =>
      simp only [takeDigits] at h
      split_ifs at h with h1 h2
      · simp only [Option.some.injEq] at h
        exact ⟨a, b, by rw [h]⟩

theorem takeDigits_four_colon (a b : Char) (w : List Char) :
    takeDigits 4 (a :: b :: ':' :: w) = none := by
  simp only [takeDigits]
  split_ifs with h1 h2 h3 <;> first | rfl | (exact absurd h3 (by decide))

theorem expectChar_inv (c : Char) (v r : List Char) (h : expectChar c v = some r) :
    v = c :: r := by
  cases v with
  | nil => exact absurd h (by simp [expectChar])
  | cons x ts =>
      simp only [expectChar] at h
      by_cases hx : x = c
      · rw [if_pos hx] at h
        simp only [Option.some.injEq] at h
        rw [hx, h]
      · rw [if_neg hx] at h
        exact absurd h (by simp)

theorem tryTimeTail_mono (v y : List Char) (h : tryTimeTail v = some []) :
    tryTimeTail (v ++ y) = some y := by
  unfold tryTimeTail at h ⊢
  cases h1 : ((((takeDigits 4 v).bind (expectChar '-')).bind
      (takeDigits 2)).bind (expectChar '-')).bind (takeDigits 2) with
  | some r =>
      rw [h1] at h
      simp only [Option.some.injEq] at h
      subst h
      obtain ⟨t1, hd1, hrest1⟩ : ∃ t1, takeDigits 4 v = some t1 ∧
          ((((expectChar '-' t1).bind (takeDigits 2)).bind (expectChar '-')).bind
            (takeDigits 2)) = some [] := by
        cases hd : takeDigits 4 v with
        | none => rw [hd] at h1; simp at h1
        | some t1 => rw [hd] at h1; exact ⟨t1, rfl, h1⟩
      obtain ⟨t2, hd2, hrest2⟩ : ∃ t2, expectChar '-' t1 = some t2 ∧
          (((takeDigits 2 t2).bind (expectChar '-')).bind (takeDigits 2)) = some [] := by
        cases hd : expectChar '-' t1 with
        | none => rw [hd] at hrest1; simp at hrest1
        | some t2 => rw [hd] at hrest1; exact ⟨t2, rfl, hrest1⟩
      obtain ⟨t3, hd3, hrest3⟩ : ∃ t3, takeDigits 2 t2 = some t3 ∧
          ((expectChar '-' t3).bind (takeDigits 2)) = some [] := by
        cases hd : takeDigits 2 t2 with
        | none => rw [hd] at hrest2; simp at hrest2
        | some t3 => rw [hd] at hrest2; exact ⟨t3, rfl, hrest2⟩
      obtain ⟨t4, hd4, hrest4⟩ : ∃ t4, expectChar '-' t3 = some t4 ∧
          takeDigits 2 t4 = some [] := by
        cases hd : expectChar '-' t3 with
        | none => rw [hd] at hrest3; simp at hrest3
        | some t4 => rw [hd] at hrest3; exact ⟨t4, rfl, hrest3⟩
      rw [takeDigits_mono 4 v t1 y hd1]
      simp only [Option.some_bind]
      rw [expectChar_mono '-' t1 t2 y hd2]
      simp only [Option.some_bind]
      rw [takeDigits_mono 2 t2 t3 y hd3]
      simp only [Option.some_bind]
      rw [expectChar_mono '-' t3 t4 y hd4]
      simp only [Option.some_bind]
      rw [takeDigits_mono 2 t4 [] y hrest4]
      rfl
  | none =>
      rw [h1] at h
      obtain ⟨u1, hu1, hrest1⟩ : ∃ u1, takeDigits 2 v = some u1 ∧
          ((((expectChar ':' u1).bind (takeDigits 2)).bind (expectChar ':')).bind
            (takeDigits 2)) = some [] := by
        cases hd : takeDigits 2 v with
        | none => rw [hd] at h; simp at h
        | some u1 => rw [hd] at h; exact ⟨u1, rfl, h⟩
      obtain ⟨u2, hu2, hrest2⟩ : ∃ u2, expectChar ':' u1 = some u2 ∧
          (((takeDigits 2 u2).bind (expectChar ':')).bind (takeDigits 2)) = some [] := by
        cases hd : expectChar ':' u1 with
        | none => rw [hd] at hrest1; simp at hrest1
        | some u2 => rw [hd] at hrest1; exact ⟨u2, rfl, hrest1⟩
      obtain ⟨u3, hu3, hrest3⟩ : ∃ u3, takeDigits 2 u2 = some u3 ∧
          ((expectChar ':' u3).bind (takeDigits 2)) = some [] := by
        cases hd : takeDigits 2 u2 with
        | none => rw [hd] at hrest2; simp at hrest2
        | some u3 => rw [hd] at hrest2; exact ⟨u3, rfl, hrest2⟩
      obtain ⟨u4, hu4, hrest4⟩ : ∃ u4, expectChar ':' u3 = some u4 ∧
          takeDigits 2 u4 = some [] := by
        cases hd : expectChar ':' u3 with
        | none => rw [hd] at hrest3; simp at hrest3
        | some u4 => rw [hd] at hrest3; exact ⟨u4, rfl, hrest3⟩
      obtain ⟨a, b, hab⟩ := takeDigits_two_inv v u1 hu1
      have hu1c : u1 = ':' :: u2 := expectChar_inv ':' u1 u2 hu2
      have hvshape : v ++ y = a :: b :: ':' :: (u2 ++ y) := by
        rw [hab, hu1c]
        rfl
      rw [hvshape, takeDigits_four_colon a b (u2 ++ y)]
      simp only [Option.none_bind]
      have hback : a :: b :: ':' :: (u2 ++ y) = v ++ y := hvshape.symm
      rw [hback, takeDigits_mono 2 v u1 y hu1]
      simp only [Option.some_bind]
      rw [expectChar_mono ':' u1 u2 y hu2]
      simp only [Option.some_bind]
      rw [takeDigits_mono 2 u2 u3 y hu3]
      simp only [Option.some_bind]
      rw [expectChar_mono ':' u3 u4 y hu4]
      simp only [Option.some_bind]
      rw [takeDigits_mono 2 u4 [] y hrest4]
      rfl

theorem subTime_time_tok (tok y : List Char) (htok : isTimeTok tok = true) :
    subTime (tok ++ y) = '<' :: 't' :: 'i' :: 'm' :: 'e' :: '>' :: subTime y := by
  have hparts : tok ≠ [] ∧ tryTimeTail tok = some [] := by
    unfold isTimeTok at htok
    simp only [Bool.and_eq_true, Bool.not_eq_true', decide_eq_true_eq] at htok
    exact ⟨by simpa [List.isEmpty_iff] using htok.1, htok.2⟩
  obtain ⟨c, ts, rfl⟩ : ∃ c ts, tok = c :: ts := by
    cases tok with
    | nil => exact absurd rfl hparts.1
    | cons c ts => exact ⟨c, ts, rfl⟩
  have htry : tryTimeTail (c :: (ts ++ y)) = some y := by
    have := tryTimeTail_mono (c :: ts) y hparts.2
    simpa [List.cons_append] using this
  rw [List.cons_append, subTime_cons_match c (ts ++ y) y htry]

theorem subNumFrom_num_tok (tok y : List Char) (p : Option Char)
    (htok : isNumTok tok = true)
    (hp : p = none ∨ ∃ c, p = some c ∧ isWordChar c = false)
    (hy : y = [] ∨ ∃ zs, y = ' ' :: zs) :
    subNumFrom p (tok ++ y)
      = '<' :: 'n' :: 'u' :: 'm' :: '>' :: subNumFrom (some '>') y := by
  obtain ⟨d, ds, rfl, hall⟩ : ∃ d ds, tok = d :: ds ∧ ∀ x ∈ d :: ds, x.isDigit = true := by
    unfold isNumTok at htok
    simp only [Bool.and_eq_true, Bool.not_eq_true'] at htok
    cases tok with
    | nil => exact absurd htok.1 (by simp)
    | cons d ds => exact ⟨d, ds, rfl, by simpa [List.all_eq_true] using htok.2⟩
  have hy' : y = [] ∨ ∃ z zs, y = z :: zs ∧ Char.isDigit z = false := by
    rcases hy with rfl | ⟨zs, rfl⟩
    · exact Or.inl rfl
    · exact Or.inr ⟨' ', zs, rfl, by decide⟩
  have hs : numStartOk p d = true := by
    unfold numStartOk
    rw [hall d (List.mem_cons_self d ds)]
    rcases hp with rfl | ⟨c, rfl, hw⟩
    · rfl
    · simp [hw]
  have hrun : (d :: (ds ++ y)).takeWhile Char.isDigit = d :: ds := by
    rw [← List.cons_append, takeWhile_append_stop Char.isDigit (d :: ds) y hy']
    exact takeWhile_all _ _ hall
  have hrest : (d :: (ds ++ y)).drop
      ((d :: (ds ++ y)).takeWhile Char.isDigit).length = y := by
    rw [hrun, ← List.cons_append, List.drop_left]
  have he : numEndOk ((d :: (ds ++ y)).drop
      ((d :: (ds ++ y)).takeWhile Char.isDigit).length) = true := by
    rw [hrest]
    rcases hy with rfl | ⟨zs, rfl⟩
    · rfl
    · rfl
  rw [List.cons_append, subNumFrom_cons_match p d (ds ++ y) hs he, hrest]
  rcases hy with rfl | ⟨zs, rfl⟩
  · rw [subNumFrom_nil, subNumFrom_nil]
  · rw [subNumFrom_prev_irrel
      (some ((List.takeWhile Char.isDigit (d :: (ds ++ ' ' :: zs))).getLastD d))
      (some '>') ' ' zs (by decide)]

/-- The part-cleaning pipeline with an explicit predecessor character for
the final `\b\d+\b` pass (the cleaning of a proper suffix of a part). -/
def cleanPartFrom (p : Option Char) (l : List Char) : List Char :=
  subNumFrom p (subTime (subLine (subFile l)))

theorem cleanPart_eq_from (l : List Char) : cleanPart l = cleanPartFrom none l := rfl

theorem subFile_space_head (zs : List Char) :
    subFile (' ' :: zs) = ' ' :: subFile zs :=
  subFile_cons ' ' zs (by intro h; exact absurd h (by decide))

theorem subLine_space_head (zs : List Char) :
    subLine (' ' :: zs) = ' ' :: subLine zs :=
  subLine_cons ' ' zs (tryLineTail_none_of_head ' ' zs (by decide))

theorem subTime_space_head (zs : List Char) :
    subTime (' ' :: zs) = ' ' :: subTime zs :=
  subTime_cons ' ' zs (tryTimeTail_none_of_head ' ' zs (by decide))

theorem cleanPartFrom_space (q : Option Char) (z : List Char) :
    cleanPartFrom q (' ' :: z) = ' ' :: cleanPartFrom (some ' ') z := by
  unfold cleanPartFrom
  rw [subFile_space_head, subLine_space_head, subTime_space_head,
    subNumFrom_cons_nostart q ' ' _ rfl]

theorem cleanPartFrom_split (p : Option Char) (s y : List Char)
    (hcond : safeBoundHead (subFile y) = true ∨ lineDangle (subFile s) = false) :
    cleanPartFrom p (s ++ ' ' :: y)
      = cleanPartFrom p s ++ ' ' :: cleanPartFrom (some ' ') y := by
  unfold cleanPartFrom
  rw [subFile_split s y, subLine_split (subFile s) (subFile y) hcond,
    subTime_split (subLine (subFile s)) (subLine (subFile y)),
    subNumFrom_split (subTime (subLine (subFile s)))
      (subTime (subLine (subFile y))) p]

theorem subTime_skip_fileph (w : List Char) :
    subTime ('<' :: 'f' :: 'i' :: 'l' :: 'e' :: '>' :: w)
      = '<' :: 'f' :: 'i' :: 'l' :: 'e' :: '>' :: subTime w := by
  have := subTime_skip_nodigits ('<' :: 'f' :: 'i' :: 'l' :: 'e' :: '>' :: []) w
    (by decide)
  simpa using this

theorem subNumFrom_skip_fileph (p : Option Char) (w : List Char) :
    subNumFrom p ('<' :: 'f' :: 'i' :: 'l' :: 'e' :: '>' :: w)
      = '<' :: 'f' :: 'i' :: 'l' :: 'e' :: '>' :: subNumFrom (some '>') w := by
  have := subNumFrom_skip_nodigits '<' ('f' :: 'i' :: 'l' :: 'e' :: '>' :: []) w p
    (by decide)
  simpa using this

theorem subTime_skip_linenumph (w : List Char) :
    subTime ('l' :: 'i' :: 'n' :: 'e' :: ' ' :: '<' :: 'n' :: 'u' :: 'm' :: '>' :: w)
      = 'l' :: 'i' :: 'n' :: 'e' :: ' ' :: '<' :: 'n' :: 'u' :: 'm' :: '>' ::
        subTime w := by
  have := subTime_skip_nodigits
    ('l' :: 'i' :: 'n' :: 'e' :: ' ' :: '<' :: 'n' :: 'u' :: 'm' :: '>' :: []) w
    (by decide)
  simpa using this

theorem subNumFrom_skip_linenumph (p : Option Char) (w : List Char) :
    subNumFrom p ('l' :: 'i' :: 'n' :: 'e' :: ' ' :: '<' :: 'n' :: 'u' :: 'm' :: '>' :: w)
      = 'l' :: 'i' :: 'n' :: 'e' :: ' ' :: '<' :: 'n' :: 'u' :: 'm' :: '>' ::
        subNumFrom (some '>') w := by
  have := subNumFrom_skip_nodigits 'l'
    ('i' :: 'n' :: 'e' :: ' ' :: '<' :: 'n' :: 'u' :: 'm' :: '>' :: []) w p
    (by decide)
  simpa using this

theorem subNumFrom_skip_timeph (p : Option Char) (w : List Char) :
    subNumFrom p ('<' :: 't' :: 'i' :: 'm' :: 'e' :: '>' :: w)
      = '<' :: 't' :: 'i' :: 'm' :: 'e' :: '>' :: subNumFrom (some '>') w := by
  have := subNumFrom_skip_nodigits '<' ('t' :: 'i' :: 'm' :: 'e' :: '>' :: []) w p
    (by decide)
  simpa using this

theorem takeDigits_inv_digits (n : ℕ) : ∀ (v r : List Char),
    takeDigits n v = some r →
    ∃ pre, v = pre ++ r ∧ (∀ x ∈ pre, x.isDigit = true) := by
  induction n with
  | zero =>
      intro v r h
      simp only [takeDigits, Option.some.injEq] at h
      exact ⟨[], by rw [h]; rfl, by simp⟩
  | succ n ih =>
      intro v r h
      cases v with
      | nil => exact absurd h (by simp [takeDigits])
      | cons c ts =>
          simp only [takeDigits] at h
          by_cases hc : c.isDigit = true
          · rw [if_pos hc] at h
            obtain ⟨pre, hpre, hdig⟩ := ih ts r h
            refine ⟨c :: pre, by rw [List.cons_append, ← hpre], ?_⟩
            intro x hx
            rcases List.mem_cons.mp hx with rfl | hmem
            · exact hc
            · exact hdig x hmem
          · rw [if_neg hc] at h
            exact absurd h (by simp)

theorem isTimeTok_chars (tok : List Char) (h : isTimeTok tok = true) :
    ∀ x ∈ tok, x.isDigit = true ∨ x = '-' ∨ x = ':' := by
  have htt : tryTimeTail tok = some [] := by
    unfold isTimeTok at h
    simp only [Bool.and_eq_true, decide_eq_true_eq] at h
    exact h.2
  unfold tryTimeTail at htt
  cases h1 : ((((takeDigits 4 tok).bind (expectChar '-')).bind
      (takeDigits 2)).bind (expectChar '-')).bind (takeDigits 2) with
  | some r =>
      rw [h1] at htt
      simp only [Option.some.injEq] at htt
      subst htt
      obtain ⟨t1, hd1, hrest1⟩ : ∃ t1, takeDigits 4 tok = some t1 ∧
          ((((expectChar '-' t1).bind (takeDigits 2)).bind (expectChar '-')).bind
            (takeDigits 2)) = some [] := by
        cases hd : takeDigits 4 tok with
        | none => rw [hd] at h1; simp at h1
        | some t1 => rw [hd] at h1; exact ⟨t1, rfl, h1⟩
      obtain ⟨t2, hd2, hrest2⟩ : ∃ t2, expectChar '-' t1 = some t2 ∧
          (((takeDigits 2 t2).bind (expectChar '-')).bind (takeDigits 2)) = some [] := by
        cases hd : expectChar '-' t1 with
        | none => rw [hd] at hrest1; simp at hrest1
        | some t2 => rw [hd] at hrest1; exact ⟨t2, rfl, hrest1⟩
      obtain ⟨t3, hd3, hrest3⟩ : ∃ t3, takeDigits 2 t2 = some t3 ∧
          ((expectChar '-' t3).bind (takeDigits 2)) = some [] := by
        cases hd : takeDigits 2 t2 with
        | none => rw [hd] at hrest2; simp at hrest2
        | some t3 => rw [hd] at hrest2; exact ⟨t3, rfl, hrest2⟩
      obtain ⟨t4, hd4, hrest4⟩ : ∃ t4, expectChar '-' t3 = some t4 ∧
          takeDigits 2 t4 = some [] := by
        cases hd : expectChar '-' t3 with
        | none => rw [hd] at hrest3; simp at hrest3
        | some t4 => rw [hd] at hrest3; exact ⟨t4, rfl, hrest3⟩
      obtain ⟨p1, hp1, hg1⟩ := takeDigits_inv_digits 4 tok t1 hd1
      obtain ⟨p2, hp2, hg2⟩ := takeDigits_inv_digits 2 t2 t3 hd3
      obtain ⟨p3, hp3, hg3⟩ := takeDigits_inv_digits 2 t4 [] hrest4
      have he1 : t1 = '-' :: t2 := expectChar_inv '-' t1 t2 hd2
      have he2 : t3 = '-' :: t4 := expectChar_inv '-' t3 t4 hd4
      intro x hx
      rw [hp1, he1, hp2, he2, hp3] at hx
      simp only [List.mem_append, List.mem_cons, List.append_nil] at hx
      rcases hx with hin | hin | hin | rfl | hin
      · exact Or.inl (hg1 x hin)
      · exact Or.inr (Or.inl hin)
      · exact Or.inl (hg2 x hin)
      · exact Or.inr (Or.inl rfl)
      · exact Or.inl (hg3 x hin)
  | none =>
      rw [h1] at htt
      obtain ⟨u1, hu1, hrest1⟩ : ∃ u1, takeDigits 2 tok = some u1 ∧
          ((((expectChar ':' u1).bind (takeDigits 2)).bind (expectChar ':')).bind
            (takeDigits 2)) = some [] := by
        cases hd : takeDigits 2 tok with
        | none => rw [hd] at htt; simp at htt
        | some u1 => rw [hd] at htt; exact ⟨u1, rfl, htt⟩
      obtain ⟨u2, hu2, hrest2⟩ : ∃ u2, expectChar ':' u1 = some u2 ∧
          (((takeDigits 2 u2).bind (expectChar ':')).bind (takeDigits 2)) = some [] := by
        cases hd : expectChar ':' u1 with
        | none => rw [hd] at hrest1; simp at hrest1
        | some u2 => rw [hd] at hrest1; exact ⟨u2, rfl, hrest1⟩
      obtain ⟨u3, hu3, hrest3⟩ : ∃ u3, takeDigits 2 u2 = some u3 ∧
          ((expectChar ':' u3).bind (takeDigits 2)) = some [] := by
        cases hd : takeDigits 2 u2 with
        | none => rw [hd] at hrest2; simp at hrest2
        | some u3 => rw [hd] at hrest2; exact ⟨u3, rfl, hrest2⟩
      obtain ⟨u4, hu4, hrest4⟩ : ∃ u4, expectChar ':' u3 = some u4 ∧
          takeDigits 2 u4 = some [] := by
        cases hd : expectChar ':' u3 with
        | none => rw [hd] at hrest3; simp at hrest3
        | some u4 => rw [hd] at hrest3; exact ⟨u4, rfl, hrest3⟩
      obtain ⟨q1, hq1, hg1⟩ := takeDigits_inv_digits 2 tok u1 hu1
      obtain ⟨q2, hq2, hg2⟩ := takeDigits_inv_digits 2 u2 u3 hu3
      obtain ⟨q3, hq3, hg3⟩ := takeDigits_inv_digits 2 u4 [] hrest4
      have he1 : u1 = ':' :: u2 := expectChar_inv ':' u1 u2 hu2
      have he2 : u3 = ':' :: u4 := expectChar_inv ':' u3 u4 hu4
      intro x hx
      rw [hq1, he1, hq2, he2, hq3] at hx
      simp only [List.mem_append, List.mem_cons, List.append_nil] at hx
      rcases hx with hin | hin | hin | rfl | hin
      · exact Or.inl (hg1 x hin)
      · exact Or.inr (Or.inr hin)
      · exact Or.inl (hg2 x hin)
      · exact Or.inr (Or.inr rfl)
      · exact Or.inl (hg3 x hin)

theorem cleanPartFrom_path_tok (tok y : List Char) (p : Option Char)
    (htok : isPathShape tok = true) (hy : y = [] ∨ ∃ zs, y = ' ' :: zs) :
    cleanPartFrom p (tok ++ y)
      = '<' :: 'f' :: 'i' :: 'l' :: 'e' :: '>' :: cleanPartFrom (some '>') y := by
  unfold cleanPartFrom
  rw [subFile_path_tok tok y htok hy, subLine_skip_fileph (subFile y),
    subTime_skip_fileph (subLine (subFile y)),
    subNumFrom_skip_fileph p (subTime (subLine (subFile y)))]

theorem cleanPartFrom_line_tok (tok y : List Char) (p : Option Char)
    (htok : isLineTok tok = true) (hy : y = [] ∨ ∃ zs, y = ' ' :: zs) :
    cleanPartFrom p (tok ++ y)
      = 'l' :: 'i' :: 'n' :: 'e' :: ' ' :: '<' :: 'n' :: 'u' :: 'm' :: '>' ::
        cleanPartFrom (some '>') y := by
  have hslash : ∀ x ∈ tok, x ≠ '/' := by
    obtain ⟨ws, ds, htok_eq, _, _, hws, hds⟩ := isLineTok_elim tok htok
    intro x hx
    rw [htok_eq] at hx
    simp only [List.append_assoc, List.mem_append, List.mem_cons,
      List.not_mem_nil, or_false] at hx
    rcases hx with (rfl | rfl | rfl | rfl) | hin | hin
    · decide
    · decide
    · decide
    · decide
    · rw [hws x hin]; decide
    · exact digit_ne x '/' (hds x hin) (by decide)
  have hy1 : subFile y = [] ∨ ∃ zs, subFile y = ' ' :: zs := by
    rcases hy with rfl | ⟨zs, rfl⟩
    · exact Or.inl rfl
    · exact Or.inr ⟨subFile zs, subFile_space_head zs⟩
  unfold cleanPartFrom
  rw [subFile_skip tok y hslash, subLine_line_tok tok (subFile y) htok hy1,
    subTime_skip_linenumph (subLine (subFile y)),
    subNumFrom_skip_linenumph p (subTime (subLine (subFile y)))]

theorem cleanPartFrom_time_tok (tok y : List Char) (p : Option Char)
    (htok : isTimeTok tok = true) (hy : y = [] ∨ ∃ zs, y = ' ' :: zs) :
    cleanPartFrom p (tok ++ y)
      = '<' :: 't' :: 'i' :: 'm' :: 'e' :: '>' :: cleanPartFrom (some '>') y := by
  have hchars := isTimeTok_chars tok htok
  have hslash : ∀ x ∈ tok, x ≠ '/' := by
    intro x hx
    rcases hchars x hx with hd | rfl | rfl
    · exact digit_ne x '/' hd (by decide)
    · decide
    · decide
  have hl : ∀ x ∈ tok, x ≠ 'l' := by
    intro x hx
    rcases hchars x hx with hd | rfl | rfl
    · exact digit_ne x 'l' hd (by decide)
    · decide
    · decide
  unfold cleanPartFrom
  rw [subFile_skip tok y hslash, subLine_skip tok (subFile y) hl,
    subTime_time_tok tok (subLine (subFile y)) htok,
    subNumFrom_skip_timeph p (subTime (subLine (subFile y)))]

theorem cleanPartFrom_num_tok (tok y : List Char) (p : Option Char)
    (htok : isNumTok tok = true)
    (hp : p = none ∨ ∃ c, p = some c ∧ isWordChar c = false)
    (hy : y = [] ∨ ∃ zs, y = ' ' :: zs) :
    cleanPartFrom p (tok ++ y)
      = '<' :: 'n' :: 'u' :: 'm' :: '>' :: cleanPartFrom (some '>') y := by
  have hdig : ∀ x ∈ tok, x.isDigit = true := by
    unfold isNumTok at htok
    simp only [Bool.and_eq_true] at htok
    exact fun x hx => (List.all_eq_true.mp htok.2) x hx
  have hslash : ∀ x ∈ tok, x ≠ '/' :=
    fun x hx => digit_ne x '/' (hdig x hx) (by decide)
  have hl : ∀ x ∈ tok, x ≠ 'l' :=
    fun x hx => digit_ne x 'l' (hdig x hx) (by decide)
  have hy1 : subLine (subFile y) = [] ∨ ∃ zs, subLine (subFile y) = ' ' :: zs := by
    rcases hy with rfl | ⟨zs, rfl⟩
    · exact Or.inl rfl
    · exact Or.inr ⟨subLine (subFile zs), by rw [subFile_space_head, subLine_space_head]⟩
  have hy2 : subTime (subLine (subFile y)) = []
      ∨ ∃ zs, subTime (subLine (subFile y)) = ' ' :: zs := by
    rcases hy with rfl | ⟨zs, rfl⟩
    · exact Or.inl rfl
    · exact Or.inr ⟨subTime (subLine (subFile zs)),
        by rw [subFile_space_head, subLine_space_head, subTime_space_head]⟩
  unfold cleanPartFrom
  rw [subFile_skip tok y hslash, subLine_skip tok (subFile y) hl,
    subTime_skip_digits tok (subLine (subFile y)) hdig hy1]
  -- final stage: the run is replaced and the following prev is irrelevant
  cases hy2 with
  | inl hnil =>
      rw [hnil] at *
      have := subNumFrom_num_tok tok [] p htok hp (Or.inl rfl)
      simpa using this
  | inr hcons =>
      obtain ⟨zs, hzs⟩ := hcons
      rw [hzs]
      have := subNumFrom_num_tok tok (' ' :: zs) p htok hp (Or.inr ⟨zs, rfl⟩)
      simpa using this

/-- Is the piece a shared literal? -/
def isLit : DiffPiece → Bool
  | .lit _ => true
  | _ => false

/-- Both fills of a noise slot have the shape their cleaning rule consumes
exactly. -/
def fitsTok : DiffPiece → Bool
  | .lit _ => false
  | .path a b => isPathShape a && isPathShape b
  | .lineNum a b => isLineTok a && isLineTok b
  | .time a b => isTimeTok a && isTimeTok b
  | .num a b => isNumTok a && isNumTok b

/-- The literal ends with the delimiting space. -/
def litEndsSpace (s : List Char) : Bool :=
  match s.getLast? with
  | some c => c = ' '
  | none => false

/-- The literal starts with the delimiting space. -/
def litStartsSpace (s : List Char) : Bool :=
  match s with
  | c :: _ => c = ' '
  | [] => false

/-- A literal before a bare number or timestamp must not end in `line` plus
spaces (after the path pass), or `line\s+\d+` would swallow the delimiter. -/
def dangleOk (s : List Char) : DiffPiece → Bool
  | .num _ _ => !lineDangle (subFile s.dropLast)
  | .time _ _ => !lineDangle (subFile s.dropLast)
  | _ => true

/-- Well-formed capture template: literals and noise slots alternate,
adjacent literals carry the delimiting spaces, every noise fill has the
exact token shape, and no literal dangles a `line` prefix into a numeric
slot. -/
def capOk : List DiffPiece → Bool
  | [] => true
  | .lit _ :: [] => true
  | .lit s :: tok :: rest =>
      !(isLit tok) && litEndsSpace s && dangleOk s tok && capOk (tok :: rest)
  | tok :: [] => fitsTok tok
  | tok :: .lit s :: rest => fitsTok tok && litStartsSpace s && capOk (.lit s :: rest)
  | _ :: _ :: _ => false

theorem litEndsSpace_elim (s : List Char) (h : litEndsSpace s = true) :
    s = s.dropLast ++ [' '] := by
  unfold litEndsSpace at h
  cases hgl : s.getLast? with
  | none => rw [hgl] at h; exact absurd h (by simp)
  | some c =>
      rw [hgl] at h
      simp only [decide_eq_true_eq] at h
      subst h
      have hne : s ≠ [] := by
        intro hnil
        rw [hnil] at hgl
        exact absurd hgl (by simp)
      have hl := List.getLast?_eq_getLast s hne
      rw [hgl] at hl
      simp only [Option.some.injEq] at hl
      conv_lhs => rw [← List.dropLast_append_getLast hne]
      rw [← hl]

theorem litStartsSpace_elim (s : List Char) (h : litStartsSpace s = true) :
    ∃ z, s = ' ' :: z := by
  unfold litStartsSpace at h
  cases s with
  | nil => exact absurd h (by simp)
  | cons c z =>
      simp only [decide_eq_true_eq] at h
      subst h
      exact ⟨z, rfl⟩

theorem isLineTok_head (tok : List Char) (h : isLineTok tok = true) :
    ∃ t, tok = 'l' :: t := by
  obtain ⟨ws, ds, rfl, _, _, _, _⟩ := isLineTok_elim tok h
  exact ⟨'i' :: 'n' :: 'e' :: (ws ++ ds), by simp⟩

theorem lineTok_no_slash (tok : List Char) (h : isLineTok tok = true) :
    ∀ x ∈ tok, x ≠ '/' := by
  obtain ⟨ws, ds, rfl, _, _, hws, hds⟩ := isLineTok_elim tok h
  intro x hx
  simp only [List.append_assoc, List.mem_append, List.mem_cons,
    List.not_mem_nil, or_false] at hx
  rcases hx with (rfl | rfl | rfl | rfl) | hin | hin
  · decide
  · decide
  · decide
  · decide
  · rw [hws x hin]; decide
  · exact digit_ne x '/' (hds x hin) (by decide)

theorem renderA_afterTok (tok : DiffPiece) (rest : List DiffPiece)
    (h : capOk (tok :: rest) = true) (hnl : isLit tok = false) :
    renderA rest = [] ∨ ∃ zs, renderA rest = ' ' :: zs := by
  cases rest with
  | nil => exact Or.inl rfl
  | cons piece rest' =>
      cases piece with
      | lit s =>
          have hst : litStartsSpace s = true := by
            cases tok with
            | lit s₂ => exact absurd hnl (by simp [isLit])
            | path a b =>
                unfold capOk at h
                simp only [Bool.and_eq_true] at h
                exact h.1.2
            | lineNum a b =>
                unfold capOk at h
                simp only [Bool.and_eq_true] at h
                exact h.1.2
            | time a b =>
                unfold capOk at h
                simp only [Bool.and_eq_true] at h
                exact h.1.2
            | num a b =>
                unfold capOk at h
                simp only [Bool.and_eq_true] at h
                exact h.1.2
          obtain ⟨z, rfl⟩ := litStartsSpace_elim s hst
          exact Or.inr ⟨z ++ renderA rest', rfl⟩
      | path a b =>
          cases tok with
          | lit s₂ => exact absurd hnl (by simp [isLit])
          | path a₂ b₂ => exact absurd h (by simp [capOk])
          | lineNum a₂ b₂ => exact absurd h (by simp [capOk])
          | time a₂ b₂ => exact absurd h (by simp [capOk])
          | num a₂ b₂ => exact absurd h (by simp [capOk])
      | lineNum a b =>
          cases tok with
          | lit s₂ => exact absurd hnl (by simp [isLit])
          | path a₂ b₂ => exact absurd h (by simp [capOk])
          | lineNum a₂ b₂ => exact absurd h (by simp [capOk])
          | time a₂ b₂ => exact absurd h (by simp [capOk])
          | num a₂ b₂ => exact absurd h (by simp [capOk])
      | time a b =>
          cases tok with
          | lit s₂ => exact absurd hnl (by simp [isLit])
          | path a₂ b₂ => exact absurd h (by simp [capOk])
          | lineNum a₂ b₂ => exact absurd h (by simp [capOk])
          | time a₂ b₂ => exact absurd h (by simp [capOk])
          | num a₂ b₂ => exact absurd h (by simp [capOk])
      | num a b =>
          cases tok with
          | lit s₂ => exact absurd hnl (by simp [isLit])
          | path a₂ b₂ => exact absurd h (by simp [capOk])
          | lineNum a₂ b₂ => exact absurd h (by simp [capOk])
          | time a₂ b₂ => exact absurd h (by simp [capOk])
          | num a₂ b₂ => exact absurd h (by simp [capOk])

theorem renderB_afterTok (tok : DiffPiece) (rest : List DiffPiece)
    (h : capOk (tok :: rest) = true) (hnl : isLit tok = false) :
    renderB rest = [] ∨ ∃ zs, renderB rest = ' ' :: zs := by
  cases rest with
  | nil => exact Or.inl rfl
  | cons piece rest' =>
      cases piece with
      | lit s =>
          have hst : litStartsSpace s = true := by
            cases tok with
            | lit s₂ => exact absurd hnl (by simp [isLit])
            | path a b =>
                unfold capOk at h
                simp only [Bool.and_eq_true] at h
                exact h.1.2
            | lineNum a b =>
                unfold capOk at h
                simp only [Bool.and_eq_true] at h
                exact h.1.2
            | time a b =>
                unfold capOk at h
                simp only [Bool.and_eq_true] at h
                exact h.1.2
            | num a b =>
                unfold capOk at h
                simp only [Bool.and_eq_true] at h
                exact h.1.2
          obtain ⟨z, rfl⟩ := litStartsSpace_elim s hst
          exact Or.inr ⟨z ++ renderB rest', rfl⟩
      | path a b =>
          cases tok with
          | lit s₂ => exact absurd hnl (by simp [isLit])
          | path a₂ b₂ => exact absurd h (by simp [capOk])
          | lineNum a₂ b₂ => exact absurd h (by simp [capOk])
          | time a₂ b₂ => exact absurd h (by simp [capOk])
          | num a₂ b₂ => exact absurd h (by simp [capOk])
      | lineNum a b =>
          cases tok with
          | lit s₂ => exact absurd hnl (by simp [isLit])
          | path a₂ b₂ => exact absurd h (by simp [capOk])
          | lineNum a₂ b₂ => exact absurd h (by simp [capOk])
          | time a₂ b₂ => exact absurd h (by simp [capOk])
          | num a₂ b₂ => exact absurd h (by simp [capOk])
      | time a b =>
          cases tok with
          | lit s₂ => exact absurd hnl (by simp [isLit])
          | path a₂ b₂ => exact absurd h (by simp [capOk])
          | lineNum a₂ b₂ => exact absurd h (by simp [capOk])
          | time a₂ b₂ => exact absurd h (by simp [capOk])
          | num a₂ b₂ => exact absurd h (by simp [capOk])
      | num a b =>
          cases tok with
          | lit s₂ => exact absurd hnl (by simp [isLit])
          | path a₂ b₂ => exact absurd h (by simp [capOk])
          | lineNum a₂ b₂ => exact absurd h (by simp [capOk])
          | time a₂ b₂ => exact absurd h (by simp [capOk])
          | num a₂ b₂ => exact absurd h (by simp [capOk])

theorem capOk_head_fits (tok : DiffPiece) (rest : List DiffPiece)
    (h : capOk (tok :: rest) = true) (hnl : isLit tok = false) :
    fitsTok tok = true := by
  cases rest with
  | nil =>
      cases tok with
      | lit s => exact absurd hnl (by simp [isLit])
      | path a b => simpa [capOk] using h
      | lineNum a b => simpa [capOk] using h
      | time a b => simpa [capOk] using h
      | num a b => simpa [capOk] using h
  | cons piece rest' =>
      cases tok with
      | lit s => exact absurd hnl (by simp [isLit])
      | path a b =>
          cases piece with
          | lit s' =>
              unfold capOk at h
              simp only [Bool.and_eq_true] at h
              exact h.1.1
          | path a' b' => exact absurd h (by simp [capOk])
          | lineNum a' b' => exact absurd h (by simp [capOk])
          | time a' b' => exact absurd h (by simp [capOk])
          | num a' b' => exact absurd h (by simp [capOk])
      | lineNum a b =>
          cases piece with
          | lit s' =>
              unfold capOk at h
              simp only [Bool.and_eq_true] at h
              exact h.1.1
          | path a' b' => exact absurd h (by simp [capOk])
          | lineNum a' b' => exact absurd h (by simp [capOk])
          | time a' b' => exact absurd h (by simp [capOk])
          | num a' b' => exact absurd h (by simp [capOk])
      | time a b =>
          cases piece with
          | lit s' =>
              unfold capOk at h
              simp only [Bool.and_eq_true] at h
              exact h.1.1
          | path a' b' => exact absurd h (by simp [capOk])
          | lineNum a' b' => exact absurd h (by simp [capOk])
          | time a' b' => exact absurd h (by simp [capOk])
          | num a' b' => exact absurd h (by simp [capOk])
      | num a b =>
          cases piece with
          | lit s' =>
              unfold capOk at h
              simp only [Bool.and_eq_true] at h
              exact h.1.1
          | path a' b' => exact absurd h (by simp [capOk])
          | lineNum a' b' => exact absurd h (by simp [capOk])
          | time a' b' => exact absurd h (by simp [capOk])
          | num a' b' => exact absurd h (by simp [capOk])

/-- The placeholder a noise slot is rewritten to by the cleaning pipeline. -/
def tokPh : DiffPiece → List Char
  | .lit _ => []
  | .path _ _ => '<' :: 'f' :: 'i' :: 'l' :: 'e' :: '>' :: []
  | .lineNum _ _ => 'l' :: 'i' :: 'n' :: 'e' :: ' ' :: '<' :: 'n' :: 'u' :: 'm' :: '>' :: []
  | .time _ _ => '<' :: 't' :: 'i' :: 'm' :: 'e' :: '>' :: []
  | .num _ _ => '<' :: 'n' :: 'u' :: 'm' :: '>' :: []

theorem cleanPartFrom_tokPh_A (tok : DiffPiece) (rest : List DiffPiece) (p : Option Char)
    (hfits : fitsTok tok = true)
    (hp : p = none ∨ ∃ c, p = some c ∧ isWordChar c = false)
    (hY : renderA rest = [] ∨ ∃ zs, renderA rest = ' ' :: zs) :
    cleanPartFrom p (renderA (tok :: rest))
      = tokPh tok ++ cleanPartFrom (some '>') (renderA rest) := by
  cases tok with
  | lit s => exact absurd hfits (by simp [fitsTok])
  | path a b =>
      simp only [fitsTok, Bool.and_eq_true] at hfits
      show cleanPartFrom p (a ++ renderA rest) = _
      rw [cleanPartFrom_path_tok a (renderA rest) p hfits.1 hY]
      rfl
  | lineNum a b =>
      simp only [fitsTok, Bool.and_eq_true] at hfits
      show cleanPartFrom p (a ++ renderA rest) = _
      rw [cleanPartFrom_line_tok a (renderA rest) p hfits.1 hY]
      rfl
  | time a b =>
      simp only [fitsTok, Bool.and_eq_true] at hfits
      show cleanPartFrom p (a ++ renderA rest) = _
      rw [cleanPartFrom_time_tok a (renderA rest) p hfits.1 hY]
      rfl
  | num a b =>
      simp only [fitsTok, Bool.and_eq_true] at hfits
      show cleanPartFrom p (a ++ renderA rest) = _
      rw [cleanPartFrom_num_tok a (renderA rest) p hfits.1 hp hY]
      rfl

theorem cleanPartFrom_tokPh_B (tok : DiffPiece) (rest : List DiffPiece) (p : Option Char)
    (hfits : fitsTok tok = true)
    (hp : p = none ∨ ∃ c, p = some c ∧ isWordChar c = false)
    (hY : renderB rest = [] ∨ ∃ zs, renderB rest = ' ' :: zs) :
    cleanPartFrom p (renderB (tok :: rest))
      = tokPh tok ++ cleanPartFrom (some '>') (renderB rest) := by
  cases tok with
  | lit s => exact absurd hfits (by simp [fitsTok])
  | path a b =>
      simp only [fitsTok, Bool.and_eq_true] at hfits
      show cleanPartFrom p (b ++ renderB rest) = _
      rw [cleanPartFrom_path_tok b (renderB rest) p hfits.2 hY]
      rfl
  | lineNum a b =>
      simp only [fitsTok, Bool.and_eq_true] at hfits
      show cleanPartFrom p (b ++ renderB rest) = _
      rw [cleanPartFrom_line_tok b (renderB rest) p hfits.2 hY]
      rfl
  | time a b =>
      simp only [fitsTok, Bool.and_eq_true] at hfits
      show cleanPartFrom p (b ++ renderB rest) = _
      rw [cleanPartFrom_time_tok b (renderB rest) p hfits.2 hY]
      rfl
  | num a b =>
      simp only [fitsTok, Bool.and_eq_true] at hfits
      show cleanPartFrom p (b ++ renderB rest) = _
      rw [cleanPartFrom_num_tok b (renderB rest) p hfits.2 hp hY]
      rfl

theorem cleanFrom_parallel : ∀ (n : ℕ) (u : List DiffPiece), u.length ≤ n →
    capOk u = true → ∀ p, (p = none ∨ ∃ c, p = some c ∧ isWordChar c = false) →
    cleanPartFrom p (renderA u) = cleanPartFrom p (renderB u) := by
  intro n
  induction n with
  | zero =>
      intro u hu _ p _
      have : u = [] := List.length_eq_zero.mp (Nat.le_zero.mp hu)
      subst this
      rfl
  | succ n ih =>
      intro u hu hcap p hp
      cases u with
      | nil => rfl
      | cons piece rest0 =>
          cases piece with
          | lit s =>
              cases rest0 with
              | nil => rfl
              | cons tok rest =>
                  unfold capOk at hcap
                  simp only [Bool.and_eq_true, Bool.not_eq_true'] at hcap
                  obtain ⟨⟨⟨hnl, hes⟩, hdo⟩, hcaprest⟩ := hcap
                  have hs := litEndsSpace_elim s hes
                  have hYA := renderA_afterTok tok rest hcaprest hnl
                  have hYB := renderB_afterTok tok rest hcaprest hnl
                  have hrA : renderA (DiffPiece.lit s :: tok :: rest)
                      = s.dropLast ++ ' ' :: renderA (tok :: rest) := by
                    show s ++ renderA (tok :: rest) = _
                    conv_lhs => rw [hs]
                    rw [← List.append_cons]
                  have hrB : renderB (DiffPiece.lit s :: tok :: rest)
                      = s.dropLast ++ ' ' :: renderB (tok :: rest) := by
                    show s ++ renderB (tok :: rest) = _
                    conv_lhs => rw [hs]
                    rw [← List.append_cons]
                  have hlen2 : (tok :: rest).length ≤ n := by
                    simp only [List.length_cons] at hu ⊢
                    omega
                  have hcondA : safeBoundHead (subFile (renderA (tok :: rest))) = true
                      ∨ lineDangle (subFile s.dropLast) = false := by
                    cases tok with
                    | lit s₂ => exact absurd hnl (by simp [isLit])
                    | path a b =>
                        left
                        have hfits := capOk_head_fits _ _ hcaprest hnl
                        simp only [fitsTok, Bool.and_eq_true] at hfits
                        show safeBoundHead (subFile (a ++ renderA rest)) = true
                        rw [subFile_path_tok a (renderA rest) hfits.1 hYA]
                        rfl
                    | lineNum a b =>
                        left
                        have hfits := capOk_head_fits _ _ hcaprest hnl
                        simp only [fitsTok, Bool.and_eq_true] at hfits
                        show safeBoundHead (subFile (a ++ renderA rest)) = true
                        rw [subFile_skip a (renderA rest) (lineTok_no_slash a hfits.1)]
                        obtain ⟨t, rfl⟩ := isLineTok_head a hfits.1
                        rfl
                    | time a b =>
                        right
                        simp only [dangleOk, Bool.not_eq_true'] at hdo
                        exact hdo
                    | num a b =>
                        right
                        simp only [dangleOk, Bool.not_eq_true'] at hdo
                        exact hdo
                  have hcondB : safeBoundHead (subFile (renderB (tok :: rest))) = true
                      ∨ lineDangle (subFile s.dropLast) = false := by
                    cases tok with
                    | lit s₂ => exact absurd hnl (by simp [isLit])
                    | path a b =>
                        left
                        have hfits := capOk_head_fits _ _ hcaprest hnl
                        simp only [fitsTok, Bool.and_eq_true] at hfits
                        show safeBoundHead (subFile (b ++ renderB rest)) = true
                        rw [subFile_path_tok b (renderB rest) hfits.2 hYB]
                        rfl
                    | lineNum a b =>
                        left
                        have hfits := capOk_head_fits _ _ hcaprest hnl
                        simp only [fitsTok, Bool.and_eq_true] at hfits
                        show safeBoundHead (subFile (b ++ renderB rest)) = true
                        rw [subFile_skip b (renderB rest) (lineTok_no_slash b hfits.2)]
                        obtain ⟨t, rfl⟩ := isLineTok_head b hfits.2
                        rfl
                    | time a b =>
                        right
                        simp only [dangleOk, Bool.not_eq_true'] at hdo
                        exact hdo
                    | num a b =>
                        right
                        simp only [dangleOk, Bool.not_eq_true'] at hdo
                        exact hdo
                  rw [hrA, hrB,
                    cleanPartFrom_split p s.dropLast (renderA (tok :: rest)) hcondA,
                    cleanPartFrom_split p s.dropLast (renderB (tok :: rest)) hcondB,
                    ih (tok :: rest) hlen2 hcaprest (some ' ')
                      (Or.inr ⟨' ', rfl, by decide⟩)]
          | path a b =>
              cases rest0 with
              | nil =>
                  have hfits : fitsTok (DiffPiece.path a b) = true :=
                    capOk_head_fits _ _ hcap (by simp [isLit])
                  rw [cleanPartFrom_tokPh_A _ [] p hfits hp (Or.inl rfl),
                    cleanPartFrom_tokPh_B _ [] p hfits hp (Or.inl rfl)]
                  rfl
              | cons piece2 rest' =>
                  cases piece2 with
                  | lit s' =>
                      unfold capOk at hcap
                      simp only [Bool.and_eq_true] at hcap
                      obtain ⟨⟨hfits, hst⟩, hcaprest⟩ := hcap
                      obtain ⟨z, hz⟩ := litStartsSpace_elim s' hst
                      have hYA : renderA (DiffPiece.lit s' :: rest') = []
                          ∨ ∃ zs, renderA (DiffPiece.lit s' :: rest') = ' ' :: zs := by
                        right
                        exact ⟨z ++ renderA rest', by show s' ++ _ = _; rw [hz]; rfl⟩
                      have hYB : renderB (DiffPiece.lit s' :: rest') = []
                          ∨ ∃ zs, renderB (DiffPiece.lit s' :: rest') = ' ' :: zs := by
                        right
                        exact ⟨z ++ renderB rest', by show s' ++ _ = _; rw [hz]; rfl⟩
                      have hlen2 : (DiffPiece.lit s' :: rest').length ≤ n := by
                        simp only [List.length_cons] at hu ⊢
                        omega
                      rw [cleanPartFrom_tokPh_A _ _ p hfits hp hYA,
                        cleanPartFrom_tokPh_B _ _ p hfits hp hYB,
                        ih (DiffPiece.lit s' :: rest') hlen2 hcaprest (some '>')
                          (Or.inr ⟨'>', rfl, by decide⟩)]
                  | path a' b' => exact absurd hcap (by simp [capOk])
                  | lineNum a' b' => exact absurd hcap (by simp [capOk])
                  | time a' b' => exact absurd hcap (by simp [capOk])
                  | num a' b' => exact absurd hcap (by simp [capOk])
          | lineNum a b =>
              cases rest0 with
              | nil =>
                  have hfits : fitsTok (DiffPiece.lineNum a b) = true :=
                    capOk_head_fits _ _ hcap (by simp [isLit])
                  rw [cleanPartFrom_tokPh_A _ [] p hfits hp (Or.inl rfl),
                    cleanPartFrom_tokPh_B _ [] p hfits hp (Or.inl rfl)]
                  rfl
              | cons piece2 rest' =>
                  cases piece2 with
                  | lit s' =>
                      unfold capOk at hcap
                      simp only [Bool.and_eq_true] at hcap
                      obtain ⟨⟨hfits, hst⟩, hcaprest⟩ := hcap
                      obtain ⟨z, hz⟩ := litStartsSpace_elim s' hst
                      have hYA : renderA (DiffPiece.lit s' :: rest') = []
                          ∨ ∃ zs, renderA (DiffPiece.lit s' :: rest') = ' ' :: zs := by
                        right
                        exact ⟨z ++ renderA rest', by show s' ++ _ = _; rw [hz]; rfl⟩
                      have hYB : renderB (DiffPiece.lit s' :: rest') = []
                          ∨ ∃ zs, renderB (DiffPiece.lit s' :: rest') = ' ' :: zs := by
                        right
                        exact ⟨z ++ renderB rest', by show s' ++ _ = _; rw [hz]; rfl⟩
                      have hlen2 : (DiffPiece.lit s' :: rest').length ≤ n := by
                        simp only [List.length_cons] at hu ⊢
                        omega
                      rw [cleanPartFrom_tokPh_A _ _ p hfits hp hYA,
                        cleanPartFrom_tokPh_B _ _ p hfits hp hYB,
                        ih (DiffPiece.lit s' :: rest') hlen2 hcaprest (some '>')
                          (Or.inr ⟨'>', rfl, by decide⟩)]
                  | path a' b' => exact absurd hcap (by simp [capOk])
                  | lineNum a' b' => exact absurd hcap (by simp [capOk])
                  | time a' b' => exact absurd hcap (by simp [capOk])
                  | num a' b' => exact absurd hcap (by simp [capOk])
          | time a b =>
              cases rest0 with
              | nil =>
                  have hfits : fitsTok (DiffPiece.time a b) = true :=
                    capOk_head_fits _ _ hcap (by simp [isLit])
                  rw [cleanPartFrom_tokPh_A _ [] p hfits hp (Or.inl rfl),
                    cleanPartFrom_tokPh_B _ [] p hfits hp (Or.inl rfl)]
                  rfl
              | cons piece2 rest' =>
                  cases piece2 with
                  | lit s' =>
                      unfold capOk at hcap
                      simp only [Bool.and_eq_true] at hcap
                      obtain ⟨⟨hfits, hst⟩, hcaprest⟩ := hcap
                      obtain ⟨z, hz⟩ := litStartsSpace_elim s' hst
                      have hYA : renderA (DiffPiece.lit s' :: rest') = []
                          ∨ ∃ zs, renderA (DiffPiece.lit s' :: rest') = ' ' :: zs := by
                        right
                        exact ⟨z ++ renderA rest', by show s' ++ _ = _; rw [hz]; rfl⟩
                      have hYB : renderB (DiffPiece.lit s' :: rest') = []
                          ∨ ∃ zs, renderB (DiffPiece.lit s' :: rest') = ' ' :: zs := by
                        right
                        exact ⟨z ++ renderB rest', by show s' ++ _ = _; rw [hz]; rfl⟩
                      have hlen2 : (DiffPiece.lit s' :: rest').length ≤ n := by
                        simp only [List.length_cons] at hu ⊢
                        omega
                      rw [cleanPartFrom_tokPh_A _ _ p hfits hp hYA,
                        cleanPartFrom_tokPh_B _ _ p hfits hp hYB,
                        ih (DiffPiece.lit s' :: rest') hlen2 hcaprest (some '>')
                          (Or.inr ⟨'>', rfl, by decide⟩)]
                  | path a' b' => exact absurd hcap (by simp [capOk])
                  | lineNum a' b' => exact absurd hcap (by simp [capOk])
                  | time a' b' => exact absurd hcap (by simp [capOk])
                  | num a' b' => exact absurd hcap (by simp [capOk])
          | num a b =>
              cases rest0 with
              | nil =>
                  have hfits : fitsTok (DiffPiece.num a b) = true :=
                    capOk_head_fits _ _ hcap (by simp [isLit])
                  rw [cleanPartFrom_tokPh_A _ [] p hfits hp (Or.inl rfl),
                    cleanPartFrom_tokPh_B _ [] p hfits hp (Or.inl rfl)]
                  rfl
              | cons piece2 rest' =>
                  cases piece2 with
                  | lit s' =>
                      unfold capOk at hcap
                      simp only [Bool.and_eq_true] at hcap
                      obtain ⟨⟨hfits, hst⟩, hcaprest⟩ := hcap
                      obtain ⟨z, hz⟩ := litStartsSpace_elim s' hst
                      have hYA : renderA (DiffPiece.lit s' :: rest') = []
                          ∨ ∃ zs, renderA (DiffPiece.lit s' :: rest') = ' ' :: zs := by
                        right
                        exact ⟨z ++ renderA rest', by show s' ++ _ = _; rw [hz]; rfl⟩
                      have hYB : renderB (DiffPiece.lit s' :: rest') = []
                          ∨ ∃ zs, renderB (DiffPiece.lit s' :: rest') = ' ' :: zs := by
                        right
                        exact ⟨z ++ renderB rest', by show s' ++ _ = _; rw [hz]; rfl⟩
                      have hlen2 : (DiffPiece.lit s' :: rest').length ≤ n := by
                        simp only [List.length_cons] at hu ⊢
                        omega
                      rw [cleanPartFrom_tokPh_A _ _ p hfits hp hYA,
                        cleanPartFrom_tokPh_B _ _ p hfits hp hYB,
                        ih (DiffPiece.lit s' :: rest') hlen2 hcaprest (some '>')
                          (Or.inr ⟨'>', rfl, by decide⟩)]
                  | path a' b' => exact absurd hcap (by simp [capOk])
                  | lineNum a' b' => exact absurd hcap (by simp [capOk])
                  | time a' b' => exact absurd hcap (by simp [capOk])
                  | num a' b' => exact absurd hcap (by simp [capOk])

/-- Cleaning invariance over a well-formed capture template: both renderings
clean to the same string. -/
theorem cleanPart_parallel (u : List DiffPiece) (h : capOk u = true) :
    cleanPart (renderA u) = cleanPart (renderB u) := by
  rw [cleanPart_eq_from, cleanPart_eq_from]
  exact cleanFrom_parallel u.length u le_rfl h none (Or.inl rfl)

/-- C8: the extraction itself can differ under path noise (see the
counterexample), but the cleaning half of the claim is real: whenever the
two texts are nonempty and their extraction-pattern captures are renderings
of a common capture template — identical literals around noise slots that
differ only in a file path, a `line N` phrase, a timestamp, or a bare
integer, each slot of the exact token shape its cleaning rule consumes,
each literal carrying the delimiting spaces, and no literal dangling a
`line` prefix into a numeric slot — the path, line-number, time and number
placeholders erase every difference and the fixed-length signatures are
equal: `extract(A) == extract(B)`. -/
theorem C8_template_invariance (A B : String) (partsT : List (List DiffPiece))
    (hA : A ≠ "") (hB : B ≠ "")
    (hpa : extractedParts (pyLower A).data = partsT.map renderA)
    (hpb : extractedParts (pyLower B).data = partsT.map renderB)
    (hok : ∀ u ∈ partsT, capOk u = true) :
    extract_error_signature A = extract_error_signature B := by
  unfold extract_error_signature
  rw [if_neg hA, if_neg hB]
  dsimp only
  rw [hpa, hpb]
  have hmap : ∀ (ts : List (List DiffPiece)), (∀ u ∈ ts, capOk u = true) →
      (ts.map renderA).filterMap (fun part =>
        let q := pyStrip (cleanPart part)
        if 10 < q.length then some q else none)
      = (ts.map renderB).filterMap (fun part =>
        let q := pyStrip (cleanPart part)
        if 10 < q.length then some q else none) := by
    intro ts hts
    induction ts with
    | nil => rfl
    | cons u us ihu =>
        simp only [List.map_cons, List.filterMap_cons]
        rw [cleanPart_parallel u (hts u (List.mem_cons_self u us)),
          ihu (fun v hv => hts v (List.mem_cons_of_mem u hv))]
  rw [hmap partsT hok]

/-- A well-formed capture template: the two captures differ only in the
file path. -/
def exTemplate2 : List DiffPiece :=
  [.lit "cannot open ".data,
   .path "/tmp/foo12.py".data "/tmp/bar9.py".data,
   .lit " now".data]

theorem C8_witness :
    ("error: cannot open /tmp/foo12.py now" : String) ≠ ""
    ∧ extract_error_signature "error: cannot open /tmp/foo12.py now"
        = extract_error_signature "error: cannot open /tmp/bar9.py now" :=
  ⟨by decide, C8_template_invariance
    "error: cannot open /tmp/foo12.py now"
    "error: cannot open /tmp/bar9.py now"
    [exTemplate2]
    (by decide) (by decide) (by decide) (by decide) (by decide)⟩
